import Mathlib

/-!
# flxlibs: the emulator-data generator, its CRC-20 and the card wrapper

A shallow embedding of `apps/emu_confgen.cxx` (the functions `crc20` and
`generateFm`) with proofs about the framing it produces, and of
`src/CardWrapper.cpp` (the DMA ring of `process_DMA`, `start` and `stop`) with
proofs about its cursor arithmetic and its use of the card mutex.

Machine integers are natural numbers; every place where the C++ arithmetic can
wrap carries an explicit `% 2 ^ 32` (for `uint32_t` / `unsigned`) or `% 2 ^ 64`
(for `uint64_t`).
-/

namespace Flx

/-! ## Constants of `emu_confgen.cxx` -/

/-- K28.5: `((uint64_t)1 << 32) | 0xBC`. -/
def FM_KCHAR_IDLE : Nat := (1 <<< 32) ||| 0xBC
/-- K28.1: `((uint64_t)1 << 32) | 0x3C`. -/
def FM_KCHAR_SOP : Nat := (1 <<< 32) ||| 0x3C
/-- K28.6: `((uint64_t)1 << 32) | 0xDC`. -/
def FM_KCHAR_EOP : Nat := (1 <<< 32) ||| 0xDC
/-- K28.2: `((uint64_t)1 << 32) | 0x5C`. -/
def FM_KCHAR_SOB : Nat := (1 <<< 32) ||| 0x5C
/-- K28.3: `((uint64_t)1 << 32) | 0x7C`. -/
def FM_KCHAR_EOB : Nat := (1 <<< 32) ||| 0x7C

def CRC_WIDTH : Nat := 20
def CRC_MASK : Nat := (1 <<< CRC_WIDTH) - 1
def CRC_POLYNOM_1 : Nat := 0xC1ACF
def CRC_POLYNOM_2 : Nat := 0x8359F
def CRC_INITVAL : Nat := 0xFFFFF
def CHUNKHDR_SIZE : Nat := 8
def EMU_SIZE : Nat := 8192

/-! ## `crc20` -/

/-- Body of the first loop of `crc20` (the seeding loop, `k = 0 .. CRC_WIDTH-1`). -/
def crcSeedStep (polynomial crc : Nat) : Nat :=
  if crc &&& 1 ≠ 0 then
    (crc >>> 1) ^^^ ((1 <<< (CRC_WIDTH - 1)) ||| (polynomial >>> 1))
  else
    crc >>> 1

/-- Body of the inner loop of `crc20` for the data word `d` and the loop
counter `k` (`1 ≤ k ≤ 32`); `crc` is a `uint64_t`, so the shift is taken
modulo `2 ^ 64`. -/
def crcBitStep (polynomial d : Nat) (crc k : Nat) : Nat :=
  if crc &&& (1 <<< (CRC_WIDTH - 1)) ≠ 0 then
    (((crc <<< 1) % 2 ^ 64) ||| ((d >>> (32 - k)) &&& 1)) ^^^ polynomial
  else
    ((crc <<< 1) % 2 ^ 64) ||| ((d >>> (32 - k)) &&& 1)

/-- One pass of the outer loop of `crc20`: the 32 inner steps `k = 1 .. 32`
for the word `d`, then `crc &= CRC_MASK`. -/
def crcWord (polynomial : Nat) (crc d : Nat) : Nat :=
  ((List.range 32).foldl (fun c j => crcBitStep polynomial d c (j + 1)) crc) &&& CRC_MASK

/-- Body of the last loop of `crc20` ("one more loop"). -/
def crcFinalStep (polynomial crc : Nat) : Nat :=
  if crc &&& (1 <<< (CRC_WIDTH - 1)) ≠ 0 then
    ((crc <<< 1) % 2 ^ 64) ^^^ polynomial
  else
    (crc <<< 1) % 2 ^ 64

/-- The generator polynomial `crc20` selects. -/
def crcPolynomial (crc_new : Bool) : Nat :=
  if crc_new then CRC_POLYNOM_2 else CRC_POLYNOM_1

/-- The function `crc20(data, length, crc_new)`; the pair `(data, length)` is the
list `data` of the `length` words read. -/
def crc20 (data : List Nat) (crc_new : Bool) : Nat :=
  let polynomial := crcPolynomial crc_new
  let crc := (List.range CRC_WIDTH).foldl (fun c _ => crcSeedStep polynomial c) CRC_INITVAL
  let crc := data.foldl (crcWord polynomial) crc
  let crc := (List.range CRC_WIDTH).foldl (fun c _ => crcFinalStep polynomial c) crc
  crc &&& CRC_MASK

/-! ## The bit-serial reference with a true 20-bit register -/

/-- One division step of the reference: shift `bit` into the 20-bit register
`reg`, XOR the generator polynomial when bit 19 was set before the shift, and
truncate to 20 bits. -/
def refStep (poly reg : Nat) (bit : Bool) : Nat :=
  (if reg.testBit 19 then (2 * reg + bit.toNat) ^^^ poly else 2 * reg + bit.toNat) % 2 ^ 20

/-- One seeding step of the reference (the register is divided the other way
round, with no input). -/
def refSeedStep (poly reg : Nat) : Nat :=
  if reg % 2 = 1 then (reg / 2) ^^^ (2 ^ 19 ||| poly / 2) else reg / 2

/-- The reference shifts the 32 bits of the word `w` in, most significant first. -/
def refWord (poly reg w : Nat) : Nat :=
  (List.range 32).foldl (fun r j => refStep poly r (w.testBit (31 - j))) reg

/-- The bit-serial reference checksum. -/
def crc20_ref (data : List Nat) (crc_new : Bool) : Nat :=
  let poly := if crc_new then 0x8359F else 0xC1ACF
  let seeded := (List.range 20).foldl (fun r _ => refSeedStep poly r) 0xFFFFF
  let reg := data.foldl (refWord poly) seeded
  (List.range 20).foldl (fun r _ => refStep poly r false) reg

/-- The sequence `data` with bit `b` of the word at position `i` flipped. -/
def flipBit : List Nat → Nat → Nat → List Nat
  | [], _, _ => []
  | w :: ws, 0, b => (w ^^^ (1 <<< b)) :: ws
  | w :: ws, i + 1, b => w :: flipBit ws i b

/-! ## `generateFm` -/

/-- The ways in which a run of the C++ code can fail to produce a result. -/
inductive Fault where
  /-- An access to `emudata` outside its `emusize` slots. -/
  | outOfBounds
  /-- An integer division by zero. -/
  | divByZero
  /-- A loop that never terminates. -/
  | diverges
  deriving DecidableEq, Repr

/-- The buffer `emudata` (a list of its `emusize` 64-bit slots) together with the
`uint32_t` cursor `index`. -/
structure Buf where
  emudata : List Nat
  index : Nat

/-- The statement `emudata[index++] = v`. -/
def Buf.put (b : Buf) (v : Nat) : Except Fault Buf :=
  if b.index < b.emudata.length then
    .ok { emudata := b.emudata.set b.index v, index := (b.index + 1) % 2 ^ 32 }
  else
    .error .outOfBounds

/-- The statement `--index` on the `uint32_t` cursor. -/
def Buf.back (b : Buf) : Buf :=
  { emudata := b.emudata, index := (b.index + 2 ^ 32 - 1) % 2 ^ 32 }

/-- The words `data[0 .. len)` that `crc20(&emudata[start], len, ..)` reads. -/
def Buf.slice (b : Buf) (start len : Nat) : Except Fault (List Nat) :=
  if start + len ≤ b.emudata.length then
    .ok ((b.emudata.drop start).take len)
  else
    .error .outOfBounds

/-- The loop `for (; index < emusize; ++index) emudata[index] = v;` with a
32-bit cursor; `fuel` bounds the number of passes. -/
def fillLoop (emusize v : Nat) : Nat → Buf → Except Fault Buf
  | 0, b => if b.index < emusize then .error .diverges else .ok b
  | fuel + 1, b =>
    if b.index < emusize then
      match b.put v with
      | .ok b1 => fillLoop emusize v fuel b1
      | .error e => .error e
    else .ok b

/-- The loop `for (i = 0; i < n; ++i) emudata[index++] = v;`. -/
def fillConst (v : Nat) : Nat → Buf → Except Fault Buf
  | 0, b => .ok b
  | n + 1, b =>
    match b.put v with
    | .ok b1 => fillConst v n b1
    | .error e => .error e

/-- The payload word of pattern 0 for the byte counter `cntr` (an `unsigned`). -/
def counterWord (cntr : Nat) : Nat :=
  ((((cntr + 3) % 2 ^ 32) &&& 0xFF) <<< 24) ||| ((((cntr + 2) % 2 ^ 32) &&& 0xFF) <<< 16)
    ||| ((((cntr + 1) % 2 ^ 32) &&& 0xFF) <<< 8) ||| ((((cntr + 0) % 2 ^ 32) &&& 0xFF) <<< 0)

/-- The loop `for (i = 0; i < n; ++i, cntr += 4) emudata[index++] = ...;` of
pattern 0. -/
def fillCounter : Nat → Nat → Buf → Except Fault Buf
  | 0, _, b => .ok b
  | n + 1, cntr, b =>
    match b.put (counterWord cntr) with
    | .ok b1 => fillCounter n ((cntr + 4) % 2 ^ 32) b1
    | .error e => .error e

/-- The chunk header word; all operands are `uint32_t` and no shift leaves 32
bits. -/
def chunkHeader (use_streamid : Bool) (chunkcntr chunk_datasz : Nat) : Nat :=
  if use_streamid then
    (chunkcntr &&& 0xFF) ||| (chunk_datasz &&& 0xF00) ||| ((chunk_datasz &&& 0x0FF) <<< 16)
      ||| ((chunkcntr &&& 0xFF) <<< 24)
  else
    0xAA ||| (chunk_datasz &&& 0xF00) ||| ((chunk_datasz &&& 0x0FF) <<< 16)
      ||| ((chunkcntr &&& 0xFF) <<< 24)

/-- The arguments of `generateFm`. The pair `(emudata, emusize)` is the list
`emudata`, so `emusize = emudata.length`. `rnd k` stands for the value of
`static_cast<uint32_t>(static_cast<double>(sz) * r + d)` drawn for the chunk
with counter `k`; the floating-point expression itself is not modelled, only
that with `r` in `[0, 1]` the value lies in `0 .. sz`. -/
structure FmArgs where
  emudata : List Nat
  req_chunksize : Nat
  pattern_id : Nat
  idle_chars : Nat
  random_sz : Bool
  crc_new : Bool
  use_streamid : Bool
  add_busy : Bool
  omit_one_soc : Bool
  omit_one_eoc : Bool
  add_crc_err : Bool
  rnd : Nat → Nat

/-- Bookkeeping for one chunk the main loop has written: its counter, the slot
its header word went to, the slot its EOP word went to, and its `chunksz`. -/
structure ChunkRec where
  cntr : Nat
  hdr : Nat
  eop : Nat
  chunksz : Nat
  deriving DecidableEq, Repr

/-- The local state of the main loop of `generateFm`; `chunks` is bookkeeping
only and is never read by the code. -/
structure FmState where
  buf : Buf
  chunkcntr : Nat
  success : Bool
  chunks : List ChunkRec

/-- The chunk size the loop body chooses (`chunksz`). -/
def chunkSize (req_chunksize : Nat) (random_sz : Bool) (t : Nat) : Nat :=
  if random_sz = true ∧ req_chunksize > 8 then
    let sz := ((req_chunksize + 1) % 2 ^ 32) / 2
    (((sz + t % (sz + 1) + 3) % 2 ^ 32) / 4) * 4
  else
    req_chunksize

/-- The payload loops: `n` words according to `pattern_id`. -/
def fillPayload (pattern_id n : Nat) (b : Buf) : Except Fault Buf :=
  if pattern_id = 1 then fillConst 0xAA55AA55 n b
  else if pattern_id = 2 then fillConst 0xFFFFFFFF n b
  else if pattern_id = 3 then fillConst 0x00000000 n b
  else fillCounter n 0 b

/-- The value of `chunk_datasz = chunksz - CHUNKHDR_SIZE`: the difference is
taken in `uint64_t` and stored in a `uint32_t`. -/
def chunkDataSz (chunksz : Nat) : Nat :=
  ((chunksz + 2 ^ 64 - CHUNKHDR_SIZE) % 2 ^ 64) % 2 ^ 32

/-- The part of the loop body of `generateFm` that writes one chunk (from the
`// SOP` comment to `++chunkcntr`). -/
def emitChunk (a : FmArgs) (chunksz : Nat) (s : FmState) : Except Fault FmState :=
  match s.buf.put FM_KCHAR_SOP with
  | .error e => .error e
  | .ok b0 =>
    let b1 := if a.omit_one_soc = true ∧ s.chunkcntr = 2 then b0.back else b0
    let chunk_datasz := chunkDataSz chunksz
    match b1.put (chunkHeader a.use_streamid s.chunkcntr chunk_datasz) with
    | .error e => .error e
    | .ok b2 =>
    match b2.put 0x10AABB00 with
    | .error e => .error e
    | .ok b3 =>
    match fillPayload a.pattern_id (chunk_datasz / 4) b3 with
    | .error e => .error e
    | .ok b4 =>
    match b4.slice ((b4.index + 2 ^ 32 - chunksz / 4) % 2 ^ 32) (chunksz / 4) with
    | .error e => .error e
    | .ok data =>
    let crc := crc20 data a.crc_new
    let crc := if a.add_crc_err = true ∧ s.chunkcntr = 3 then (crc + 1) % 2 ^ 64 else crc
    match b4.put (FM_KCHAR_EOP ||| ((crc <<< 8) % 2 ^ 64)) with
    | .error e => .error e
    | .ok b5 =>
    let b6 := if a.omit_one_eoc = true ∧ s.chunkcntr = 2 then b5.back else b5
    match (if a.add_busy = true ∧ s.chunkcntr = 0 then b6.put FM_KCHAR_SOB else .ok b6) with
    | .error e => .error e
    | .ok b7 =>
    match fillConst FM_KCHAR_IDLE a.idle_chars b7 with
    | .error e => .error e
    | .ok b8 =>
    match (if a.add_busy = true ∧ s.chunkcntr = 0 then b8.put FM_KCHAR_EOB else .ok b8) with
    | .error e => .error e
    | .ok b9 =>
      .ok { buf := b9
            chunkcntr := (s.chunkcntr + 1) % 2 ^ 32
            success := s.success
            chunks := s.chunks ++
              [{ cntr := s.chunkcntr, hdr := b1.index, eop := b4.index, chunksz := chunksz }] }

/-- The loop `while (index < emusize && chunkcntr < max_chunkcnt)` of
`generateFm`; `fuel` bounds the number of passes. -/
def mainLoop (a : FmArgs) (emusize max_chunkcnt : Nat) : Nat → FmState → Except Fault FmState
  | 0, s =>
    if s.buf.index < emusize ∧ s.chunkcntr < max_chunkcnt then .error .diverges else .ok s
  | fuel + 1, s =>
    if s.buf.index < emusize ∧ s.chunkcntr < max_chunkcnt then
      let chunksz := chunkSize a.req_chunksize a.random_sz (a.rnd s.chunkcntr)
      let next_index := (s.buf.index + (1 + chunksz / 4 + 1)) % 2 ^ 32
      if next_index ≥ emusize then
        match fillLoop emusize FM_KCHAR_IDLE emusize s.buf with
        | .error e => .error e
        | .ok b =>
          mainLoop a emusize max_chunkcnt fuel
            { buf := b, chunkcntr := s.chunkcntr, success := false, chunks := s.chunks }
      else
        match emitChunk a chunksz s with
        | .error e => .error e
        | .ok s1 => mainLoop a emusize max_chunkcnt fuel s1
    else .ok s

/-- What a run of `generateFm` leaves behind: the buffer, the returned flag,
and (bookkeeping) the final chunk counter and the chunks written. -/
structure FmResult where
  emudata : List Nat
  success : Bool
  chunkcntr : Nat
  chunks : List ChunkRec
  deriving DecidableEq, Repr

/-- Outcomes of runs can be compared. -/
instance : DecidableEq (Except Fault FmResult) := fun x y =>
  match x, y with
  | .ok r1, .ok r2 =>
    if h : r1 = r2 then isTrue (congrArg Except.ok h)
    else isFalse (fun e => h (Except.ok.inj e))
  | .error e1, .error e2 =>
    if h : e1 = e2 then isTrue (congrArg Except.error h)
    else isFalse (fun e => h (Except.error.inj e))
  | .ok _, .error _ => isFalse (fun e => Except.noConfusion e)
  | .error _, .ok _ => isFalse (fun e => Except.noConfusion e)

/-- The divisor `(1 + req_chunksize / 4 + 1 + idle_chars)`, a `uint32_t`. -/
def fmDivisor (a : FmArgs) : Nat := (1 + a.req_chunksize / 4 + 1 + a.idle_chars) % 2 ^ 32

/-- The value of `max_chunkcnt`: the `uint64_t` quotient `(emusize - 2) / divisor`
stored in a `uint32_t`. -/
def maxChunkCnt (a : FmArgs) : Nat :=
  (((a.emudata.length + 2 ^ 64 - 2) % 2 ^ 64) / fmDivisor a) % 2 ^ 32

/-- The function `generateFm`. Each pass of the main loop either increments
`chunkcntr` or leaves `index = emusize`, so `max_chunkcnt + 1` passes are
enough fuel. -/
def generateFm (a : FmArgs) : Except Fault FmResult :=
  let emusize := a.emudata.length
  match fillLoop emusize 0 emusize { emudata := a.emudata, index := 0 } with
  | .error e => .error e
  | .ok z =>
    if fmDivisor a = 0 then .error .divByZero
    else
      let max_chunkcnt := maxChunkCnt a
      match Buf.put { emudata := z.emudata, index := 0 } FM_KCHAR_IDLE with
      | .error e => .error e
      | .ok i1 =>
      match i1.put FM_KCHAR_IDLE with
      | .error e => .error e
      | .ok i2 =>
      match mainLoop a emusize max_chunkcnt (max_chunkcnt + 1)
          { buf := i2, chunkcntr := 0, success := true, chunks := [] } with
      | .error e => .error e
      | .ok s =>
      match fillLoop emusize FM_KCHAR_IDLE emusize s.buf with
      | .error e => .error e
      | .ok b =>
        .ok { emudata := b.emudata
              success := if s.chunkcntr < max_chunkcnt then false else s.success
              chunkcntr := s.chunkcntr
              chunks := s.chunks }

/-- The arguments `main` passes to `generateFm` by default, for a buffer
`emudata`. -/
def defaultArgs (emudata : List Nat) : FmArgs :=
  { emudata := emudata, req_chunksize := 464, pattern_id := 0, idle_chars := 1
    random_sz := false, crc_new := true, use_streamid := false, add_busy := false
    omit_one_soc := false, omit_one_eoc := false, add_crc_err := false
    rnd := fun _ => 0 }

/-- A small run: 24 slots, chunks of 8 bytes (header and width word only), one
IDLE between chunks, and the checksum of chunk 3 corrupted. -/
def smallArgs : FmArgs :=
  { emudata := List.replicate 24 0, req_chunksize := 8, pattern_id := 0, idle_chars := 1
    random_sz := false, crc_new := true, use_streamid := false, add_busy := false
    omit_one_soc := false, omit_one_eoc := false, add_crc_err := true
    rnd := fun _ => 0 }

/-- A small run without fault injection: 16 slots, chunks of 16 bytes, one IDLE
between chunks. -/
def plainArgs : FmArgs :=
  { emudata := List.replicate 16 0, req_chunksize := 16, pattern_id := 0, idle_chars := 1
    random_sz := false, crc_new := true, use_streamid := false, add_busy := false
    omit_one_soc := false, omit_one_eoc := false, add_crc_err := false
    rnd := fun _ => 0 }

/-- The result of the run `smallArgs`. -/
def smallResult : FmResult :=
  { emudata := [0x1000000BC, 0x1000000BC, 0x10000003C, 0xAA, 0x10AABB00, 0x100225BDC,
      0x1000000BC, 0x10000003C, 0x10000AA, 0x10AABB00, 0x1030C5ADC, 0x1000000BC,
      0x10000003C, 0x20000AA, 0x10AABB00, 0x1067E59DC, 0x1000000BC, 0x10000003C,
      0x30000AA, 0x10AABB00, 0x1055059DC, 0x1000000BC, 0x1000000BC, 0x1000000BC]
    success := true
    chunkcntr := 4
    chunks := [{ cntr := 0, hdr := 3, eop := 5, chunksz := 8 },
               { cntr := 1, hdr := 8, eop := 10, chunksz := 8 },
               { cntr := 2, hdr := 13, eop := 15, chunksz := 8 },
               { cntr := 3, hdr := 18, eop := 20, chunksz := 8 }] }

/-- The result of the run `plainArgs`. -/
def plainResult : FmResult :=
  { emudata := [0x1000000BC, 0x1000000BC, 0x10000003C, 0x800AA, 0x10AABB00, 0x03020100,
      0x07060504, 0x10F758FDC, 0x1000000BC, 0x10000003C, 0x10800AA, 0x10AABB00,
      0x03020100, 0x07060504, 0x1078C5BDC, 0x1000000BC]
    success := true
    chunkcntr := 2
    chunks := [{ cntr := 0, hdr := 3, eop := 7, chunksz := 16 },
               { cntr := 1, hdr := 10, eop := 14, chunksz := 16 }] }

/-! ## The sequence of words a run writes

The cursor only moves forward, except for the two `--index` statements, which
step back over the word just stored. So the slots below the cursor (`view`)
grow by appending, and the final buffer is what the functions below describe. -/

/-- The slots below the cursor. -/
def Buf.view (b : Buf) : List Nat := b.emudata.take b.index

/-- The cursor is inside the buffer and the buffer has fewer than `2 ^ 32` slots. -/
def Buf.Good (b : Buf) : Prop := b.index ≤ b.emudata.length ∧ b.emudata.length < 2 ^ 32

/-- The `i`-th payload word of a chunk for the pattern `pattern_id`. -/
def payloadWord (pattern_id i : Nat) : Nat :=
  if pattern_id = 1 then 0xAA55AA55
  else if pattern_id = 2 then 0xFFFFFFFF
  else if pattern_id = 3 then 0x00000000
  else counterWord (4 * i)

/-- The `n` payload words of a chunk. -/
def payloadWords (pattern_id n : Nat) : List Nat := (List.range n).map (payloadWord pattern_id)

/-- The value of `chunk_datasz` for a 32-bit `chunksz`, by cases: `chunksz - 8`,
wrapping around below 8. -/
def dataSz (chunksz : Nat) : Nat :=
  if 8 ≤ chunksz then chunksz - 8 else chunksz + 2 ^ 32 - 8

/-- Header word, width word and payload words of the chunk with counter `k`. -/
def chunkWords (a : FmArgs) (k chunksz : Nat) : List Nat :=
  chunkHeader a.use_streamid k (dataSz chunksz) :: 0x10AABB00
    :: payloadWords a.pattern_id (dataSz chunksz / 4)

/-- The `chunksz / 4` words in front of the EOP slot, which `crc20` reads. -/
def crcInput (a : FmArgs) (k chunksz : Nat) : List Nat :=
  (chunkWords a k chunksz).drop ((chunkWords a k chunksz).length - chunksz / 4)

/-- The checksum value stored with chunk `k` (incremented for the chunk that
`add_crc_err` corrupts). -/
def storedCrc (a : FmArgs) (k chunksz : Nat) : Nat :=
  if a.add_crc_err = true ∧ k = 3 then crc20 (crcInput a k chunksz) a.crc_new + 1
  else crc20 (crcInput a k chunksz) a.crc_new

/-- The EOP word of chunk `k`. -/
def eopWord (a : FmArgs) (k chunksz : Nat) : Nat :=
  FM_KCHAR_EOP ||| (storedCrc a k chunksz <<< 8)

/-- Number of slots (0 or 1) the SOP of chunk `k` keeps. -/
def sopLen (a : FmArgs) (k : Nat) : Nat :=
  if a.omit_one_soc = true ∧ k = 2 then 0 else 1

/-- The words one pass of the main loop leaves below the cursor. -/
def iterWords (a : FmArgs) (k chunksz : Nat) : List Nat :=
  (if a.omit_one_soc = true ∧ k = 2 then [] else [FM_KCHAR_SOP])
    ++ chunkWords a k chunksz
    ++ (if a.omit_one_eoc = true ∧ k = 2 then [] else [eopWord a k chunksz])
    ++ (if a.add_busy = true ∧ k = 0 then [FM_KCHAR_SOB] else [])
    ++ List.replicate a.idle_chars FM_KCHAR_IDLE
    ++ (if a.add_busy = true ∧ k = 0 then [FM_KCHAR_EOB] else [])

/-- The chunk size of the chunk with counter `k`. -/
def csz (a : FmArgs) (k : Nat) : Nat := chunkSize a.req_chunksize a.random_sz (a.rnd k)

/-- The words of `m` consecutive passes, starting with chunk counter `k`. -/
def blocks (a : FmArgs) : Nat → Nat → List Nat
  | _, 0 => []
  | k, m + 1 => iterWords a k (csz a k) ++ blocks a (k + 1) m

/-- The bookkeeping records of `m` consecutive passes, the first of which
starts at slot `off` with chunk counter `k`. -/
def recs (a : FmArgs) : Nat → Nat → Nat → List ChunkRec
  | _, _, 0 => []
  | off, k, m + 1 =>
    { cntr := k, hdr := off + sopLen a k,
      eop := off + sopLen a k + 2 + dataSz (csz a k) / 4, chunksz := csz a k }
      :: recs a (off + (iterWords a k (csz a k)).length) (k + 1) m

/-- What a returned run of the main loop, started in `s` and ended in `s1`
after writing `m` chunks, guarantees for a buffer of `n` slots. -/
def LoopPost (a : FmArgs) (n max : Nat) (s s1 : FmState) (m : Nat) : Prop :=
  s1.chunkcntr = s.chunkcntr + m
    ∧ s1.buf.Good ∧ s1.buf.emudata.length = n
    ∧ s.buf.index + (blocks a s.chunkcntr m).length ≤ n
    ∧ s1.buf.view ++ List.replicate (n - s1.buf.index) FM_KCHAR_IDLE
        = s.buf.view ++ blocks a s.chunkcntr m
            ++ List.replicate (n - (s.buf.index + (blocks a s.chunkcntr m).length)) FM_KCHAR_IDLE
    ∧ s1.chunks = s.chunks ++ recs a s.buf.index s.chunkcntr m
    ∧ (0 < m → s.chunkcntr + m ≤ max)
    ∧ ((s1.success = s.success
          ∧ s1.buf.index = s.buf.index + (blocks a s.chunkcntr m).length
          ∧ ¬ (s1.buf.index < n ∧ s1.chunkcntr < max))
        ∨ (s1.success = false
          ∧ s.buf.index + (blocks a s.chunkcntr m).length < n
          ∧ s.chunkcntr + m < max
          ∧ n ≤ (s.buf.index + (blocks a s.chunkcntr m).length
                  + (1 + csz a (s.chunkcntr + m) / 4 + 1)) % 2 ^ 32))

/-- What a returned run of `generateFm` guarantees: the final buffer is two
IDLE words, the blocks of the `chunkcntr` chunks written, and IDLE words up to
the end; the flag returned tells whether `max_chunkcnt` chunks were written. -/
def FmPost (a : FmArgs) (r : FmResult) : Prop :=
  a.emudata.length < 2 ^ 32 ∧ fmDivisor a ≠ 0
    ∧ 2 + (blocks a 0 r.chunkcntr).length ≤ a.emudata.length
    ∧ r.emudata = FM_KCHAR_IDLE :: FM_KCHAR_IDLE :: (blocks a 0 r.chunkcntr
        ++ List.replicate (a.emudata.length - (2 + (blocks a 0 r.chunkcntr).length))
            FM_KCHAR_IDLE)
    ∧ r.chunks = recs a 2 0 r.chunkcntr
    ∧ r.chunkcntr ≤ maxChunkCnt a
    ∧ (r.success = true ↔ r.chunkcntr = maxChunkCnt a)
    ∧ (r.chunkcntr < maxChunkCnt a →
        2 + (blocks a 0 r.chunkcntr).length = a.emudata.length
        ∨ (2 + (blocks a 0 r.chunkcntr).length < a.emudata.length
            ∧ a.emudata.length ≤ (2 + (blocks a 0 r.chunkcntr).length
                + (1 + csz a r.chunkcntr / 4 + 1)) % 2 ^ 32))

/-- The stores of the `m` chunks written from slot `off` and chunk counter `k`
on all fall inside a buffer of `n` slots, as far as their counters stay below
`max`. -/
def Fits (a : FmArgs) (n max off k : Nat) : Prop :=
  ∀ j, k + j < max →
    off + (blocks a k j).length + sopLen a (k + j) + 2 + dataSz (csz a (k + j)) / 4 + 1 ≤ n
      ∧ off + (blocks a k (j + 1)).length ≤ n

/-- The run uses none of `random_sz`, `add_busy` and the three fault flags. -/
def Plain (a : FmArgs) : Prop :=
  a.random_sz = false ∧ a.add_busy = false ∧ a.omit_one_soc = false
    ∧ a.omit_one_eoc = false ∧ a.add_crc_err = false

/-- The distance between the SOP slots of consecutive chunks of a plain run:
`S = W + 2 + idle_chars` with `W = req_chunksize / 4`. -/
def stride (a : FmArgs) : Nat := a.req_chunksize / 4 + 2 + a.idle_chars

/-- A word with the K-character flag and the tag byte `0xDC` of an EOP. -/
def isEop (w : Nat) : Bool := w >>> 32 == 1 && w &&& 0xFF == 0xDC

/-- Payload byte `t` of the chunk `c` in the buffer `emudata`: the payload words
start two slots after the header word and are read in little-endian order. -/
def payloadByte (emudata : List Nat) (c : ChunkRec) (t : Nat) : Nat :=
  ((emudata.getD (c.hdr + 2 + t / 4) 0) >>> (8 * (t % 4))) &&& 0xFF

/-! ## The card wrapper (`src/CardWrapper.cpp`)

The member declarations of `CardWrapper` are in `CardWrapper.hpp`; the address,
size and index members are 64-bit unsigned values here and the constant
`m_block_size` is a field of the state. -/

/-- The sum of two `uint64_t` values. -/
def add64 (a b : Nat) : Nat := (a + b) % 2 ^ 64

/-- The difference of two `uint64_t` values (both below `2 ^ 64`). -/
def sub64 (a b : Nat) : Nat := (a + 2 ^ 64 - b) % 2 ^ 64

/-- The product of two `uint64_t` values. -/
def mul64 (a b : Nat) : Nat := (a * b) % 2 ^ 64

/-- The observable actions of the wrapper: the card mutex, the calls into the
`FlxCard` object, the sleeps, the block-address callback and the hand-over of
`process_DMA` to the worker thread. -/
inductive Act where
  /-- Is `m_card_mutex.lock()`. -/
  | lock
  /-- Is `m_card_mutex.unlock()`. -/
  | unlock
  | dma_reset
  | soft_reset
  | irq_reset_counters
  | irq_enable
  | irq_disable
  | dma_to_host (dma_id phys_addr dma_memory_size : Nat)
  | dma_stop (dma_id : Nat)
  | dma_set_ptr (dma_id destination : Nat)
  /-- The blocking wait for the data-available interrupt. -/
  | irq_wait
  /-- The read of `DMA_DESC_STATUS[m_dma_id].current_address`. -/
  | read_address
  /-- Is `std::this_thread::sleep_for`, in microseconds. -/
  | sleep (us : Nat)
  /-- Is `m_handle_block_addr(from_address)`. -/
  | handle_block_addr (from_address : Nat)
  /-- Is `m_dma_processor.set_work(&CardWrapper::process_DMA, this)`. -/
  | set_work
  deriving DecidableEq, Repr

/-- The members of `CardWrapper` that the modelled functions read or write, and
the actions performed so far (`trace`, oldest first). -/
structure Card where
  run_marker : Bool
  block_addr_handler_available : Bool
  interrupt_mode : Bool
  poll_time : Nat
  dma_id : Nat
  margin_blocks : Nat
  block_threshold : Nat
  block_size : Nat
  dma_memory_size : Nat
  phys_addr : Nat
  virt_addr : Nat
  current_addr : Nat
  destination : Nat
  read_index : Nat
  trace : List Act
  deriving DecidableEq, Repr

/-- Record actions at the end of the trace. -/
def Card.act (c : Card) (as : List Act) : Card := { c with trace := c.trace ++ as }

/-- How a loop or a function was left. -/
inductive Flow where
  /-- The loop condition became false: control goes on behind the loop. -/
  | next
  /-- The function returned. -/
  | returned
  /-- The fuel ran out before the loop was left. -/
  | fuel
  /-- Undefined behaviour. -/
  | fault (f : Fault)
  deriving DecidableEq, Repr

/-- `CardWrapper::set_running`. -/
def set_running (should_run : Bool) (c : Card) : Card := { c with run_marker := should_run }

/-- `CardWrapper::init_DMA`. -/
def init_DMA (c : Card) : Card :=
  let c1 := c.act [.lock, .dma_reset, .soft_reset, .irq_reset_counters]
  let c2 := if c1.interrupt_mode = true then c1.act [.irq_enable] else c1.act [.irq_disable]
  let c3 := c2.act [.unlock]
  { c3 with current_addr := c3.phys_addr, destination := c3.phys_addr, read_index := 0 }

/-- `CardWrapper::start_DMA`. -/
def start_DMA (c : Card) : Card :=
  c.act [.lock, .dma_to_host c.dma_id c.phys_addr c.dma_memory_size, .unlock]

/-- `CardWrapper::stop_DMA`. -/
def stop_DMA (c : Card) : Card := c.act [.lock, .dma_stop c.dma_id, .unlock]

/-- `CardWrapper::start`. -/
def start (c : Card) : Card :=
  if c.run_marker = false then
    (set_running true (start_DMA c)).act [.set_work]
  else c

/-- The loop `while (!m_dma_processor.get_readiness()) sleep 10 ms` of
`graceful_stop`; `ready k` is the answer of the `k`-th call of `get_readiness`. -/
def waitReady (ready : Nat → Bool) : Nat → Nat → Card → Flow × Card
  | fuel, k, c =>
    if ready k = false then
      match fuel with
      | 0 => (.fuel, c)
      | fuel + 1 => waitReady ready fuel (k + 1) (c.act [.sleep 10000])
    else (.next, c)

/-- `CardWrapper::graceful_stop`. -/
def graceful_stop (ready : Nat → Bool) (fuel : Nat) (c : Card) : Flow × Card :=
  if c.run_marker = true then
    match waitReady ready fuel 0 (set_running false c) with
    | (.next, c1) => (.returned, init_DMA (stop_DMA c1))
    | r => r
  else (.returned, c)

/-- `CardWrapper::stop`. -/
def stop (ready : Nat → Bool) (fuel : Nat) (c : Card) : Flow × Card := graceful_stop ready fuel c

/-- `CardWrapper::bytes_available`. -/
def bytes_available (c : Card) : Except Fault Nat :=
  if c.dma_memory_size = 0 then .error .divByZero
  else
    .ok (add64 (sub64 c.current_addr (add64 (mul64 c.read_index c.block_size) c.phys_addr))
          c.dma_memory_size % c.dma_memory_size)

/-- What the worker thread gets from outside while it runs: `marker k` is the
value of its `k`-th load of `m_run_marker` (another thread stores it), and
`address k` the value of its `k`-th read of the card's `current_address`
register. -/
structure World where
  marker : Nat → Bool
  address : Nat → Nat

/-- The state of the worker thread: the card members and how many loads of the
run marker and reads of the register it has done. -/
structure Worker where
  card : Card
  loads : Nat
  reads : Nat
  deriving DecidableEq, Repr

/-- `CardWrapper::read_current_address`. -/
def read_current_address (w : World) (s : Worker) : Worker :=
  { s with
    card := { s.card.act [.lock, .read_address, .unlock] with
              current_addr := w.address s.reads % 2 ^ 64 }
    reads := s.reads + 1 }

/-- The condition of the first inner loop of `process_DMA`:
`(m_current_addr < m_phys_addr) || (m_phys_addr + m_dma_memory_size < m_current_addr)`. -/
def pollGuard (c : Card) : Bool :=
  decide (c.current_addr < c.phys_addr)
    || decide (add64 c.phys_addr c.dma_memory_size < c.current_addr)

/-- The first inner loop of `process_DMA`: poll until the address makes sense. -/
def pollLoop (w : World) : Nat → Worker → Flow × Worker
  | fuel, s =>
    if pollGuard s.card = true then
      match fuel with
      | 0 => (.fuel, s)
      | fuel + 1 =>
        if w.marker s.loads = true then
          let s1 := read_current_address w { s with loads := s.loads + 1 }
          pollLoop w fuel { s1 with card := s1.card.act [.sleep 5000] }
        else (.returned, { s with loads := s.loads + 1 })
    else (.next, s)

/-- The second inner loop of `process_DMA`: wait while there are not enough
data. -/
def waitLoop (w : World) : Nat → Worker → Flow × Worker
  | fuel, s =>
    match fuel, bytes_available s.card with
    | _, .error f => (.fault f, s)
    | 0, .ok avail =>
      if avail < mul64 s.card.block_threshold s.card.block_size then (.fuel, s) else (.next, s)
    | fuel + 1, .ok avail =>
      if avail < mul64 s.card.block_threshold s.card.block_size then
        if w.marker s.loads = true then
          let c1 :=
            if s.card.interrupt_mode = true then s.card.act [.lock, .irq_wait, .unlock]
            else s.card.act [.sleep s.card.poll_time]
          waitLoop w fuel (read_current_address w { s with card := c1, loads := s.loads + 1 })
        else (.returned, { s with loads := s.loads + 1 })
      else (.next, s)

/-- The loop `while (m_read_index != write_index)` of `process_DMA`, with the
accumulator `bytes`. -/
def drainLoop (write_index : Nat) : Nat → Card → Nat → Flow × Card × Nat
  | fuel, c, bytes =>
    if c.read_index ≠ write_index then
      match fuel with
      | 0 => (.fuel, c, bytes)
      | fuel + 1 =>
        let from_address := add64 c.virt_addr (mul64 c.read_index c.block_size)
        let c1 :=
          if c.block_addr_handler_available = true then c.act [.handle_block_addr from_address]
          else c
        if c.block_size = 0 ∨ c.dma_memory_size / c.block_size = 0 then
          (.fault .divByZero, c1, bytes)
        else
          drainLoop write_index fuel
            { c1 with read_index := add64 c.read_index 1 % (c.dma_memory_size / c.block_size) }
            (add64 bytes c.block_size)
    else (.next, c, bytes)

/-- The value `write_index = (m_current_addr - m_phys_addr) / m_block_size`. -/
def writeIndex (c : Card) : Nat := sub64 c.current_addr c.phys_addr / c.block_size

/-- One drain pass of `process_DMA`: `write_index`, `bytes = 0` and the loop.
The result carries `write_index` for what follows the loop. -/
def drainPass (fuel : Nat) (c : Card) : Flow × Card × Nat × Nat :=
  if c.block_size = 0 then (.fault .divByZero, c, 0, 0)
  else
    match drainLoop (writeIndex c) fuel c 0 with
    | (f, c1, bytes) => (f, c1, writeIndex c, bytes)

/-- The value stored in `m_destination` behind the drain loop. -/
def newDestination (c : Card) (write_index : Nat) : Nat :=
  let d := sub64 (add64 c.phys_addr (mul64 write_index c.block_size))
            (mul64 c.margin_blocks c.block_size)
  if d < c.phys_addr then add64 d c.dma_memory_size else d

/-- The end of one round of `process_DMA`: store the destination and pass it to
the card. -/
def advancePointer (c : Card) (write_index : Nat) : Card :=
  let d := newDestination c write_index
  ({ c with destination := d }).act [.lock, .dma_set_ptr c.dma_id d, .unlock]

/-- `CardWrapper::process_DMA`; `inner` is the fuel of each inner loop, the
other number the fuel of the outer loop. -/
def process_DMA (w : World) (inner : Nat) : Nat → Worker → Flow × Worker
  | fuel, s =>
    if w.marker s.loads = true then
      match fuel with
      | 0 => (.fuel, s)
      | fuel + 1 =>
        match pollLoop w inner { s with loads := s.loads + 1 } with
        | (.next, s1) =>
          match waitLoop w inner s1 with
          | (.next, s2) =>
            match drainPass inner s2.card with
            | (.next, c3, write_index, _) =>
              process_DMA w inner fuel { s2 with card := advancePointer c3 write_index }
            | (f, c3, _, _) => (f, { s2 with card := c3 })
          | r => r
        | r => r
    else (.returned, { s with loads := s.loads + 1 })

/-! ## Specification-level definitions for the card wrapper -/

/-- A card with a region of `2 ^ 63 + 2 ^ 30` bytes at address 0, the write
pointer at `2 ^ 63` and nothing read yet. -/
def hugeCard : Card :=
  { run_marker := true, block_addr_handler_available := true, interrupt_mode := false,
    poll_time := 5000, dma_id := 0, margin_blocks := 4, block_threshold := 256,
    block_size := 4096, dma_memory_size := 2 ^ 63 + 2 ^ 30, phys_addr := 0,
    virt_addr := 0, current_addr := 2 ^ 63, destination := 0, read_index := 0, trace := [] }

/-- A card with four blocks of 4096 bytes at `0x10000`, configured and not
running: the state `init_DMA` leaves. -/
def smallCard : Card :=
  { run_marker := false, block_addr_handler_available := true, interrupt_mode := false,
    poll_time := 5000, dma_id := 0, margin_blocks := 1, block_threshold := 1,
    block_size := 4096, dma_memory_size := 16384, phys_addr := 0x10000,
    virt_addr := 0x7f0000, current_addr := 0x10000, destination := 0x10000, read_index := 0,
    trace := [] }

/-- The card `smallCard` with the write pointer one past the last byte of the
region, `base + total_bytes`, and the read index at block 1. -/
def endCard : Card := { smallCard with run_marker := true, current_addr := 0x10000 + 16384, read_index := 1 }

/-- A world in which the run marker stays set and the register always holds
`a`. -/
def constWorld (a : Nat) : World := { marker := fun _ => true, address := fun _ => a }

/-- The block addresses one drain pass hands over when it starts at read index
`r0` and runs `k` steps on a ring of `n` blocks. -/
def drainAddrs (c : Card) (n r0 k : Nat) : List Nat :=
  (List.range k).map (fun i => (c.virt_addr + ((r0 + i) % n) * c.block_size) % 2 ^ 64)

/-- The handler calls of one drain pass. -/
def drainActs (c : Card) (n r0 k : Nat) : List Act :=
  if c.block_addr_handler_available = true then
    (drainAddrs c n r0 k).map Act.handle_block_addr
  else []

/-- A sleep of the thread. -/
def isSleep : Act → Bool
  | .sleep _ => true
  | _ => false

/-- A wait of the thread: a sleep or the wait for the interrupt. -/
def isWait : Act → Bool
  | .sleep _ => true
  | .irq_wait => true
  | _ => false

/-- One step of the scan of a trace for the lock discipline: the state is
`some held` as long as the lock was taken only when free, released only when
held, and no action satisfying `bad` occurred while it was held. -/
def lockStep (bad : Act → Bool) (st : Option Bool) (a : Act) : Option Bool :=
  match st with
  | none => none
  | some held =>
    match a with
    | .lock => if held = true then none else some true
    | .unlock => if held = true then some false else none
    | _ => if held = true ∧ bad a = true then none else some held

/-- The scan of a trace that starts with the lock free. -/
def lockScan (bad : Act → Bool) (acts : List Act) : Option Bool :=
  acts.foldl (lockStep bad) (some false)

/-- No action satisfying `bad` lies between a lock acquisition and the matching
release, and the trace ends with the lock free. -/
def NoneUnderLock (bad : Act → Bool) (acts : List Act) : Prop := lockScan bad acts = some false

instance (bad : Act → Bool) (acts : List Act) : Decidable (NoneUnderLock bad acts) := by
  unfold NoneUnderLock; infer_instance

/-- The card `smallCard` at the low base address `0x1000` with a margin of two
blocks. -/
def lowCard : Card := { smallCard with phys_addr := 0x1000, margin_blocks := 2 }

/-- A card that is not running and whose cursor is not at the base: read index
5, write pointer `0x12000`, destination `0x11000`. -/
def staleCard : Card :=
  { smallCard with read_index := 5, current_addr := 0x12000, destination := 0x11000 }

/-- The cursor of the card is at the base. -/
def Card.AtBase (c : Card) : Prop :=
  c.read_index = 0 ∧ c.current_addr = c.phys_addr ∧ c.destination = c.phys_addr

instance (c : Card) : Decidable c.AtBase := by unfold Card.AtBase; infer_instance

/-- The card `smallCard`, running in interrupt mode. -/
def irqCard : Card := { smallCard with run_marker := true, interrupt_mode := true }

/-- A world in which the worker finds the run marker set twice and then cleared,
and the register holds `base + 4096` of `smallCard`. -/
def irqWorld : World := { marker := fun k => decide (k < 2), address := fun _ => 0x10000 + 4096 }

/-- The card `c1` is `c` after further actions that keep the lock discipline for
`bad`, with the same mode. -/
def Card.Extends (bad : Act → Bool) (c c1 : Card) : Prop :=
  c1.interrupt_mode = c.interrupt_mode
    ∧ ∃ acts, c1.trace = c.trace ++ acts ∧ NoneUnderLock bad acts

/-- A run in which a chunk from slot 2 on ends exactly at the end of the buffer:
6 slots, chunks of 8 bytes, no IDLE between chunks, no fault injection. -/
def tightArgs : FmArgs :=
  { emudata := List.replicate 6 0, req_chunksize := 8, pattern_id := 0, idle_chars := 0
    random_sz := false, crc_new := true, use_streamid := false, add_busy := false
    omit_one_soc := false, omit_one_eoc := false, add_crc_err := false
    rnd := fun _ => 0 }

/-- The run `smallArgs` with `omit_one_soc` instead of `add_crc_err`. -/
def socArgs : FmArgs :=
  { emudata := List.replicate 24 0, req_chunksize := 8, pattern_id := 0, idle_chars := 1
    random_sz := false, crc_new := true, use_streamid := false, add_busy := false
    omit_one_soc := true, omit_one_eoc := false, add_crc_err := false
    rnd := fun _ => 0 }

/-- The result of the run `socArgs`. -/
def socResult : FmResult :=
  { emudata := [0x1000000BC, 0x1000000BC, 0x10000003C, 0xAA, 0x10AABB00, 0x100225BDC,
      0x1000000BC, 0x10000003C, 0x10000AA, 0x10AABB00, 0x1030C5ADC, 0x1000000BC, 0x20000AA,
      0x10AABB00, 0x1067E59DC, 0x1000000BC, 0x10000003C, 0x30000AA, 0x10AABB00, 0x1055058DC,
      0x1000000BC, 0x1000000BC, 0x1000000BC, 0x1000000BC]
    success := true
    chunkcntr := 4
    chunks := [{ cntr := 0, hdr := 3, eop := 5, chunksz := 8 },
               { cntr := 1, hdr := 8, eop := 10, chunksz := 8 },
               { cntr := 2, hdr := 12, eop := 14, chunksz := 8 },
               { cntr := 3, hdr := 17, eop := 19, chunksz := 8 }] }

/-- The run uses `omit_one_soc` and none of `random_sz`, `add_busy`,
`omit_one_eoc` and `add_crc_err`. -/
def SocOnly (a : FmArgs) : Prop :=
  a.random_sz = false ∧ a.add_busy = false ∧ a.omit_one_soc = true
    ∧ a.omit_one_eoc = false ∧ a.add_crc_err = false

/-- A run with `add_busy`: 7 slots, chunks of 8 bytes, one IDLE between chunks. -/
def busyArgs : FmArgs :=
  { emudata := List.replicate 7 0, req_chunksize := 8, pattern_id := 0, idle_chars := 1
    random_sz := false, crc_new := true, use_streamid := false, add_busy := true
    omit_one_soc := false, omit_one_eoc := false, add_crc_err := false
    rnd := fun _ => 0 }

/-- The result of the run `busyArgs` when the buffer has two slots more. -/
def busyResult : FmResult :=
  { emudata := [0x1000000BC, 0x1000000BC, 0x10000003C, 0xAA, 0x10AABB00, 0x100225BDC,
      0x10000005C, 0x1000000BC, 0x10000007C]
    success := true
    chunkcntr := 1
    chunks := [{ cntr := 0, hdr := 3, eop := 5, chunksz := 8 }] }

/-- The card `smallCard`, running, with one block written and a threshold of
`2 ^ 52` blocks, whose byte count `2 ^ 52 * 4096` is `2 ^ 64`. -/
def greedyCard : Card :=
  { smallCard with run_marker := true, block_threshold := 2 ^ 52, current_addr := 0x10000 + 4096 }

/-- A run in which the 32-bit arithmetic of the random chunk size wraps: 2^31
slots, `req_chunksize = 2^32 - 1`, `random_sz` on, no IDLE between chunks. -/
def wrapArgs : FmArgs :=
  { emudata := List.replicate (2 ^ 31) 0, req_chunksize := 2 ^ 32 - 1, pattern_id := 0
    idle_chars := 0, random_sz := true, crc_new := true, use_streamid := false
    add_busy := false, omit_one_soc := false, omit_one_eoc := false, add_crc_err := false
    rnd := fun _ => 0 }

/-- The run `wrapArgs` with `add_crc_err` set. -/
def wrapErrArgs : FmArgs :=
  { emudata := List.replicate (2 ^ 31) 0, req_chunksize := 2 ^ 32 - 1, pattern_id := 0
    idle_chars := 0, random_sz := true, crc_new := true, use_streamid := false
    add_busy := false, omit_one_soc := false, omit_one_eoc := false, add_crc_err := true
    rnd := fun _ => 0 }

/-- The arguments of a run like `wrapArgs`, whatever its pattern, polynomial,
stream-id flag, checksum-error flag and random numbers. -/
def Wrapped (a : FmArgs) : Prop :=
  a.emudata.length = 2 ^ 31 ∧ a.req_chunksize = 2 ^ 32 - 1 ∧ a.random_sz = true
    ∧ a.idle_chars = 0 ∧ a.add_busy = false ∧ a.omit_one_soc = false
    ∧ a.omit_one_eoc = false

/-! ## Bit-level facts -/

theorem xor_mod_two_pow (a b n : Nat) : (a ^^^ b) % 2 ^ n = (a % 2 ^ n) ^^^ (b % 2 ^ n) := by
  apply Nat.eq_of_testBit_eq
  intro i
  simp only [Nat.testBit_mod_two_pow, Nat.testBit_xor]
  by_cases h : i < n <;> simp [h]

theorem and_two_pow_ne_zero (a i : Nat) : a &&& (1 <<< i) ≠ 0 ↔ a.testBit i = true := by
  have h1 : (1 : Nat) <<< i = 2 ^ i := by simp [Nat.shiftLeft_eq]
  rw [h1]
  constructor
  · intro h
    by_contra hb
    apply h
    apply Nat.eq_of_testBit_eq
    intro j
    simp only [Nat.testBit_and, Nat.testBit_two_pow, Nat.zero_testBit]
    by_cases hj : i = j
    · subst hj; simp [hb]
    · simp [hj]
  · intro h h0
    have := congrArg (fun x => Nat.testBit x i) h0
    simp [Nat.testBit_and, Nat.testBit_two_pow, h] at this

theorem even_or_bit (x : Nat) (b : Bool) : (2 * x) ||| b.toNat = 2 * x + b.toNat := by
  have hb : b.toNat < 2 ^ 1 := by cases b <;> simp
  have := Nat.mul_add_lt_is_or hb x
  simpa using this.symm

theorem shift_and_one (d m : Nat) : (d >>> m) &&& 1 = (d.testBit m).toNat := by
  rw [Nat.and_one_is_mod, Nat.shiftRight_eq_div_pow, Nat.toNat_testBit]

theorem testBit_mod_20 (a : Nat) : (a % 2 ^ 20).testBit 19 = a.testBit 19 := by
  rw [Nat.testBit_mod_two_pow]; simp

/-- One inner step of `crc20`, seen modulo `2 ^ 20`, is one step of the reference. -/
theorem crcBitStep_mod (polynomial d a k : Nat) :
    crcBitStep polynomial d a k % 2 ^ 20
      = refStep polynomial (a % 2 ^ 20) (d.testBit (32 - k)) := by
  unfold crcBitStep refStep
  have hsh : (a <<< 1) % 2 ^ 64 = 2 * (a % 2 ^ 63) := by
    rw [Nat.shiftLeft_eq]; omega
  rw [hsh, shift_and_one, even_or_bit, testBit_mod_20]
  simp only [CRC_WIDTH, and_two_pow_ne_zero]
  by_cases hb : a.testBit 19 = true
  · simp only [hb, if_true]
    rw [xor_mod_two_pow, xor_mod_two_pow (2 * (a % 2 ^ 20) + _)]
    congr 1
    generalize (d.testBit (32 - k)).toNat = t
    omega
  · simp only [hb, if_false]
    generalize (d.testBit (32 - k)).toNat = t
    simp only [Bool.false_eq_true, if_false]
    omega

theorem crcFinalStep_mod (polynomial a : Nat) :
    crcFinalStep polynomial a % 2 ^ 20 = refStep polynomial (a % 2 ^ 20) false := by
  unfold crcFinalStep refStep
  have hsh : (a <<< 1) % 2 ^ 64 = 2 * (a % 2 ^ 63) := by
    rw [Nat.shiftLeft_eq]; omega
  rw [hsh, testBit_mod_20]
  simp only [CRC_WIDTH, and_two_pow_ne_zero, Bool.toNat_false, Nat.add_zero]
  by_cases hb : a.testBit 19 = true
  · simp only [hb, if_true]
    rw [xor_mod_two_pow, xor_mod_two_pow (2 * (a % 2 ^ 20))]
    congr 1
    omega
  · simp only [hb, if_false]
    simp only [Bool.false_eq_true, if_false]
    omega

/-- Two folds whose steps agree modulo `m` agree modulo `m`. -/
theorem foldl_mod_eq {α : Type} (m : Nat) (f g : Nat → α → Nat)
    (h : ∀ a x, f a x % m = g (a % m) x) (l : List α) (a : Nat) :
    l.foldl f a % m = (l.foldl g (a % m)) % m := by
  induction l generalizing a with
  | nil => simp
  | cons x xs ih =>
    simp only [List.foldl_cons]
    rw [ih, h]

theorem foldl_lt_of_step {α : Type} (m : Nat) (g : Nat → α → Nat)
    (h : ∀ a x, g a x < m) (l : List α) (a : Nat) (ha : a < m) :
    l.foldl g a < m := by
  induction l generalizing a with
  | nil => simpa
  | cons x xs ih => exact ih _ (h a x)

theorem refStep_lt (poly reg : Nat) (bit : Bool) : refStep poly reg bit < 2 ^ 20 := by
  unfold refStep
  exact Nat.mod_lt _ (by decide)

theorem refWord_lt (poly reg w : Nat) (h : reg < 2 ^ 20) : refWord poly reg w < 2 ^ 20 :=
  foldl_lt_of_step _ _ (fun a _ => refStep_lt poly a _) _ _ h

theorem and_mask (a : Nat) : a &&& CRC_MASK = a % 2 ^ 20 := by
  have : CRC_MASK = 2 ^ 20 - 1 := by decide
  rw [this, Nat.and_pow_two_sub_one_eq_mod]

/-- One pass of the word loop of `crc20` is the reference applied to the
accumulator truncated to 20 bits. -/
theorem crcWord_eq (polynomial a d : Nat) :
    crcWord polynomial a d = refWord polynomial (a % 2 ^ 20) d := by
  unfold crcWord refWord
  rw [and_mask,
    foldl_mod_eq (2 ^ 20) _ (fun r j => refStep polynomial r (d.testBit (31 - j)))
      (fun a j => by simpa using crcBitStep_mod polynomial d a (j + 1))]
  exact Nat.mod_eq_of_lt (foldl_lt_of_step _ _ (fun a _ => refStep_lt polynomial a _) _ _
    (Nat.mod_lt _ (by decide)))

theorem foldl_crcWord_eq (polynomial : Nat) (data : List Nat) (a : Nat) (ha : a < 2 ^ 20) :
    data.foldl (crcWord polynomial) a = data.foldl (refWord polynomial) a := by
  induction data generalizing a with
  | nil => rfl
  | cons d ds ih =>
    simp only [List.foldl_cons]
    rw [crcWord_eq, Nat.mod_eq_of_lt ha]
    exact ih _ (refWord_lt _ _ _ ha)

theorem foldl_refWord_lt (poly : Nat) (data : List Nat) (a : Nat) (ha : a < 2 ^ 20) :
    data.foldl (refWord poly) a < 2 ^ 20 := by
  induction data generalizing a with
  | nil => simpa
  | cons d ds ih => exact ih _ (refWord_lt _ _ _ ha)

theorem seed_eq (crc_new : Bool) :
    (List.range CRC_WIDTH).foldl (fun c _ => crcSeedStep (crcPolynomial crc_new) c) CRC_INITVAL
      = (List.range 20).foldl
          (fun r _ => refSeedStep (if crc_new then 0x8359F else 0xC1ACF) r) 0xFFFFF := by
  cases crc_new <;> decide!

theorem seed_lt (crc_new : Bool) :
    (List.range 20).foldl
      (fun r _ => refSeedStep (if crc_new then 0x8359F else 0xC1ACF) r) 0xFFFFF < 2 ^ 20 := by
  cases crc_new <;> decide!

theorem crcPolynomial_eq (crc_new : Bool) :
    crcPolynomial crc_new = if crc_new then 0x8359F else 0xC1ACF := by
  cases crc_new <;> rfl

/-- The code and the reference compute the same checksum. -/
theorem crc20_eq_ref (data : List Nat) (crc_new : Bool) :
    crc20 data crc_new = crc20_ref data crc_new := by
  unfold crc20 crc20_ref
  simp only []
  rw [seed_eq, foldl_crcWord_eq _ _ _ (seed_lt crc_new), and_mask, crcPolynomial_eq]
  have hlt := foldl_refWord_lt (if crc_new then 0x8359F else 0xC1ACF) data _ (seed_lt crc_new)
  rw [foldl_mod_eq (2 ^ 20) _ (fun r (_ : Nat) => refStep (if crc_new then 0x8359F else 0xC1ACF) r false)
      (fun a _ => crcFinalStep_mod _ a), Nat.mod_eq_of_lt hlt]
  exact Nat.mod_eq_of_lt (foldl_lt_of_step _ _ (fun a _ => refStep_lt _ a _) _ _ hlt)

theorem crc20_ref_lt (data : List Nat) (crc_new : Bool) : crc20_ref data crc_new < 2 ^ 20 :=
  foldl_lt_of_step _ _ (fun a _ => refStep_lt _ a _) _ _
    (foldl_refWord_lt _ data _ (seed_lt crc_new))

theorem crc20_lt (data : List Nat) (crc_new : Bool) : crc20 data crc_new < 2 ^ 20 := by
  rw [crc20_eq_ref]; exact crc20_ref_lt data crc_new

/-! ## Sensitivity of the checksum to a single bit -/

theorem testBit_19_iff (r : Nat) (h : r < 2 ^ 20) : r.testBit 19 = true ↔ 2 ^ 19 ≤ r := by
  rw [Nat.testBit_to_div_mod]
  simp only [decide_eq_true_eq]
  omega

theorem refStep_lo (poly r : Nat) (bit : Bool) (h : r < 2 ^ 19) :
    refStep poly r bit = 2 * r + bit.toNat := by
  unfold refStep
  have hb : ¬ r.testBit 19 = true := by
    rw [testBit_19_iff r (by omega)]; omega
  have ht : bit.toNat ≤ 1 := by cases bit <;> simp
  simp only [hb, if_false, Bool.false_eq_true]
  omega

theorem refStep_hi (poly r : Nat) (bit : Bool) (h : 2 ^ 19 ≤ r) (h2 : r < 2 ^ 20)
    (hp : poly < 2 ^ 20) :
    refStep poly r bit = (2 * r + bit.toNat - 2 ^ 20) ^^^ poly := by
  unfold refStep
  have hb : r.testBit 19 = true := (testBit_19_iff r h2).2 h
  have ht : bit.toNat ≤ 1 := by cases bit <;> simp
  simp only [hb, if_true]
  have hm : (2 * r + bit.toNat) % 2 ^ 20 = 2 * r + bit.toNat - 2 ^ 20 := by omega
  rw [xor_mod_two_pow, Nat.mod_eq_of_lt hp, hm]

theorem xor_odd_parity (x poly : Nat) (hp : poly % 2 = 1) : (x ^^^ poly) % 2 = 1 - x % 2 := by
  have h := xor_mod_two_pow x poly 1
  simp only [Nat.pow_one] at h
  rw [h, hp]
  rcases Nat.mod_two_eq_zero_or_one x with h0 | h1
  · rw [h0]; rfl
  · rw [h1]; rfl

/-- For an odd generator polynomial the division step is injective in the
register. -/
theorem refStep_inj (poly r r' : Nat) (bit : Bool) (hp : poly < 2 ^ 20) (hodd : poly % 2 = 1)
    (hr : r < 2 ^ 20) (hr' : r' < 2 ^ 20) (h : refStep poly r bit = refStep poly r' bit) :
    r = r' := by
  have ht : bit.toNat ≤ 1 := by cases bit <;> simp
  by_cases c : r < 2 ^ 19 <;> by_cases c' : r' < 2 ^ 19
  · rw [refStep_lo _ _ _ c, refStep_lo _ _ _ c'] at h
    omega
  · rw [refStep_lo _ _ _ c, refStep_hi _ _ _ (by omega) hr' hp] at h
    have hpar := xor_odd_parity (2 * r' + bit.toNat - 2 ^ 20) poly hodd
    rw [← h] at hpar
    omega
  · rw [refStep_hi _ _ _ (by omega) hr hp, refStep_lo _ _ _ c'] at h
    have hpar := xor_odd_parity (2 * r + bit.toNat - 2 ^ 20) poly hodd
    rw [h] at hpar
    omega
  · rw [refStep_hi _ _ _ (by omega) hr hp, refStep_hi _ _ _ (by omega) hr' hp] at h
    have := Nat.xor_left_inj.1 h
    omega

/-- Shifting in a different bit gives a different register. -/
theorem refStep_bit_ne (poly r : Nat) (bit bit' : Bool) (hp : poly < 2 ^ 20)
    (hr : r < 2 ^ 20) (hne : bit ≠ bit') : refStep poly r bit ≠ refStep poly r bit' := by
  have hne' : bit.toNat ≠ bit'.toNat := by
    cases bit <;> cases bit' <;> simp at hne ⊢
  have ht : bit.toNat ≤ 1 := by cases bit <;> simp
  have ht' : bit'.toNat ≤ 1 := by cases bit' <;> simp
  intro h
  by_cases c : r < 2 ^ 19
  · rw [refStep_lo _ _ _ c, refStep_lo _ _ _ c] at h
    omega
  · rw [refStep_hi _ _ _ (by omega) hr hp, refStep_hi _ _ _ (by omega) hr hp] at h
    have := Nat.xor_left_inj.1 h
    omega

/-- A fold of steps that are injective on `[0, m)` is injective on `[0, m)`. -/
theorem foldl_inj {α : Type} (m : Nat) (g : Nat → α → Nat)
    (hlt : ∀ a x, a < m → g a x < m)
    (hinj : ∀ a a' x, a < m → a' < m → g a x = g a' x → a = a')
    (l : List α) (a a' : Nat) (ha : a < m) (ha' : a' < m) (hne : a ≠ a') :
    l.foldl g a ≠ l.foldl g a' := by
  induction l generalizing a a' with
  | nil => simpa
  | cons x xs ih =>
    simp only [List.foldl_cons]
    exact ih _ _ (hlt _ _ ha) (hlt _ _ ha') (fun h => hne (hinj _ _ _ ha ha' h))

theorem foldl_congr_mem {α : Type} (g g' : Nat → α → Nat) (l : List α)
    (h : ∀ a x, x ∈ l → g a x = g' a x) (a : Nat) : l.foldl g a = l.foldl g' a := by
  induction l generalizing a with
  | nil => rfl
  | cons x xs ih =>
    simp only [List.foldl_cons]
    rw [h a x (List.mem_cons_self _ _)]
    exact ih (fun a y hy => h a y (List.mem_cons_of_mem _ hy)) _

/-- Two folds over the same duplicate-free list whose steps differ at exactly
one element `j0`, and are injective elsewhere, end in different values. -/
theorem foldl_ne_of_one_diff (m : Nat) (g g' : Nat → Nat → Nat) (j0 : Nat)
    (hlt : ∀ a x, a < m → g a x < m) (hlt' : ∀ a x, a < m → g' a x < m)
    (hinj : ∀ a a' x, a < m → a' < m → g a x = g a' x → a = a')
    (hdiff : ∀ a, a < m → g a j0 ≠ g' a j0)
    (l : List Nat) (hsame : ∀ a x, x ∈ l → x ≠ j0 → g a x = g' a x)
    (hnd : l.Nodup) (hmem : j0 ∈ l) (a : Nat) (ha : a < m) :
    l.foldl g a ≠ l.foldl g' a := by
  induction l generalizing a with
  | nil => simp at hmem
  | cons x xs ih =>
    simp only [List.foldl_cons]
    rw [List.nodup_cons] at hnd
    by_cases hx : x = j0
    · subst hx
      have hcongr : xs.foldl g' (g' a x) = xs.foldl g (g' a x) :=
        foldl_congr_mem _ _ _
          (fun a y hy => (hsame a y (List.mem_cons_of_mem _ hy) (fun e => hnd.1 (e ▸ hy))).symm) _
      rw [hcongr]
      exact foldl_inj m g hlt hinj xs _ _ (hlt _ _ ha) (hlt' _ _ ha) (hdiff a ha)
    · rw [← hsame a x (List.mem_cons_self _ _) hx]
      rcases List.mem_cons.1 hmem with e | hin
      · exact absurd e.symm hx
      · exact ih (fun a y hy hne => hsame a y (List.mem_cons_of_mem _ hy) hne) hnd.2 hin _
          (hlt _ _ ha)

theorem testBit_flip (w b m : Nat) :
    (w ^^^ (1 <<< b)).testBit m = (w.testBit m ^^ decide (b = m)) := by
  have h1 : (1 : Nat) <<< b = 2 ^ b := by simp [Nat.shiftLeft_eq]
  rw [h1, Nat.testBit_xor, Nat.testBit_two_pow]

theorem refWord_inj (poly w r r' : Nat) (hp : poly < 2 ^ 20) (hodd : poly % 2 = 1)
    (hr : r < 2 ^ 20) (hr' : r' < 2 ^ 20) (hne : r ≠ r') :
    refWord poly r w ≠ refWord poly r' w :=
  foldl_inj (2 ^ 20) (fun r j => refStep poly r (w.testBit (31 - j)))
    (fun a _ _ => refStep_lt poly a _)
    (fun a a' _ ha ha' h => refStep_inj poly a a' _ hp hodd ha ha' h)
    (List.range 32) r r' hr hr' hne

/-- Flipping one of the 32 bits of a word changes the register after the word. -/
theorem refWord_flip (poly w b r : Nat) (hp : poly < 2 ^ 20) (hodd : poly % 2 = 1)
    (hb : b < 32) (hr : r < 2 ^ 20) :
    refWord poly r (w ^^^ (1 <<< b)) ≠ refWord poly r w := by
  unfold refWord
  apply foldl_ne_of_one_diff (2 ^ 20)
    (fun r j => refStep poly r ((w ^^^ (1 <<< b)).testBit (31 - j)))
    (fun r j => refStep poly r (w.testBit (31 - j))) (31 - b)
    (fun a _ _ => refStep_lt poly a _) (fun a _ _ => refStep_lt poly a _)
    (fun a a' _ ha ha' h => refStep_inj poly a a' _ hp hodd ha ha' h)
  · intro a ha
    apply refStep_bit_ne poly a _ _ hp ha
    have : 31 - (31 - b) = b := by omega
    rw [testBit_flip, this]
    simp
  · intro a x hx hne
    have hx32 : x < 32 := List.mem_range.1 hx
    have : ¬ b = 31 - x := by omega
    show refStep poly a ((w ^^^ (1 <<< b)).testBit (31 - x)) = _
    rw [testBit_flip]
    simp [this]
  · exact List.nodup_range 32
  · exact List.mem_range.2 (by omega)
  · exact hr

theorem foldl_refWord_inj (poly : Nat) (hp : poly < 2 ^ 20) (hodd : poly % 2 = 1)
    (data : List Nat) (r r' : Nat) (hr : r < 2 ^ 20) (hr' : r' < 2 ^ 20) (hne : r ≠ r') :
    data.foldl (refWord poly) r ≠ data.foldl (refWord poly) r' :=
  foldl_inj (2 ^ 20) (refWord poly) (fun a w ha => refWord_lt poly a w ha)
    (fun a a' w ha ha' h => by
      by_contra hc
      exact refWord_inj poly w a a' hp hodd ha ha' hc h)
    data r r' hr hr' hne

/-- Flipping one bit of one word changes the register after the whole sequence. -/
theorem foldl_refWord_flip (poly : Nat) (hp : poly < 2 ^ 20) (hodd : poly % 2 = 1)
    (data : List Nat) (i b : Nat) (hi : i < data.length) (hb : b < 32)
    (r : Nat) (hr : r < 2 ^ 20) :
    (flipBit data i b).foldl (refWord poly) r ≠ data.foldl (refWord poly) r := by
  induction data generalizing i r with
  | nil => simp at hi
  | cons w ws ih =>
    cases i with
    | zero =>
      simp only [flipBit, List.foldl_cons]
      exact foldl_refWord_inj poly hp hodd ws _ _ (refWord_lt _ _ _ hr) (refWord_lt _ _ _ hr)
        (refWord_flip poly w b r hp hodd hb hr)
    | succ i =>
      simp only [flipBit, List.foldl_cons]
      exact ih i (by simpa using hi) _ (refWord_lt _ _ _ hr)

theorem poly_facts (crc_new : Bool) :
    (if crc_new then 0x8359F else 0xC1ACF : Nat) < 2 ^ 20
      ∧ (if crc_new then 0x8359F else 0xC1ACF : Nat) % 2 = 1 := by
  cases crc_new <;> decide

theorem crc20_ref_flip (data : List Nat) (i b : Nat) (crc_new : Bool)
    (hi : i < data.length) (hb : b < 32) :
    crc20_ref (flipBit data i b) crc_new ≠ crc20_ref data crc_new := by
  unfold crc20_ref
  obtain ⟨hp, hodd⟩ := poly_facts crc_new
  exact foldl_inj (2 ^ 20) (fun r (_ : Nat) => refStep (if crc_new then 0x8359F else 0xC1ACF) r false)
    (fun a _ _ => refStep_lt _ a _)
    (fun a a' _ ha ha' h => refStep_inj _ a a' _ hp hodd ha ha' h)
    (List.range 20) _ _
    (foldl_refWord_lt _ _ _ (seed_lt crc_new)) (foldl_refWord_lt _ _ _ (seed_lt crc_new))
    (foldl_refWord_flip _ hp hodd data i b hi hb _ (seed_lt crc_new))


/-! ## Stores through the cursor -/

theorem take_set_succ (l : List Nat) (i v : Nat) (h : i < l.length) :
    (l.set i v).take (i + 1) = l.take i ++ [v] := by
  induction l generalizing i with
  | nil => simp at h
  | cons x xs ih =>
    cases i with
    | zero => simp
    | succ i =>
      simp only [List.set_cons_succ, List.take_succ_cons, List.cons_append, List.cons.injEq,
        true_and]
      exact ih i (by simpa using h)

theorem take_set_self (l : List Nat) (i v : Nat) : (l.set i v).take i = l.take i := by
  induction l generalizing i with
  | nil => simp
  | cons x xs ih =>
    cases i with
    | zero => simp
    | succ i => simp [ih]

theorem Buf.view_length (b : Buf) (h : b.Good) : b.view.length = b.index := by
  unfold Buf.view
  rw [List.length_take]
  exact Nat.min_eq_left h.1

/-- What `emudata[index++] = v` does to the slots below the cursor. -/
theorem put_spec (b b1 : Buf) (v : Nat) (h : b.put v = .ok b1) (hg : b.Good) :
    b1.Good ∧ b1.emudata.length = b.emudata.length ∧ b1.view = b.view ++ [v]
      ∧ b1.index = b.index + 1 ∧ b.index < b.emudata.length := by
  unfold Buf.put at h
  obtain ⟨hg1, hg2⟩ := hg
  split at h
  · rename_i hlt
    injection h with h
    subst h
    have hi : (b.index + 1) % 2 ^ 32 = b.index + 1 := Nat.mod_eq_of_lt (by omega)
    simp only [Buf.Good, Buf.view, List.length_set, hi]
    exact ⟨⟨hlt, hg2⟩, trivial, take_set_succ _ _ _ hlt, trivial, hlt⟩
  · cases h

/-- A store followed by `--index` leaves the slots below the cursor as they were. -/
theorem put_back_spec (b b1 : Buf) (v : Nat) (h : b.put v = .ok b1) (hg : b.Good) :
    b1.back.Good ∧ b1.back.emudata.length = b.emudata.length ∧ b1.back.view = b.view
      ∧ b1.back.index = b.index := by
  unfold Buf.put at h
  obtain ⟨hg1, hg2⟩ := hg
  split at h
  · rename_i hlt
    injection h with h
    subst h
    have hi : (b.index + 1) % 2 ^ 32 = b.index + 1 := Nat.mod_eq_of_lt (by omega)
    have hj : (b.index + 1 + 2 ^ 32 - 1) % 2 ^ 32 = b.index := by omega
    simp only [Buf.Good, Buf.view, Buf.back, List.length_set, hi, hj]
    exact ⟨⟨hg1, hg2⟩, trivial, take_set_self _ _ _, trivial⟩
  · cases h

theorem fillConst_spec (v n : Nat) (b b1 : Buf) (h : fillConst v n b = .ok b1) (hg : b.Good) :
    b1.Good ∧ b1.emudata.length = b.emudata.length
      ∧ b1.view = b.view ++ List.replicate n v ∧ b1.index = b.index + n := by
  induction n generalizing b with
  | zero =>
    simp only [fillConst] at h
    injection h with h
    subst h
    simp [hg]
  | succ n ih =>
    simp only [fillConst] at h
    split at h
    · rename_i b2 hput
      obtain ⟨g2, l2, v2, i2, _⟩ := put_spec b b2 v hput hg
      obtain ⟨g3, l3, v3, i3⟩ := ih b2 h g2
      refine ⟨g3, by omega, ?_, by omega⟩
      rw [v3, v2, List.replicate_succ, List.append_assoc]
      rfl
    · cases h

theorem and_ff (x : Nat) : x &&& 0xFF = x % 256 := by
  have h : (0xFF : Nat) = 2 ^ 8 - 1 := by norm_num
  rw [h, Nat.and_pow_two_sub_one_eq_mod]

theorem mod32_mod256 (x : Nat) : x % 2 ^ 32 % 256 = x % 256 :=
  Nat.mod_mod_of_dvd x (by norm_num)

/-- The pattern-0 word as a function of the four counter bytes. -/
theorem counterWord_eq (c : Nat) :
    counterWord c = (((c + 3) % 256) <<< 24) ||| (((c + 2) % 256) <<< 16)
      ||| (((c + 1) % 256) <<< 8) ||| (c % 256) := by
  unfold counterWord
  simp only [and_ff, mod32_mod256, Nat.add_zero, Nat.shiftLeft_zero]

theorem counterWord_congr (x y : Nat) (h : x % 256 = y % 256) :
    counterWord x = counterWord y := by
  have h3 : (x + 3) % 256 = (y + 3) % 256 := by omega
  have h2 : (x + 2) % 256 = (y + 2) % 256 := by omega
  have h1 : (x + 1) % 256 = (y + 1) % 256 := by omega
  rw [counterWord_eq, counterWord_eq, h3, h2, h1, h]

theorem fillCounter_spec (n cntr : Nat) (b b1 : Buf) (h : fillCounter n cntr b = .ok b1)
    (hg : b.Good) :
    b1.Good ∧ b1.emudata.length = b.emudata.length
      ∧ b1.view = b.view ++ (List.range n).map (fun i => counterWord (cntr + 4 * i))
      ∧ b1.index = b.index + n := by
  induction n generalizing b cntr with
  | zero =>
    simp only [fillCounter] at h
    injection h with h
    subst h
    simp [hg]
  | succ n ih =>
    simp only [fillCounter] at h
    split at h
    · rename_i b2 hput
      obtain ⟨g2, l2, v2, i2, _⟩ := put_spec b b2 _ hput hg
      obtain ⟨g3, l3, v3, i3⟩ := ih _ b2 h g2
      refine ⟨g3, by omega, ?_, by omega⟩
      rw [v3, v2, List.range_succ_eq_map, List.map_cons, List.map_map, List.append_assoc]
      simp only [List.singleton_append, Nat.mul_zero, Nat.add_zero, List.cons.injEq,
        List.append_cancel_left_eq, true_and]
      apply List.map_congr_left
      intro i _
      apply counterWord_congr
      simp only [Function.comp, Nat.succ_eq_add_one]
      omega
    · cases h

theorem fillPayload_spec (pattern_id n : Nat) (b b1 : Buf)
    (h : fillPayload pattern_id n b = .ok b1) (hg : b.Good) :
    b1.Good ∧ b1.emudata.length = b.emudata.length
      ∧ b1.view = b.view ++ payloadWords pattern_id n ∧ b1.index = b.index + n := by
  unfold fillPayload at h
  unfold payloadWords
  by_cases h1 : pattern_id = 1
  · simp only [h1, if_true] at h
    obtain ⟨g, l, v, i⟩ := fillConst_spec _ _ _ _ h hg
    refine ⟨g, l, ?_, i⟩
    rw [v]
    congr 1
    apply List.ext_getElem <;> simp [payloadWord, h1]
  · by_cases h2 : pattern_id = 2
    · simp only [h2, if_true] at h
      obtain ⟨g, l, v, i⟩ := fillConst_spec _ _ _ _ h hg
      refine ⟨g, l, ?_, i⟩
      rw [v]
      congr 1
      apply List.ext_getElem <;> simp [payloadWord, h2]
    · by_cases h3 : pattern_id = 3
      · simp only [h3, if_true] at h
        obtain ⟨g, l, v, i⟩ := fillConst_spec _ _ _ _ h hg
        refine ⟨g, l, ?_, i⟩
        rw [v]
        congr 1
        apply List.ext_getElem <;> simp [payloadWord, h3]
      · simp only [h1, h2, h3, if_false] at h
        obtain ⟨g, l, v, i⟩ := fillCounter_spec _ _ _ _ h hg
        refine ⟨g, l, ?_, i⟩
        rw [v]
        congr 1
        apply List.map_congr_left
        intro i _
        simp [payloadWord, h1, h2, h3]

theorem slice_view (b : Buf) (pre ws data : List Nat) (hg : b.Good)
    (hv : b.view = pre ++ ws)
    (h : b.slice ((b.index + 2 ^ 32 - ws.length) % 2 ^ 32) ws.length = .ok data) :
    data = ws := by
  have hlen := b.view_length hg
  rw [hv, List.length_append] at hlen
  have hstart : (b.index + 2 ^ 32 - ws.length) % 2 ^ 32 = pre.length := by
    have := hg.1; have := hg.2
    omega
  rw [hstart] at h
  unfold Buf.slice at h
  split at h
  · injection h with h
    subst h
    have hsplit : b.emudata = (pre ++ ws) ++ b.emudata.drop b.index := by
      rw [← hv]; exact (List.take_append_drop _ _).symm
    rw [hsplit, List.append_assoc, List.drop_left, List.take_left]
  · cases h

/-- A store kept or stepped back over, depending on `c`. -/
theorem put_maybe_back (c : Prop) [Decidable c] (b b0 : Buf) (v : Nat)
    (h : b.put v = .ok b0) (hg : b.Good) :
    (if c then b0.back else b0).Good
      ∧ (if c then b0.back else b0).emudata.length = b.emudata.length
      ∧ (if c then b0.back else b0).view = b.view ++ (if c then [] else [v])
      ∧ (if c then b0.back else b0).index = b.index + (if c then 0 else 1) := by
  by_cases hc : c
  · simp only [hc, if_true, List.append_nil, Nat.add_zero]
    exact put_back_spec b b0 v h hg
  · simp only [hc, if_false]
    obtain ⟨g, l, v, i, _⟩ := put_spec b b0 v h hg
    exact ⟨g, l, v, i⟩

/-- A store that happens only when `c` holds. -/
theorem maybe_put (c : Prop) [Decidable c] (b b1 : Buf) (v : Nat)
    (h : (if c then b.put v else .ok b) = .ok b1) (hg : b.Good) :
    b1.Good ∧ b1.emudata.length = b.emudata.length
      ∧ b1.view = b.view ++ (if c then [v] else []) := by
  by_cases hc : c
  · simp only [hc, if_true] at h ⊢
    obtain ⟨g, l, v, _, _⟩ := put_spec b b1 v h hg
    exact ⟨g, l, v⟩
  · simp only [hc, if_false] at h ⊢
    injection h with h
    subst h
    simp [hg]

theorem payloadWords_length (pattern_id n : Nat) : (payloadWords pattern_id n).length = n := by
  simp [payloadWords]

theorem chunkDataSz_eq_dataSz (chunksz : Nat) (h32 : chunksz < 2 ^ 32) :
    chunkDataSz chunksz = dataSz chunksz := by
  unfold chunkDataSz dataSz CHUNKHDR_SIZE
  split <;> omega

theorem dataSz_of_ge (chunksz : Nat) (h8 : 8 ≤ chunksz) : dataSz chunksz = chunksz - 8 := by
  unfold dataSz
  rw [if_pos h8]

theorem chunkWords_length (a : FmArgs) (k chunksz : Nat) :
    (chunkWords a k chunksz).length = 2 + dataSz chunksz / 4 := by
  unfold chunkWords
  rw [List.length_cons, List.length_cons, payloadWords_length]
  generalize dataSz chunksz / 4 = x
  omega

/-- The checksum never covers more words than the chunk has. -/
theorem crcLen_le (chunksz : Nat) : chunksz / 4 ≤ 2 + dataSz chunksz / 4 := by
  unfold dataSz
  split <;> omega

theorem crcInput_length (a : FmArgs) (k chunksz : Nat) :
    (crcInput a k chunksz).length = chunksz / 4 := by
  have := crcLen_le chunksz
  unfold crcInput
  rw [List.length_drop, chunkWords_length]
  generalize dataSz chunksz / 4 = x at this ⊢
  omega

/-- For a chunk of at least 8 bytes the checksum covers exactly the header
word, the width word and the payload words. -/
theorem crcInput_eq (a : FmArgs) (k chunksz : Nat) (h8 : 8 ≤ chunksz) :
    crcInput a k chunksz = chunkWords a k chunksz := by
  have hz : (chunkWords a k chunksz).length - chunksz / 4 = 0 := by
    rw [chunkWords_length, dataSz_of_ge _ h8]; omega
  rw [crcInput, hz, List.drop_zero]

/-- One pass of the main loop that writes a chunk appends `iterWords` to the
slots below the cursor. -/
theorem emitChunk_spec (a : FmArgs) (chunksz : Nat) (s s1 : FmState)
    (h : emitChunk a chunksz s = .ok s1) (hg : s.buf.Good)
    (h32 : chunksz < 2 ^ 32) (hk : s.chunkcntr + 1 < 2 ^ 32) :
    s1.buf.Good ∧ s1.buf.emudata.length = s.buf.emudata.length
      ∧ s1.buf.view = s.buf.view ++ iterWords a s.chunkcntr chunksz
      ∧ s1.chunkcntr = s.chunkcntr + 1 ∧ s1.success = s.success
      ∧ s1.chunks = s.chunks ++
          [{ cntr := s.chunkcntr, hdr := s.buf.index + sopLen a s.chunkcntr,
             eop := s.buf.index + sopLen a s.chunkcntr + 2 + dataSz chunksz / 4,
             chunksz := chunksz }] := by
  unfold emitChunk at h
  rw [chunkDataSz_eq_dataSz chunksz h32] at h
  simp only at h
  split at h
  · cases h
  rename_i b0 hput0
  obtain ⟨g1, l1, v1, i1⟩ :=
    put_maybe_back (a.omit_one_soc = true ∧ s.chunkcntr = 2) s.buf b0 _ hput0 hg
  generalize (if a.omit_one_soc = true ∧ s.chunkcntr = 2 then b0.back else b0) = b1 at h g1 l1 v1 i1
  split at h
  · cases h
  rename_i b2 hput2
  obtain ⟨g2, l2, v2, i2, _⟩ := put_spec b1 b2 _ hput2 g1
  split at h
  · cases h
  rename_i b3 hput3
  obtain ⟨g3, l3, v3, i3, _⟩ := put_spec b2 b3 _ hput3 g2
  split at h
  · cases h
  rename_i b4 hfill
  obtain ⟨g4, l4, v4, i4⟩ := fillPayload_spec _ _ _ _ hfill g3
  have hview4 : b4.view = (s.buf.view ++ (if a.omit_one_soc = true ∧ s.chunkcntr = 2 then []
      else [FM_KCHAR_SOP])) ++ chunkWords a s.chunkcntr chunksz := by
    rw [v4, v3, v2, v1]
    simp [chunkWords]
  split at h
  · cases h
  rename_i data hslice
  have hdata : data = crcInput a s.chunkcntr chunksz := by
    have hsplit : chunkWords a s.chunkcntr chunksz
        = (chunkWords a s.chunkcntr chunksz).take
            ((chunkWords a s.chunkcntr chunksz).length - chunksz / 4)
          ++ crcInput a s.chunkcntr chunksz := (List.take_append_drop _ _).symm
    rw [hsplit, ← List.append_assoc] at hview4
    apply slice_view b4 _ _ data g4 hview4
    rw [crcInput_length a _ _]
    exact hslice
  subst hdata
  have hcrc : (if a.add_crc_err = true ∧ s.chunkcntr = 3
        then (crc20 (crcInput a s.chunkcntr chunksz) a.crc_new + 1) % 2 ^ 64
        else crc20 (crcInput a s.chunkcntr chunksz) a.crc_new)
      = storedCrc a s.chunkcntr chunksz := by
    have hlt := crc20_lt (crcInput a s.chunkcntr chunksz) a.crc_new
    unfold storedCrc
    split
    · exact Nat.mod_eq_of_lt (by omega)
    · rfl
  have hlt : storedCrc a s.chunkcntr chunksz ≤ 2 ^ 20 := by
    have hlt := crc20_lt (crcInput a s.chunkcntr chunksz) a.crc_new
    unfold storedCrc
    split <;> omega
  have heop : FM_KCHAR_EOP ||| ((storedCrc a s.chunkcntr chunksz <<< 8) % 2 ^ 64)
      = eopWord a s.chunkcntr chunksz := by
    unfold eopWord
    rw [Nat.mod_eq_of_lt]
    rw [Nat.shiftLeft_eq]
    omega
  simp only [hcrc, heop] at h
  split at h
  · cases h
  rename_i b5 hput5
  obtain ⟨g6, l6, v6, i6⟩ :=
    put_maybe_back (a.omit_one_eoc = true ∧ s.chunkcntr = 2) b4 b5 _ hput5 g4
  generalize (if a.omit_one_eoc = true ∧ s.chunkcntr = 2 then b5.back else b5) = b6 at h g6 l6 v6 i6
  split at h
  · cases h
  rename_i b7 hput7
  obtain ⟨g7, l7, v7⟩ := maybe_put _ b6 b7 _ hput7 g6
  split at h
  · cases h
  rename_i b8 hfill8
  obtain ⟨g8, l8, v8, i8⟩ := fillConst_spec _ _ _ _ hfill8 g7
  split at h
  · cases h
  rename_i b9 hput9
  obtain ⟨g9, l9, v9⟩ := maybe_put _ b8 b9 _ hput9 g8
  injection h with h
  subst h
  refine ⟨g9, ?_, ?_, Nat.mod_eq_of_lt hk, rfl, ?_⟩
  · show b9.emudata.length = s.buf.emudata.length
    omega
  · show b9.view = _
    rw [v9, v8, v7, v6, hview4]
    simp [iterWords]
  · show s.chunks ++ _ = _
    have hsop : b1.index = s.buf.index + sopLen a s.chunkcntr := by
      rw [i1]; rfl
    have h4 : b4.index = s.buf.index + sopLen a s.chunkcntr + 2 + dataSz chunksz / 4 := by
      generalize dataSz chunksz / 4 = x at *
      omega
    rw [hsop, h4]

/-! ## The fill loops -/

/-- A fill loop that returns has written `v` to every slot from the cursor to
the end of the buffer. -/
theorem fillLoop_spec (n v : Nat) (fuel : Nat) (b b1 : Buf)
    (h : fillLoop n v fuel b = .ok b1) (hn : b.emudata.length = n) (hg : b.Good) :
    b1.emudata = b.view ++ List.replicate (n - b.index) v ∧ b1.index = n ∧ b1.Good
      ∧ b1.emudata.length = n := by
  induction fuel generalizing b with
  | zero =>
    simp only [fillLoop] at h
    split at h
    · cases h
    · rename_i hlt
      injection h with h
      subst h
      have hidx : b.index = n := by have := hg.1; omega
      refine ⟨?_, hidx, hg, hn⟩
      rw [hidx, Nat.sub_self, List.replicate_zero, List.append_nil, Buf.view, hidx, ← hn,
        List.take_length]
  | succ fuel ih =>
    simp only [fillLoop] at h
    split at h
    · rename_i hlt
      split at h
      · rename_i b2 hput
        obtain ⟨g2, l2, v2, i2, _⟩ := put_spec b b2 v hput hg
        obtain ⟨e3, i3, g3, l3⟩ := ih b2 h (by omega) g2
        refine ⟨?_, i3, g3, l3⟩
        rw [e3, v2, i2, List.append_assoc]
        have : n - b.index = (n - (b.index + 1)) + 1 := by omega
        rw [this, List.replicate_succ]
        rfl
      · cases h
    · rename_i hlt
      injection h with h
      subst h
      have hidx : b.index = n := by have := hg.1; omega
      refine ⟨?_, hidx, hg, hn⟩
      rw [hidx, Nat.sub_self, List.replicate_zero, List.append_nil, Buf.view, hidx, ← hn,
        List.take_length]

/-- The initial zero-fill loop returns only for buffers of fewer than `2 ^ 32`
slots: otherwise its 32-bit counter never reaches `emusize`. -/
theorem fillLoop_zero_lt (n v : Nat) (fuel : Nat) (b b1 : Buf)
    (h : fillLoop n v fuel b = .ok b1) (hn : b.emudata.length = n) (hf : fuel ≤ n)
    (hi : b.index = (n - fuel) % 2 ^ 32) : n < 2 ^ 32 := by
  induction fuel generalizing b with
  | zero =>
    simp only [fillLoop] at h
    split at h
    · cases h
    · omega
  | succ fuel ih =>
    simp only [fillLoop] at h
    split at h
    · rename_i hlt
      unfold Buf.put at h
      rw [if_pos (by omega)] at h
      simp only at h
      apply ih _ h
      · simp [hn]
      · omega
      · show (b.index + 1) % 2 ^ 32 = _
        omega
    · omega

theorem put_ok (b : Buf) (v : Nat) (h : b.index < b.emudata.length) :
    ∃ b1, b.put v = .ok b1 := by
  unfold Buf.put
  rw [if_pos h]
  exact ⟨_, rfl⟩

/-- With enough fuel and a buffer of fewer than `2 ^ 32` slots a fill loop
returns. -/
theorem fillLoop_ok (n v : Nat) (fuel : Nat) (b : Buf)
    (hn : b.emudata.length = n) (hg : b.Good) (hf : n - b.index ≤ fuel) :
    ∃ b1, fillLoop n v fuel b = .ok b1 := by
  induction fuel generalizing b with
  | zero =>
    simp only [fillLoop]
    rw [if_neg (by omega)]
    exact ⟨b, rfl⟩
  | succ fuel ih =>
    simp only [fillLoop]
    split
    · rename_i hlt
      obtain ⟨b2, hput⟩ := put_ok b v (by omega)
      obtain ⟨g2, l2, v2, i2, _⟩ := put_spec b _ v hput hg
      rw [hput]
      exact ih _ (by omega) g2 (by omega)
    · exact ⟨b, rfl⟩

/-! ## The main loop -/

theorem iterWords_length_ge (a : FmArgs) (k chunksz : Nat) :
    2 ≤ (iterWords a k chunksz).length := by
  simp only [iterWords, chunkWords, List.length_append, List.length_cons]
  omega

theorem blocks_length_eq_zero (a : FmArgs) (k m : Nat) (h : (blocks a k m).length = 0) :
    m = 0 := by
  cases m with
  | zero => rfl
  | succ m =>
    simp only [blocks, List.length_append] at h
    have := iterWords_length_ge a k (csz a k)
    omega

theorem loopPost_refl (a : FmArgs) (n max : Nat) (s : FmState) (hn : s.buf.emudata.length = n)
    (hg : s.buf.Good) (hc : ¬ (s.buf.index < n ∧ s.chunkcntr < max)) :
    LoopPost a n max s s 0 := by
  have := hg.1
  simp only [LoopPost, blocks, recs, List.length_nil, Nat.add_zero, List.append_nil]
  exact ⟨trivial, hg, hn, by omega, trivial, trivial, by omega, Or.inl ⟨trivial, trivial, hc⟩⟩

/-- The main loop, when it returns, has appended `m` chunk blocks below the
cursor, for the number `m` of chunks it counted. -/
theorem mainLoop_spec (a : FmArgs) (n max : Nat)
    (hcs : ∀ k, csz a k < 2 ^ 32) (hmax : max < 2 ^ 32) (fuel : Nat) :
    ∀ s s1, mainLoop a n max fuel s = .ok s1 → s.buf.emudata.length = n → s.buf.Good →
      ∃ m, LoopPost a n max s s1 m := by
  induction fuel with
  | zero =>
    intro s s1 h hn hg
    simp only [mainLoop] at h
    split at h
    · cases h
    · rename_i hc
      injection h with h
      subst h
      exact ⟨0, loopPost_refl a n max s hn hg hc⟩
  | succ fuel ih =>
    intro s s1 h hn hg
    simp only [mainLoop] at h
    have hcsz : chunkSize a.req_chunksize a.random_sz (a.rnd s.chunkcntr) = csz a s.chunkcntr :=
      rfl
    simp only [hcsz] at h
    split at h
    · rename_i hc
      split at h
      · -- the chunk does not fit: fill with IDLE and leave
        rename_i hfit
        split at h
        · cases h
        rename_i b hfill
        obtain ⟨e1, i1, g1, l1⟩ := fillLoop_spec n _ _ _ _ hfill hn hg
        obtain ⟨m, p1, p2, p3, p4, p5, p6, p7, p8⟩ := ih _ _ h l1 g1
        simp only at p1 p2 p3 p4 p5 p6 p7 p8
        have hm : m = 0 := by
          apply blocks_length_eq_zero a s.chunkcntr
          omega
        subst hm
        have hview : b.view = b.emudata := by
          rw [Buf.view, i1, ← l1, List.take_length]
        refine ⟨0, ?_⟩
        simp only [LoopPost, blocks, recs, List.length_nil, Nat.add_zero, List.append_nil]
          at p1 p4 p5 p6 p8 ⊢
        refine ⟨p1, p2, p3, by omega, ?_, p6, by omega, Or.inr ⟨?_, hc.1, hc.2, hfit⟩⟩
        · rw [p5, hview, e1, i1]
          simp
        · rcases p8 with ⟨q1, _, _⟩ | ⟨q1, _⟩
          · exact q1
          · exact q1
      · -- the chunk fits
        rename_i hfit
        split at h
        · cases h
        rename_i s2 hemit
        obtain ⟨g2, l2, v2, k2, sc2, c2⟩ :=
          emitChunk_spec a _ s s2 hemit hg (hcs _) (by omega)
        obtain ⟨m, p1, p2, p3, p4, p5, p6, p7, p8⟩ := ih _ _ h (by omega) g2
        have hi2 : s2.buf.index = s.buf.index + (iterWords a s.chunkcntr (csz a s.chunkcntr)).length := by
          have e1 := s2.buf.view_length g2
          have e2 := s.buf.view_length hg
          rw [v2, List.length_append, e2] at e1
          exact e1.symm
        have hlen : (blocks a s.chunkcntr (m + 1)).length
            = (iterWords a s.chunkcntr (csz a s.chunkcntr)).length
              + (blocks a (s.chunkcntr + 1) m).length := by
          simp only [blocks, List.length_append]
        rw [k2, hi2] at p4 p5 p8
        rw [k2] at p1 p7
        rw [v2] at p5
        rw [k2, hi2, c2] at p6
        refine ⟨m + 1, ?_⟩
        simp only [LoopPost]
        rw [hlen]
        refine ⟨by omega, p2, p3, by omega, ?_, ?_, by omega, ?_⟩
        · rw [p5]
          simp only [blocks, List.append_assoc, Nat.add_assoc]
        · rw [p6]
          simp only [recs, List.append_assoc, List.singleton_append]
        · rcases p8 with ⟨q1, q2, q3⟩ | ⟨q1, q2, q3, q4⟩
          · left
            exact ⟨by rw [q1, sc2], by omega, q3⟩
          · right
            refine ⟨q1, by omega, by omega, ?_⟩
            have e : s.chunkcntr + 1 + m = s.chunkcntr + (m + 1) := by omega
            rw [e] at q4
            have e2 : s.buf.index + ((iterWords a s.chunkcntr (csz a s.chunkcntr)).length
                + (blocks a (s.chunkcntr + 1) m).length)
                = s.buf.index + (iterWords a s.chunkcntr (csz a s.chunkcntr)).length
                  + (blocks a (s.chunkcntr + 1) m).length := by omega
            rw [e2]
            exact q4
    · rename_i hc
      injection h with h
      subst h
      exact ⟨0, loopPost_refl a n max s hn hg hc⟩

/-! ## The whole run -/

theorem maxChunkCnt_lt (a : FmArgs) : maxChunkCnt a < 2 ^ 32 := by
  unfold maxChunkCnt
  exact Nat.mod_lt _ (by norm_num)

/-- Every run of `generateFm` that returns satisfies `FmPost`, provided every
chunk size is at least 8 (and a `uint32_t`). -/
theorem generateFm_spec (a : FmArgs) (r : FmResult) (h : generateFm a = .ok r)
    (hcs : ∀ k, csz a k < 2 ^ 32) : FmPost a r := by
  unfold generateFm at h
  simp only at h
  split at h
  · cases h
  rename_i z hz
  have hn32 : a.emudata.length < 2 ^ 32 :=
    fillLoop_zero_lt _ _ _ _ _ hz rfl (Nat.le_refl _) (by simp)
  have hg0 : Buf.Good { emudata := a.emudata, index := 0 } := ⟨Nat.zero_le _, hn32⟩
  obtain ⟨ez, iz, gz, lz⟩ := fillLoop_spec _ _ _ _ _ hz rfl hg0
  split at h
  · cases h
  rename_i hdiv
  split at h
  · cases h
  rename_i i1 hput1
  have hgz : Buf.Good { emudata := z.emudata, index := 0 } := ⟨Nat.zero_le _, by rw [lz]; exact hn32⟩
  obtain ⟨g1, l1, v1, x1, _⟩ := put_spec _ _ _ hput1 hgz
  split at h
  · cases h
  rename_i i2 hput2
  obtain ⟨g2, l2, v2, x2, _⟩ := put_spec _ _ _ hput2 g1
  split at h
  · cases h
  rename_i s hloop
  obtain ⟨m, p1, p2, p3, p4, p5, p6, p7, p8⟩ :=
    mainLoop_spec a a.emudata.length (maxChunkCnt a) hcs (maxChunkCnt_lt a) _ _ _ hloop
      (by show i2.emudata.length = _; rw [l2, l1]; exact lz) g2
  simp only at p1 p4 p5 p6 p7 p8 x1 x2 v1 v2
  split at h
  · cases h
  rename_i b hfill
  obtain ⟨eb, ib, gb, lb⟩ := fillLoop_spec _ _ _ _ _ hfill p3 p2
  injection h with h
  subst h
  have hv2 : i2.view = [FM_KCHAR_IDLE, FM_KCHAR_IDLE] := by
    rw [v2, v1]; rfl
  have hi2 : i2.index = 2 := by omega
  have hm : s.chunkcntr = m := by omega
  rw [hi2] at p4 p5 p6 p8
  rw [hv2] at p5
  simp only [Nat.zero_add] at p7 p8
  simp only [FmPost]
  rw [hm]
  refine ⟨hn32, hdiv, p4, ?_, ?_, ?_, ?_, ?_⟩
  · rw [eb, p5]
    simp
  · rw [p6]; rfl
  · rcases Nat.eq_zero_or_pos m with h0 | h0
    · omega
    · exact p7 h0
  · have hle : m ≤ maxChunkCnt a := by
      rcases Nat.eq_zero_or_pos m with h0 | h0
      · omega
      · exact p7 h0
    rcases p8 with ⟨q1, q2, q3⟩ | ⟨q1, q2, q3, q4⟩
    · by_cases hlt : m < maxChunkCnt a
      · simp only [hlt, if_true]
        constructor
        · intro hf; cases hf
        · intro he; omega
      · simp only [hlt, if_false, q1]
        constructor
        · intro _; omega
        · intro _; trivial
    · simp only [q3, if_true]
      constructor
      · intro hf; cases hf
      · intro he; omega
  · intro hlt
    rcases p8 with ⟨q1, q2, q3⟩ | ⟨q1, q2, q3, q4⟩
    · left
      rw [hm] at q3
      have := p2.1
      omega
    · right
      exact ⟨q2, q4⟩

/-! ## Runs that stay inside the buffer return -/

theorem fillConst_ok (v n : Nat) (b : Buf) (hg : b.Good)
    (h : b.index + n ≤ b.emudata.length) : ∃ b1, fillConst v n b = .ok b1 := by
  induction n generalizing b with
  | zero => exact ⟨b, rfl⟩
  | succ n ih =>
    simp only [fillConst]
    obtain ⟨b2, hput⟩ := put_ok b v (by omega)
    obtain ⟨g2, l2, _, i2, _⟩ := put_spec b b2 v hput hg
    rw [hput]
    exact ih b2 g2 (by omega)

theorem fillCounter_ok (n cntr : Nat) (b : Buf) (hg : b.Good)
    (h : b.index + n ≤ b.emudata.length) : ∃ b1, fillCounter n cntr b = .ok b1 := by
  induction n generalizing b cntr with
  | zero => exact ⟨b, rfl⟩
  | succ n ih =>
    simp only [fillCounter]
    obtain ⟨b2, hput⟩ := put_ok b (counterWord cntr) (by omega)
    obtain ⟨g2, l2, _, i2, _⟩ := put_spec b b2 _ hput hg
    rw [hput]
    exact ih _ b2 g2 (by omega)

theorem fillPayload_ok (pattern_id n : Nat) (b : Buf) (hg : b.Good)
    (h : b.index + n ≤ b.emudata.length) : ∃ b1, fillPayload pattern_id n b = .ok b1 := by
  unfold fillPayload
  split
  · exact fillConst_ok _ _ _ hg h
  · split
    · exact fillConst_ok _ _ _ hg h
    · split
      · exact fillConst_ok _ _ _ hg h
      · exact fillCounter_ok _ _ _ hg h

theorem maybe_put_ok (c : Prop) [Decidable c] (b : Buf) (v : Nat)
    (h : c → b.index < b.emudata.length) :
    ∃ b1, (if c then b.put v else .ok b) = .ok b1 := by
  by_cases hc : c
  · simp only [hc, if_true]
    exact put_ok b v (h hc)
  · simp only [hc, if_false]
    exact ⟨b, rfl⟩

theorem iterWords_length (a : FmArgs) (k chunksz : Nat) :
    (iterWords a k chunksz).length
      = sopLen a k + (2 + dataSz chunksz / 4) + (if a.omit_one_eoc = true ∧ k = 2 then 0 else 1)
        + (if a.add_busy = true ∧ k = 0 then 1 else 0) + a.idle_chars
        + (if a.add_busy = true ∧ k = 0 then 1 else 0) := by
  simp only [iterWords, List.length_append, chunkWords_length a k chunksz, sopLen,
    List.length_replicate]
  split <;> split <;> split <;> simp

/-- A chunk whose stores all fall inside the buffer is written without a fault. -/
theorem emitChunk_ok (a : FmArgs) (chunksz : Nat) (s : FmState) (hg : s.buf.Good)
    (h32 : chunksz < 2 ^ 32)
    (heop : s.buf.index + sopLen a s.chunkcntr + 2 + dataSz chunksz / 4 + 1
      ≤ s.buf.emudata.length)
    (hall : s.buf.index + (iterWords a s.chunkcntr chunksz).length ≤ s.buf.emudata.length) :
    ∃ s1, emitChunk a chunksz s = .ok s1 := by
  rw [iterWords_length a _ _] at hall
  have hw := crcLen_le chunksz
  unfold emitChunk
  rw [chunkDataSz_eq_dataSz chunksz h32]
  simp only
  generalize hd : dataSz chunksz / 4 = d at *
  obtain ⟨b0, hput0⟩ := put_ok s.buf FM_KCHAR_SOP (by omega)
  rw [hput0]
  simp only
  obtain ⟨g1, l1, v1, i1⟩ :=
    put_maybe_back (a.omit_one_soc = true ∧ s.chunkcntr = 2) s.buf b0 _ hput0 hg
  have hsop : (if a.omit_one_soc = true ∧ s.chunkcntr = 2 then 0 else 1) = sopLen a s.chunkcntr :=
    rfl
  rw [hsop] at i1
  generalize (if a.omit_one_soc = true ∧ s.chunkcntr = 2 then b0.back else b0) = b1 at g1 l1 v1 i1
  obtain ⟨b2, hput2⟩ := put_ok b1 (chunkHeader a.use_streamid s.chunkcntr (dataSz chunksz))
    (by omega)
  obtain ⟨g2, l2, v2, i2, _⟩ := put_spec b1 b2 _ hput2 g1
  rw [hput2]
  simp only
  obtain ⟨b3, hput3⟩ := put_ok b2 0x10AABB00 (by omega)
  obtain ⟨g3, l3, v3, i3, _⟩ := put_spec b2 b3 _ hput3 g2
  rw [hput3]
  simp only
  obtain ⟨b4, hfill⟩ := fillPayload_ok a.pattern_id d b3 g3 (by omega)
  obtain ⟨g4, l4, v4, i4⟩ := fillPayload_spec _ _ _ _ hfill g3
  rw [hfill]
  simp only
  have hstart : (b4.index + 2 ^ 32 - chunksz / 4) % 2 ^ 32 = b4.index - chunksz / 4 := by
    have := g4.2
    omega
  have hslice : ∃ data, b4.slice ((b4.index + 2 ^ 32 - chunksz / 4) % 2 ^ 32) (chunksz / 4)
      = .ok data := by
    unfold Buf.slice
    rw [if_pos (by omega)]
    exact ⟨_, rfl⟩
  obtain ⟨data, hdata⟩ := hslice
  rw [hdata]
  simp only
  generalize (FM_KCHAR_EOP ||| ((if a.add_crc_err = true ∧ s.chunkcntr = 3
      then (crc20 data a.crc_new + 1) % 2 ^ 64 else crc20 data a.crc_new) <<< 8) % 2 ^ 64) = w
  obtain ⟨b5, hput5⟩ := put_ok b4 w (by omega)
  rw [hput5]
  simp only
  obtain ⟨g6, l6, v6, i6⟩ :=
    put_maybe_back (a.omit_one_eoc = true ∧ s.chunkcntr = 2) b4 b5 _ hput5 g4
  generalize (if a.omit_one_eoc = true ∧ s.chunkcntr = 2 then b5.back else b5) = b6 at g6 l6 v6 i6
  obtain ⟨b7, hput7⟩ := maybe_put_ok (a.add_busy = true ∧ s.chunkcntr = 0) b6 FM_KCHAR_SOB
    (by intro hc; rw [if_pos hc] at hall; omega)
  obtain ⟨g7, l7, v7⟩ := maybe_put _ b6 b7 _ hput7 g6
  have i7 : b7.index = b6.index + (if a.add_busy = true ∧ s.chunkcntr = 0 then 1 else 0) := by
    have e1 := b7.view_length g7
    have e2 := b6.view_length g6
    rw [v7, List.length_append, e2] at e1
    rw [← e1]
    split <;> simp
  rw [hput7]
  simp only
  obtain ⟨b8, hfill8⟩ := fillConst_ok FM_KCHAR_IDLE a.idle_chars b7 g7 (by omega)
  obtain ⟨g8, l8, v8, i8⟩ := fillConst_spec _ _ _ _ hfill8 g7
  rw [hfill8]
  simp only
  obtain ⟨b9, hput9⟩ := maybe_put_ok (a.add_busy = true ∧ s.chunkcntr = 0) b8 FM_KCHAR_EOB
    (by intro hc; rw [if_pos hc] at hall i7; omega)
  rw [hput9]
  exact ⟨_, rfl⟩

theorem mainLoop_exit (a : FmArgs) (n max fuel : Nat) (s : FmState)
    (hc : ¬ (s.buf.index < n ∧ s.chunkcntr < max)) :
    mainLoop a n max fuel s = .ok s := by
  cases fuel with
  | zero => simp only [mainLoop]; rw [if_neg hc]
  | succ fuel => simp only [mainLoop]; rw [if_neg hc]

theorem blocks_succ_last (a : FmArgs) (k m : Nat) :
    blocks a k (m + 1) = blocks a k m ++ iterWords a (k + m) (csz a (k + m)) := by
  induction m generalizing k with
  | zero => simp [blocks]
  | succ m ih =>
    rw [blocks, ih (k + 1), blocks, List.append_assoc]
    have : k + 1 + m = k + (m + 1) := by omega
    rw [this]

/-- The main loop returns when every chunk it may write stays inside the
buffer. -/
theorem mainLoop_ok (a : FmArgs) (n max : Nat)
    (hcs : ∀ k, csz a k < 2 ^ 32) (hmax : max < 2 ^ 32) (fuel : Nat) :
    ∀ s, s.buf.emudata.length = n → s.buf.Good → max - s.chunkcntr < fuel →
      Fits a n max s.buf.index s.chunkcntr → ∃ s1, mainLoop a n max fuel s = .ok s1 := by
  induction fuel with
  | zero => intro s _ _ hf; omega
  | succ fuel ih =>
    intro s hn hg hf hfits
    simp only [mainLoop]
    have hcsz : chunkSize a.req_chunksize a.random_sz (a.rnd s.chunkcntr) = csz a s.chunkcntr :=
      rfl
    simp only [hcsz]
    split
    · rename_i hc
      split
      · obtain ⟨b, hfill⟩ := fillLoop_ok n FM_KCHAR_IDLE n s.buf hn hg (by omega)
        obtain ⟨_, ib, _, _⟩ := fillLoop_spec _ _ _ _ _ hfill hn hg
        rw [hfill]
        simp only
        rw [mainLoop_exit]
        · exact ⟨_, rfl⟩
        · simp only [ib]; omega
      · have h0 := hfits 0 (by omega)
        simp only [blocks, List.length_nil, Nat.add_zero, List.append_nil] at h0
        obtain ⟨s2, hemit⟩ := emitChunk_ok a (csz a s.chunkcntr) s hg (hcs _)
          (by omega) (by omega)
        obtain ⟨g2, l2, v2, k2, _, _⟩ :=
          emitChunk_spec a _ s s2 hemit hg (hcs _) (by omega)
        have hi2 : s2.buf.index
            = s.buf.index + (iterWords a s.chunkcntr (csz a s.chunkcntr)).length := by
          have e1 := s2.buf.view_length g2
          have e2 := s.buf.view_length hg
          rw [v2, List.length_append, e2] at e1
          exact e1.symm
        rw [hemit]
        simp only
        apply ih s2 (by omega) g2 (by omega)
        intro j hj
        rw [k2] at hj ⊢
        have hj' := hfits (j + 1) (by omega)
        have e : s.chunkcntr + (j + 1) = s.chunkcntr + 1 + j := by omega
        rw [e] at hj'
        have hb1 : (blocks a s.chunkcntr (j + 1)).length
            = (iterWords a s.chunkcntr (csz a s.chunkcntr)).length
              + (blocks a (s.chunkcntr + 1) j).length := by
          simp only [blocks, List.length_append]
        have hb2 : (blocks a s.chunkcntr (j + 1 + 1)).length
            = (iterWords a s.chunkcntr (csz a s.chunkcntr)).length
              + (blocks a (s.chunkcntr + 1) (j + 1)).length := by
          simp only [blocks, List.length_append]
        rw [hb1, hb2] at hj'
        rw [hi2]
        omega
    · exact ⟨s, rfl⟩

/-- A run of `generateFm` returns when the buffer has between 2 and `2 ^ 32`
slots, the divisor is not zero, and every chunk the loop may write stays
inside the buffer. -/
theorem generateFm_ok (a : FmArgs) (hcs : ∀ k, csz a k < 2 ^ 32)
    (h2 : 2 ≤ a.emudata.length) (h32 : a.emudata.length < 2 ^ 32) (hdiv : fmDivisor a ≠ 0)
    (hfits : Fits a a.emudata.length (maxChunkCnt a) 2 0) :
    ∃ r, generateFm a = .ok r := by
  unfold generateFm
  simp only
  have hg0 : Buf.Good { emudata := a.emudata, index := 0 } := ⟨Nat.zero_le _, h32⟩
  obtain ⟨z, hz⟩ := fillLoop_ok a.emudata.length 0 a.emudata.length
    { emudata := a.emudata, index := 0 } rfl hg0 (by simp)
  obtain ⟨ez, iz, gz, lz⟩ := fillLoop_spec _ _ _ _ _ hz rfl hg0
  rw [hz]
  simp only
  rw [if_neg hdiv]
  have hgz : Buf.Good { emudata := z.emudata, index := 0 } :=
    ⟨Nat.zero_le _, by rw [lz]; exact h32⟩
  obtain ⟨i1, hput1⟩ := put_ok { emudata := z.emudata, index := 0 } FM_KCHAR_IDLE
    (by show 0 < z.emudata.length; omega)
  obtain ⟨g1, l1, v1, x1, _⟩ := put_spec _ _ _ hput1 hgz
  rw [hput1]
  simp only
  simp only at x1 l1
  obtain ⟨i2, hput2⟩ := put_ok i1 FM_KCHAR_IDLE (by omega)
  obtain ⟨g2, l2, v2, x2, _⟩ := put_spec _ _ _ hput2 g1
  rw [hput2]
  simp only
  have hi2 : i2.index = 2 := by omega
  obtain ⟨s, hloop⟩ := mainLoop_ok a a.emudata.length (maxChunkCnt a) hcs (maxChunkCnt_lt a)
    (maxChunkCnt a + 1) { buf := i2, chunkcntr := 0, success := true, chunks := [] }
    (by show i2.emudata.length = _; omega) g2 (by show _ - 0 < _; omega)
    (by show Fits a _ _ i2.index 0; rw [hi2]; exact hfits)
  obtain ⟨m, _, p2, p3, _⟩ :=
    mainLoop_spec a a.emudata.length (maxChunkCnt a) hcs (maxChunkCnt_lt a) _ _ _ hloop
      (by show i2.emudata.length = _; omega) g2
  rw [hloop]
  simp only
  obtain ⟨b, hfill⟩ := fillLoop_ok a.emudata.length FM_KCHAR_IDLE a.emudata.length s.buf p3 p2
    (by omega)
  rw [hfill]
  exact ⟨_, rfl⟩

/-! ## Chunk sizes -/

theorem csz_of_not_random (a : FmArgs) (k : Nat) (h : a.random_sz = false) :
    csz a k = a.req_chunksize := by
  simp [csz, chunkSize, h]

theorem csz_lt (a : FmArgs) (h32 : a.req_chunksize < 2 ^ 32) (k : Nat) : csz a k < 2 ^ 32 := by
  unfold csz chunkSize
  split
  · simp only
    omega
  · exact h32

/-- Every chunk has at least 8 bytes when `req_chunksize ≥ 8`, provided the
32-bit sum in the random-size branch does not wrap. -/
theorem csz_ge (a : FmArgs) (h8 : 8 ≤ a.req_chunksize)
    (hrnd : a.random_sz = true → a.req_chunksize + 3 < 2 ^ 32) (k : Nat) : 8 ≤ csz a k := by
  unfold csz chunkSize
  split
  · rename_i hc
    have h3 := hrnd hc.1
    have hgt := hc.2
    simp only
    have hsz : (a.req_chunksize + 1) % 2 ^ 32 / 2 = (a.req_chunksize + 1) / 2 := by
      rw [Nat.mod_eq_of_lt (by omega)]
    rw [hsz]
    generalize ht : a.rnd k % ((a.req_chunksize + 1) / 2 + 1) = t
    have htle : t ≤ (a.req_chunksize + 1) / 2 := by
      rw [← ht]
      exact Nat.le_of_lt_succ (Nat.mod_lt _ (Nat.succ_pos _))
    omega
  · exact h8

/-! ## Where the chunks lie in the final buffer -/

theorem recs_mem (a : FmArgs) (off k m : Nat) (c : ChunkRec) (h : c ∈ recs a off k m) :
    ∃ j, j < m ∧ c.cntr = k + j ∧ c.chunksz = csz a (k + j)
      ∧ c.hdr = off + (blocks a k j).length + sopLen a (k + j)
      ∧ c.eop = c.hdr + 2 + dataSz (csz a (k + j)) / 4 := by
  induction m generalizing off k with
  | zero => simp [recs] at h
  | succ m ih =>
    simp only [recs, List.mem_cons] at h
    rcases h with h | h
    · subst h
      exact ⟨0, by omega, rfl, rfl, by simp [blocks], rfl⟩
    · obtain ⟨j, hj, h1, h2, h3, h4⟩ := ih _ _ h
      have e : k + 1 + j = k + (j + 1) := by omega
      rw [e] at h1 h2 h3 h4
      refine ⟨j + 1, by omega, h1, h2, ?_, h4⟩
      rw [h3]
      simp only [blocks, List.length_append]
      omega

theorem recs_length (a : FmArgs) (off k m : Nat) : (recs a off k m).length = m := by
  induction m generalizing off k with
  | zero => rfl
  | succ m ih => simp [recs, ih]

theorem blocks_split (a : FmArgs) (k m j : Nat) (hj : j < m) :
    ∃ post, blocks a k m = blocks a k j ++ iterWords a (k + j) (csz a (k + j)) ++ post := by
  induction m with
  | zero => omega
  | succ m ih =>
    by_cases hjm : j = m
    · subst hjm
      exact ⟨[], by rw [blocks_succ_last, List.append_nil]⟩
    · obtain ⟨post, hp⟩ := ih (by omega)
      exact ⟨post ++ iterWords a (k + m) (csz a (k + m)), by
        rw [blocks_succ_last, hp, List.append_assoc]⟩

/-- The words of one pass, split at the chunk proper. -/
theorem iterWords_split (a : FmArgs) (k chunksz : Nat) :
    ∃ sop tail, iterWords a k chunksz = sop ++ chunkWords a k chunksz
        ++ (if a.omit_one_eoc = true ∧ k = 2 then [] else [eopWord a k chunksz]) ++ tail
      ∧ sop.length = sopLen a k
      ∧ (sopLen a k = 1 → sop = [FM_KCHAR_SOP]) :=
  ⟨if a.omit_one_soc = true ∧ k = 2 then [] else [FM_KCHAR_SOP],
   (if a.add_busy = true ∧ k = 0 then [FM_KCHAR_SOB] else [])
      ++ List.replicate a.idle_chars FM_KCHAR_IDLE
      ++ (if a.add_busy = true ∧ k = 0 then [FM_KCHAR_EOB] else []),
   by simp only [iterWords, List.append_assoc],
   by unfold sopLen; split <;> rfl,
   by unfold sopLen; split <;> simp⟩

/-- Every chunk the run has recorded lies in the final buffer as header word,
width word, payload words and (unless dropped) EOP word, from slot `hdr` on. -/
theorem chunk_layout (a : FmArgs) (r : FmResult) (hp : FmPost a r) (c : ChunkRec)
    (hc : c ∈ r.chunks) :
    ∃ pre post, r.emudata = pre ++ chunkWords a c.cntr c.chunksz
        ++ (if a.omit_one_eoc = true ∧ c.cntr = 2 then [] else [eopWord a c.cntr c.chunksz])
        ++ post
      ∧ pre.length = c.hdr ∧ c.eop = c.hdr + (chunkWords a c.cntr c.chunksz).length
      ∧ c.chunksz = csz a c.cntr ∧ c.cntr < r.chunkcntr
      ∧ (sopLen a c.cntr = 1 → ∃ pre1, pre = pre1 ++ [FM_KCHAR_SOP]) := by
  obtain ⟨_, _, _, hem, hch, _⟩ := hp
  rw [hch] at hc
  obtain ⟨j, hj, h1, h2, h3, h4⟩ := recs_mem a 2 0 _ c hc
  simp only [Nat.zero_add] at h1 h2 h3 h4
  obtain ⟨post1, hb⟩ := blocks_split a 0 _ j hj
  simp only [Nat.zero_add] at hb
  obtain ⟨sop, tail, hi, hs1, hs2⟩ := iterWords_split a j (csz a j)
  rw [h1, h2]
  refine ⟨FM_KCHAR_IDLE :: FM_KCHAR_IDLE :: (blocks a 0 j ++ sop),
    tail ++ post1 ++ List.replicate
      (a.emudata.length - (2 + (blocks a 0 r.chunkcntr).length)) FM_KCHAR_IDLE,
    ?_, ?_, ?_, rfl, hj, ?_⟩
  · rw [hem, hb, hi]
    simp only [List.append_assoc, List.cons_append]
  · simp only [List.length_cons, List.length_append, hs1, h3]
    omega
  · rw [h4, chunkWords_length]
    omega
  · intro h
    exact ⟨FM_KCHAR_IDLE :: FM_KCHAR_IDLE :: blocks a 0 j, by rw [hs2 h]; simp⟩

theorem getElem?_mid (pre mid post : List Nat) (i : Nat) (h : i < mid.length) :
    (pre ++ mid ++ post)[pre.length + i]? = mid[i]? := by
  rw [List.append_assoc, List.getElem?_append_right (by omega)]
  simp only [Nat.add_sub_cancel_left]
  rw [List.getElem?_append_left h]

theorem drop_take_mid (pre mid post : List Nat) :
    ((pre ++ mid ++ post).drop pre.length).take mid.length = mid := by
  rw [List.append_assoc, List.drop_left, List.take_left]

/-! ## The fields of the EOP word -/

theorem eop_or (x : Nat) (hx : x < 2 ^ 24) :
    FM_KCHAR_EOP ||| (x <<< 8) = 2 ^ 32 + 256 * x + 0xDC := by
  have h1 : (2 : Nat) ^ 8 * x ||| 0xDC = 2 ^ 8 * x + 0xDC :=
    (Nat.mul_add_lt_is_or (by norm_num) x).symm
  have h2 : (2 : Nat) ^ 32 * 1 ||| (2 ^ 8 * x + 0xDC) = 2 ^ 32 * 1 + (2 ^ 8 * x + 0xDC) :=
    (Nat.mul_add_lt_is_or (by omega) 1).symm
  have h3 : FM_KCHAR_EOP = 2 ^ 32 * 1 ||| 0xDC := by decide
  have h4 : x <<< 8 = 2 ^ 8 * x := by rw [Nat.shiftLeft_eq, Nat.mul_comm]
  rw [h3, h4, Nat.or_assoc, Nat.or_comm 0xDC, h1, h2]
  omega

theorem storedCrc_le (a : FmArgs) (k chunksz : Nat) : storedCrc a k chunksz ≤ 2 ^ 20 := by
  have hlt := crc20_lt (crcInput a k chunksz) a.crc_new
  unfold storedCrc
  split <;> omega

theorem and_fffff (x : Nat) : x &&& 0xFFFFF = x % 2 ^ 20 := by
  have h : (0xFFFFF : Nat) = 2 ^ 20 - 1 := by norm_num
  rw [h, Nat.and_pow_two_sub_one_eq_mod]

/-- The EOP word carries the tag byte `0xDC` in bits 0-7 and the stored
checksum (modulo `2 ^ 20`) in bits 8-27. -/
theorem eopWord_fields (a : FmArgs) (k chunksz : Nat) :
    eopWord a k chunksz &&& 0xFF = 0xDC
      ∧ (eopWord a k chunksz >>> 8) &&& 0xFFFFF = storedCrc a k chunksz % 2 ^ 20 := by
  have hle := storedCrc_le a k chunksz
  unfold eopWord
  rw [eop_or _ (by omega), and_ff, and_fffff, Nat.shiftRight_eq_div_pow]
  generalize storedCrc a k chunksz = x at hle ⊢
  omega

theorem storedCrc_of_no_err (a : FmArgs) (k chunksz : Nat)
    (h : ¬ (a.add_crc_err = true ∧ k = 3)) :
    storedCrc a k chunksz = crc20 (crcInput a k chunksz) a.crc_new := by
  unfold storedCrc
  rw [if_neg h]



/-! ## The checksum -/

/-- C1: for every sequence of words, every word position `i` in it, every bit
position `b < 32` and both polynomials, `crc20` of the sequence with bit `b` of
word `i` flipped differs from `crc20` of the original sequence. -/
theorem crc20_single_bit_flip (data : List Nat) (i b : Nat) (crc_new : Bool)
    (hi : i < data.length) (hb : b < 32) :
    crc20 (flipBit data i b) crc_new ≠ crc20 data crc_new := by
  rw [crc20_eq_ref, crc20_eq_ref]
  exact crc20_ref_flip data i b crc_new hi hb

theorem crc20_single_bit_flip_witness :
    1 < [0xAA, 0x10AABB00, 0x03020100].length ∧ 5 < 32
      ∧ crc20 (flipBit [0xAA, 0x10AABB00, 0x03020100] 1 5) true
          ≠ crc20 [0xAA, 0x10AABB00, 0x03020100] true :=
  ⟨by decide, by decide,
    crc20_single_bit_flip [0xAA, 0x10AABB00, 0x03020100] 1 5 true (by decide) (by decide)⟩

/-- C2: for every sequence of words and both polynomials, `crc20`, which masks
its accumulator once per word, returns the value of the bit-serial reference
that keeps a 20-bit register and truncates after every bit; the result is
below `2 ^ 20`. -/
theorem crc20_refines_bit_serial (data : List Nat) (crc_new : Bool) :
    crc20 data crc_new = crc20_ref data crc_new ∧ crc20 data crc_new < 2 ^ 20 :=
  ⟨crc20_eq_ref data crc_new, crc20_lt data crc_new⟩

/-! ## The EOP word -/

/-- C3 (amended): in every run with `req_chunksize ≥ 8`, with
`req_chunksize + 3 < 2 ^ 32` when `random_sz` is on (the 32-bit sums of the random
size do not wrap), and the flags `add_crc_err` and
`omit_one_eoc` off, each chunk written occupies the `chunksz / 4` slots from its
header slot on (header word, width word, payload words), and the slot after
them holds `((1 << 32) | 0xDC) | (c << 8)` with `c` the `crc20` of exactly those
words; bits 0-7 of that word are `0xDC` and bits 8-27 are `c`. -/
theorem eop_word_carries_crc (a : FmArgs) (r : FmResult) (h : generateFm a = .ok r)
    (h8 : 8 ≤ a.req_chunksize) (h32 : a.req_chunksize < 2 ^ 32)
    (hrnd : a.random_sz = true → a.req_chunksize + 3 < 2 ^ 32)
    (herr : a.add_crc_err = false) (heoc : a.omit_one_eoc = false) :
    ∀ c ∈ r.chunks,
      (r.emudata.drop c.hdr).take (c.chunksz / 4)
          = chunkHeader a.use_streamid c.cntr (c.chunksz - 8) :: 0x10AABB00
              :: payloadWords a.pattern_id ((c.chunksz - 8) / 4)
        ∧ c.eop = c.hdr + c.chunksz / 4
        ∧ ∃ w, r.emudata[c.eop]? = some w
            ∧ w = ((1 <<< 32) ||| 0xDC)
                ||| (crc20 ((r.emudata.drop c.hdr).take (c.chunksz / 4)) a.crc_new <<< 8)
            ∧ w &&& 0xFF = 0xDC
            ∧ (w >>> 8) &&& 0xFFFFF
                = crc20 ((r.emudata.drop c.hdr).take (c.chunksz / 4)) a.crc_new := by
  intro c hc
  have hp := generateFm_spec a r h (csz_lt a h32)
  obtain ⟨pre, post, hem, hpre, heop, hsz, _, _⟩ := chunk_layout a r hp c hc
  have hc8 : 8 ≤ c.chunksz := by rw [hsz]; exact csz_ge a h8 hrnd _
  have hlen : (chunkWords a c.cntr c.chunksz).length = c.chunksz / 4 := by
    rw [chunkWords_length, dataSz_of_ge _ hc8]; omega
  have hne : ¬ (a.omit_one_eoc = true ∧ c.cntr = 2) := by simp [heoc]
  rw [if_neg hne] at hem
  have hslice : (r.emudata.drop c.hdr).take (c.chunksz / 4) = chunkWords a c.cntr c.chunksz := by
    rw [hem, ← hpre, ← hlen, List.append_assoc (pre ++ _)]
    exact drop_take_mid pre _ _
  have hcrc : storedCrc a c.cntr c.chunksz
      = crc20 (chunkWords a c.cntr c.chunksz) a.crc_new := by
    rw [storedCrc_of_no_err a _ _ (by simp [herr]), crcInput_eq a _ _ hc8]
  have hfields := eopWord_fields a c.cntr c.chunksz
  rw [hcrc, Nat.mod_eq_of_lt (crc20_lt _ _)] at hfields
  rw [hslice]
  refine ⟨?_, by rw [heop, hlen], eopWord a c.cntr c.chunksz, ?_, ?_, hfields.1, hfields.2⟩
  · simp only [chunkWords, dataSz_of_ge _ hc8]
  · rw [heop, hem, ← hpre, ← List.length_append]
    have := getElem?_mid (pre ++ chunkWords a c.cntr c.chunksz) [eopWord a c.cntr c.chunksz]
      post 0 (by simp)
    simpa using this
  · unfold eopWord
    rw [hcrc]
    rfl

theorem eop_word_carries_crc_witness :
    generateFm plainArgs = .ok plainResult
      ∧ 8 ≤ plainArgs.req_chunksize ∧ plainArgs.req_chunksize < 2 ^ 32
      ∧ (plainArgs.random_sz = true → plainArgs.req_chunksize + 3 < 2 ^ 32)
      ∧ plainArgs.add_crc_err = false ∧ plainArgs.omit_one_eoc = false
      ∧ ∀ c ∈ plainResult.chunks,
        (plainResult.emudata.drop c.hdr).take (c.chunksz / 4)
            = chunkHeader plainArgs.use_streamid c.cntr (c.chunksz - 8) :: 0x10AABB00
                :: payloadWords plainArgs.pattern_id ((c.chunksz - 8) / 4)
          ∧ c.eop = c.hdr + c.chunksz / 4
          ∧ ∃ w, plainResult.emudata[c.eop]? = some w
              ∧ w = ((1 <<< 32) ||| 0xDC)
                  ||| (crc20 ((plainResult.emudata.drop c.hdr).take (c.chunksz / 4))
                        plainArgs.crc_new <<< 8)
              ∧ w &&& 0xFF = 0xDC
              ∧ (w >>> 8) &&& 0xFFFFF
                  = crc20 ((plainResult.emudata.drop c.hdr).take (c.chunksz / 4))
                      plainArgs.crc_new :=
  ⟨by decide!, by decide, by decide, by decide, by decide, by decide,
    eop_word_carries_crc plainArgs plainResult (by decide!) (by decide) (by decide) (by decide)
      (by decide) (by decide)⟩

/-- C10 (amended): in every run with `add_crc_err` set, `omit_one_eoc` off,
`req_chunksize ≥ 8` and, when `random_sz` is on, `req_chunksize + 3 < 2 ^ 32` (the
32-bit sums of the random size do not wrap), the 20-bit field in bits 8-27 of a chunk's EOP word equals
`crc20` of the chunk's header, width and payload words if and only if the
chunk's counter is not 3. -/
theorem crc_err_hits_exactly_chunk_3 (a : FmArgs) (r : FmResult) (h : generateFm a = .ok r)
    (h8 : 8 ≤ a.req_chunksize) (h32 : a.req_chunksize < 2 ^ 32)
    (hrnd : a.random_sz = true → a.req_chunksize + 3 < 2 ^ 32)
    (herr : a.add_crc_err = true) (heoc : a.omit_one_eoc = false) :
    ∀ c ∈ r.chunks,
      (r.emudata.drop c.hdr).take (c.chunksz / 4)
          = chunkHeader a.use_streamid c.cntr (c.chunksz - 8) :: 0x10AABB00
              :: payloadWords a.pattern_id ((c.chunksz - 8) / 4)
        ∧ c.eop = c.hdr + c.chunksz / 4
        ∧ ∃ w, r.emudata[c.eop]? = some w
            ∧ ((w >>> 8) &&& 0xFFFFF
                  = crc20 ((r.emudata.drop c.hdr).take (c.chunksz / 4)) a.crc_new
                ↔ c.cntr ≠ 3) := by
  intro c hc
  have hp := generateFm_spec a r h (csz_lt a h32)
  obtain ⟨pre, post, hem, hpre, heop, hsz, _, _⟩ := chunk_layout a r hp c hc
  have hc8 : 8 ≤ c.chunksz := by rw [hsz]; exact csz_ge a h8 hrnd _
  have hlen : (chunkWords a c.cntr c.chunksz).length = c.chunksz / 4 := by
    rw [chunkWords_length, dataSz_of_ge _ hc8]; omega
  have hne : ¬ (a.omit_one_eoc = true ∧ c.cntr = 2) := by simp [heoc]
  rw [if_neg hne] at hem
  have hslice : (r.emudata.drop c.hdr).take (c.chunksz / 4) = chunkWords a c.cntr c.chunksz := by
    rw [hem, ← hpre, ← hlen, List.append_assoc (pre ++ _)]
    exact drop_take_mid pre _ _
  have hfields := (eopWord_fields a c.cntr c.chunksz).2
  have hlt := crc20_lt (chunkWords a c.cntr c.chunksz) a.crc_new
  rw [hslice]
  refine ⟨?_, by rw [heop, hlen], eopWord a c.cntr c.chunksz, ?_, ?_⟩
  · simp only [chunkWords, dataSz_of_ge _ hc8]
  · rw [heop, hem, ← hpre, ← List.length_append]
    have := getElem?_mid (pre ++ chunkWords a c.cntr c.chunksz) [eopWord a c.cntr c.chunksz]
      post 0 (by simp)
    simpa using this
  · rw [hfields]
    unfold storedCrc
    rw [crcInput_eq a _ _ hc8]
    by_cases h3 : c.cntr = 3
    · rw [if_pos ⟨herr, h3⟩]
      constructor
      · intro he; omega
      · intro hn; exact absurd h3 hn
    · rw [if_neg (fun hh => h3 hh.2), Nat.mod_eq_of_lt hlt]
      exact ⟨fun _ => h3, fun _ => rfl⟩

theorem crc_err_hits_exactly_chunk_3_witness :
    generateFm smallArgs = .ok smallResult
      ∧ 8 ≤ smallArgs.req_chunksize ∧ smallArgs.req_chunksize < 2 ^ 32
      ∧ (smallArgs.random_sz = true → smallArgs.req_chunksize + 3 < 2 ^ 32)
      ∧ smallArgs.add_crc_err = true ∧ smallArgs.omit_one_eoc = false
      ∧ ∀ c ∈ smallResult.chunks,
        (smallResult.emudata.drop c.hdr).take (c.chunksz / 4)
            = chunkHeader smallArgs.use_streamid c.cntr (c.chunksz - 8) :: 0x10AABB00
                :: payloadWords smallArgs.pattern_id ((c.chunksz - 8) / 4)
          ∧ c.eop = c.hdr + c.chunksz / 4
          ∧ ∃ w, smallResult.emudata[c.eop]? = some w
              ∧ ((w >>> 8) &&& 0xFFFFF
                    = crc20 ((smallResult.emudata.drop c.hdr).take (c.chunksz / 4))
                        smallArgs.crc_new
                  ↔ c.cntr ≠ 3) :=
  ⟨by decide!, by decide, by decide, by decide, by decide, by decide,
    crc_err_hits_exactly_chunk_3 smallArgs smallResult (by decide!) (by decide) (by decide)
      (by decide) (by decide) (by decide)⟩

/-! ## The IDLE word -/

/-- C9, as the code has it: every IDLE word `generateFm` writes is the constant
`FM_KCHAR_IDLE = 0x1000000BC`; its tag byte `0xBC` is in bits 0-7, and bits
32-39 hold the K-character flag, the value 1. -/
theorem idle_word_fields :
    FM_KCHAR_IDLE = 0x1000000BC ∧ FM_KCHAR_IDLE &&& 0xFF = 0xBC
      ∧ (FM_KCHAR_IDLE >>> 32) &&& 0xFF = 1 := by
  decide

/-- C9 fails as stated: the first slot of a run holds the IDLE word, and bits
32-39 of it are 1, not `0xBC`. -/
theorem idle_tag_not_in_bits_32_39 :
    generateFm plainArgs = .ok plainResult
      ∧ plainResult.emudata[0]? = some FM_KCHAR_IDLE
      ∧ ¬ ((FM_KCHAR_IDLE >>> 32) &&& 0xFF = 0xBC) := by
  refine ⟨by decide!, by decide, by decide⟩

/-! ## Bit fields as arithmetic -/

theorem and_shifted_mask (x w s : Nat) :
    x &&& ((2 ^ w - 1) <<< s) = ((x >>> s) % 2 ^ w) <<< s := by
  apply Nat.eq_of_testBit_eq
  intro i
  simp only [Nat.testBit_and, Nat.testBit_shiftLeft, Nat.testBit_two_pow_sub_one,
    Nat.testBit_mod_two_pow, Nat.testBit_shiftRight]
  by_cases h : s ≤ i
  · have e : s + (i - s) = i := by omega
    simp only [ge_iff_le, h, decide_True, Bool.true_and, e]
    cases decide (i - s < w) <;> simp
  · simp [h]

theorem and_f00 (x : Nat) : x &&& 0xF00 = x / 256 % 16 * 256 := by
  have h : (0xF00 : Nat) = (2 ^ 4 - 1) <<< 8 := by decide
  rw [h, and_shifted_mask, Nat.shiftRight_eq_div_pow, Nat.shiftLeft_eq]
  norm_num

theorem and_f (x : Nat) : x &&& 0xF = x % 16 := by
  have h : (0xF : Nat) = 2 ^ 4 - 1 := by norm_num
  rw [h, Nat.and_pow_two_sub_one_eq_mod]

/-- Disjoint bit fields add: a multiple of `2 ^ i` OR-ed with a value below
`2 ^ i`. -/
theorem or_low (i y x : Nat) (hx : x < 2 ^ i) : x ||| (y <<< i) = y * 2 ^ i + x := by
  rw [Nat.or_comm, Nat.shiftLeft_eq, Nat.mul_comm y, ← Nat.mul_add_lt_is_or hx]

/-- The header word as a sum of its four fields. -/
theorem chunkHeader_sum (use_streamid : Bool) (k d : Nat) :
    chunkHeader use_streamid k d
      = (if use_streamid then k % 256 else 0xAA) + d / 256 % 16 * 256 + d % 256 * 2 ^ 16
        + k % 256 * 2 ^ 24 := by
  have hk : k % 256 < 256 := Nat.mod_lt _ (by norm_num)
  have hd : d % 256 < 256 := Nat.mod_lt _ (by norm_num)
  have ha : d / 256 % 16 < 16 := Nat.mod_lt _ (by norm_num)
  have hA : d / 256 % 16 * 256 = (d / 256 % 16) <<< 8 := by rw [Nat.shiftLeft_eq]
  unfold chunkHeader
  simp only [and_ff, and_f00, hA]
  cases use_streamid
  · simp only [Bool.false_eq_true, if_false]
    rw [or_low 8 _ _ (by norm_num), or_low 16 _ _ (by omega), or_low 24 _ _ (by omega)]
    omega
  · simp only [if_true]
    rw [or_low 8 _ _ (by omega), or_low 16 _ _ (by omega), or_low 24 _ _ (by omega)]
    omega

/-- The pattern-0 word as a sum of its four bytes. -/
theorem counterWord_sum (c : Nat) :
    counterWord c = (c + 3) % 256 * 2 ^ 24 + (c + 2) % 256 * 2 ^ 16 + (c + 1) % 256 * 2 ^ 8
      + c % 256 := by
  have h0 : c % 256 < 256 := Nat.mod_lt _ (by norm_num)
  have h1 : (c + 1) % 256 < 256 := Nat.mod_lt _ (by norm_num)
  have h2 : (c + 2) % 256 < 256 := Nat.mod_lt _ (by norm_num)
  have h3 : (c + 3) % 256 < 256 := Nat.mod_lt _ (by norm_num)
  rw [counterWord_eq]
  have e1 : ((c + 1) % 256) <<< 8 ||| c % 256 = (c + 1) % 256 * 2 ^ 8 + c % 256 := by
    rw [Nat.or_comm, or_low 8 _ _ (by omega)]
  have e2 : ((c + 2) % 256) <<< 16 ||| ((c + 1) % 256 * 2 ^ 8 + c % 256)
      = (c + 2) % 256 * 2 ^ 16 + ((c + 1) % 256 * 2 ^ 8 + c % 256) := by
    rw [Nat.or_comm, or_low 16 _ _ (by omega)]
  have e3 : ((c + 3) % 256) <<< 24 ||| ((c + 2) % 256 * 2 ^ 16 + ((c + 1) % 256 * 2 ^ 8 + c % 256))
      = (c + 3) % 256 * 2 ^ 24 + ((c + 2) % 256 * 2 ^ 16 + ((c + 1) % 256 * 2 ^ 8 + c % 256)) := by
    rw [Nat.or_comm, or_low 24 _ _ (by omega)]
  rw [Nat.or_assoc, Nat.or_assoc, e1, e2, e3]
  omega

theorem bytes_of_sum (b0 b1 b2 b3 : Nat) (h0 : b0 < 256) (h1 : b1 < 256) (h2 : b2 < 256)
    (h3 : b3 < 256) :
    (b3 * 16777216 + b2 * 65536 + b1 * 256 + b0) / 1 % 256 = b0
      ∧ (b3 * 16777216 + b2 * 65536 + b1 * 256 + b0) / 256 % 256 = b1
      ∧ (b3 * 16777216 + b2 * 65536 + b1 * 256 + b0) / 65536 % 256 = b2
      ∧ (b3 * 16777216 + b2 * 65536 + b1 * 256 + b0) / 16777216 % 256 = b3 := by
  refine ⟨by omega, by omega, by omega, by omega⟩

/-- Byte `j` of the pattern-0 word for the counter `c` is `(c + j) mod 256`. -/
theorem counterWord_byte (c j : Nat) (hj : j < 4) :
    (counterWord c >>> (8 * j)) &&& 0xFF = (c + j) % 256 := by
  rw [counterWord_sum, and_ff, Nat.shiftRight_eq_div_pow]
  obtain ⟨e0, e1, e2, e3⟩ := bytes_of_sum (c % 256) ((c + 1) % 256) ((c + 2) % 256)
    ((c + 3) % 256) (Nat.mod_lt _ (by norm_num)) (Nat.mod_lt _ (by norm_num))
    (Nat.mod_lt _ (by norm_num)) (Nat.mod_lt _ (by norm_num))
  interval_cases j <;> simp only [Nat.reduceMul, Nat.reducePow, Nat.reduceAdd, Nat.add_zero]
  · exact e0
  · exact e1
  · exact e2
  · exact e3

/-! ## The header word and the payload -/

theorem header_fields (t a b c : Nat) (ht : t < 256) (ha : a < 16) (hb : b < 256)
    (hc : c < 256) :
    t + a * 256 + b * 65536 + c * 16777216 < 4294967296
      ∧ (t + a * 256 + b * 65536 + c * 16777216) / 256 % 16 = a
      ∧ (t + a * 256 + b * 65536 + c * 16777216) / 65536 % 256 = b
      ∧ (t + a * 256 + b * 65536 + c * 16777216) / 16777216 % 256 = c
      ∧ (t + a * 256 + b * 65536 + c * 16777216) / 4096 % 16 = 0
      ∧ (t + a * 256 + b * 65536 + c * 16777216) % 256 = t := by
  refine ⟨by omega, by omega, by omega, by omega, by omega, by omega⟩

/-- The fields of the header word, for any counter and any data size. -/
theorem chunkHeader_fields (use_streamid : Bool) (k d : Nat) :
    chunkHeader use_streamid k d < 2 ^ 32
      ∧ (chunkHeader use_streamid k d &&& 0xF00)
          ||| ((chunkHeader use_streamid k d >>> 16) &&& 0xFF) = d % 4096
      ∧ (chunkHeader use_streamid k d >>> 24) &&& 0xFF = k % 256
      ∧ (chunkHeader use_streamid k d >>> 12) &&& 0xF = 0
      ∧ chunkHeader use_streamid k d &&& 0xFF = (if use_streamid then k % 256 else 0xAA) := by
  have hk : k % 256 < 256 := Nat.mod_lt _ (by norm_num)
  have ht : (if use_streamid then k % 256 else 0xAA) < 256 := by
    split
    · exact hk
    · norm_num
  rw [chunkHeader_sum]
  generalize (if use_streamid then k % 256 else 0xAA) = t at ht ⊢
  simp only [and_ff, and_f00, and_f, Nat.shiftRight_eq_div_pow, Nat.reducePow]
  obtain ⟨f1, f2, f3, f4, f5, f6⟩ := header_fields t (d / 256 % 16) (d % 256) (k % 256) ht
    (Nat.mod_lt _ (by norm_num)) (Nat.mod_lt _ (by norm_num)) hk
  have hor : ∀ x y : Nat, y < 256 → x * 256 ||| y = x * 256 + y := by
    intro x y hy
    have := or_low 8 x y (by simpa using hy)
    rw [Nat.or_comm, Nat.shiftLeft_eq] at this
    simpa using this
  refine ⟨f1, ?_, f4, f5, f6⟩
  rw [f2, f3, hor _ _ (Nat.mod_lt _ (by norm_num))]
  omega

/-- C5: for every chunk counter `k` and every payload byte count `d < 4096` the
header word `h` is below `2 ^ 32` and decodes back to its inputs:
`(h & 0xF00) | ((h >> 16) & 0xFF) = d`, `(h >> 24) & 0xFF = k mod 256`, bits
12-15 are zero, and byte 0 is `0xAA` without `use_streamid` and `k mod 256` with
it. -/
theorem chunk_header_decodes (use_streamid : Bool) (k d : Nat) (hd : d < 4096) :
    chunkHeader use_streamid k d < 2 ^ 32
      ∧ (chunkHeader use_streamid k d &&& 0xF00)
          ||| ((chunkHeader use_streamid k d >>> 16) &&& 0xFF) = d
      ∧ (chunkHeader use_streamid k d >>> 24) &&& 0xFF = k % 256
      ∧ (chunkHeader use_streamid k d >>> 12) &&& 0xF = 0
      ∧ chunkHeader use_streamid k d &&& 0xFF = (if use_streamid then k % 256 else 0xAA) := by
  obtain ⟨f1, f2, f3, f4, f5⟩ := chunkHeader_fields use_streamid k d
  rw [Nat.mod_eq_of_lt hd] at f2
  exact ⟨f1, f2, f3, f4, f5⟩

theorem chunk_header_decodes_witness :
    456 < 4096
      ∧ (chunkHeader false 5 456 < 2 ^ 32
        ∧ (chunkHeader false 5 456 &&& 0xF00) ||| ((chunkHeader false 5 456 >>> 16) &&& 0xFF)
            = 456
        ∧ (chunkHeader false 5 456 >>> 24) &&& 0xFF = 5 % 256
        ∧ (chunkHeader false 5 456 >>> 12) &&& 0xF = 0
        ∧ chunkHeader false 5 456 &&& 0xFF = (if false then 5 % 256 else 0xAA)) :=
  ⟨by decide, chunk_header_decodes false 5 456 (by decide)⟩

/-- Payload word `i` of a recorded chunk lies in slot `hdr + 2 + i`. -/
theorem payload_at (a : FmArgs) (r : FmResult) (hp : FmPost a r) (c : ChunkRec)
    (hc : c ∈ r.chunks) (i : Nat) (hi : i < (c.chunksz - 8) / 4) :
    r.emudata[c.hdr + 2 + i]? = some (payloadWord a.pattern_id i) := by
  obtain ⟨pre, post, hem, hpre, _, _, _, _⟩ := chunk_layout a r hp c hc
  have hc8 : 8 ≤ c.chunksz := by omega
  have hds := dataSz_of_ge _ hc8
  rw [hem, ← hpre, List.append_assoc (pre ++ _), Nat.add_assoc,
    getElem?_mid pre _ _ (2 + i) (by rw [chunkWords_length, hds]; omega)]
  simp only [chunkWords, hds]
  rw [show 2 + i = i + 1 + 1 by omega, List.getElem?_cons_succ, List.getElem?_cons_succ]
  simp only [payloadWords]
  rw [List.getElem?_map, List.getElem?_range hi]
  rfl

/-- C6: in every run, payload word `i` of every chunk written (the slot
`hdr + 2 + i`, for `i < (chunksz - 8) / 4`) is `0xAA55AA55` for pattern 1,
`0xFFFFFFFF` for pattern 2, `0` for pattern 3, and for pattern 0 the word whose
bytes, from least to most significant, are `(4i) mod 256` .. `(4i + 3) mod 256`. -/
theorem payload_follows_pattern (a : FmArgs) (r : FmResult) (h : generateFm a = .ok r)
    (h32 : a.req_chunksize < 2 ^ 32) :
    ∀ c ∈ r.chunks, ∀ i, i < (c.chunksz - 8) / 4 →
      ∃ w, r.emudata[c.hdr + 2 + i]? = some w
        ∧ (a.pattern_id = 1 → w = 0xAA55AA55)
        ∧ (a.pattern_id = 2 → w = 0xFFFFFFFF)
        ∧ (a.pattern_id = 3 → w = 0x00000000)
        ∧ (a.pattern_id = 0 → ∀ j, j < 4 → (w >>> (8 * j)) &&& 0xFF = (4 * i + j) % 256) := by
  intro c hc i hi
  have hp := generateFm_spec a r h (csz_lt a h32)
  refine ⟨_, payload_at a r hp c hc i hi, ?_, ?_, ?_, ?_⟩
  · intro h1; simp [payloadWord, h1]
  · intro h2; simp [payloadWord, h2]
  · intro h3; simp [payloadWord, h3]
  · intro h0 j hj
    have e : payloadWord a.pattern_id i = counterWord (4 * i) := by
      simp [payloadWord, h0]
    rw [e]
    exact counterWord_byte (4 * i) j hj

theorem payload_follows_pattern_witness :
    generateFm plainArgs = .ok plainResult ∧ plainArgs.req_chunksize < 2 ^ 32
      ∧ ∀ c ∈ plainResult.chunks, ∀ i, i < (c.chunksz - 8) / 4 →
        ∃ w, plainResult.emudata[c.hdr + 2 + i]? = some w
          ∧ (plainArgs.pattern_id = 1 → w = 0xAA55AA55)
          ∧ (plainArgs.pattern_id = 2 → w = 0xFFFFFFFF)
          ∧ (plainArgs.pattern_id = 3 → w = 0x00000000)
          ∧ (plainArgs.pattern_id = 0 →
              ∀ j, j < 4 → (w >>> (8 * j)) &&& 0xFF = (4 * i + j) % 256) :=
  ⟨by decide!, by decide,
    payload_follows_pattern plainArgs plainResult (by decide!) (by decide)⟩

/-! ## Runs without random sizes, busy brackets and fault injection -/

theorem iterWords_plain (a : FmArgs) (hp : Plain a) (k chunksz : Nat) :
    iterWords a k chunksz
      = FM_KCHAR_SOP :: (chunkWords a k chunksz
          ++ eopWord a k chunksz :: List.replicate a.idle_chars FM_KCHAR_IDLE) := by
  obtain ⟨_, h2, h3, h4, _⟩ := hp
  simp [iterWords, h2, h3, h4]

theorem iterWords_length_plain (a : FmArgs) (hp : Plain a) (k : Nat)
    (h8 : 8 ≤ a.req_chunksize) :
    (iterWords a k (csz a k)).length = stride a := by
  have hc := csz_of_not_random a k hp.1
  rw [iterWords_plain a hp, hc, List.length_cons, List.length_append, chunkWords_length,
    dataSz_of_ge _ h8, List.length_cons, List.length_replicate, stride]
  omega

theorem blocks_length_plain (a : FmArgs) (hp : Plain a) (h8 : 8 ≤ a.req_chunksize)
    (k m : Nat) : (blocks a k m).length = m * stride a := by
  induction m generalizing k with
  | zero => simp [blocks]
  | succ m ih =>
    rw [blocks, List.length_append, iterWords_length_plain a hp k h8, ih, Nat.succ_mul]
    omega

theorem sopLen_plain (a : FmArgs) (hp : Plain a) (k : Nat) : sopLen a k = 1 := by
  simp [sopLen, hp.2.2.1]

theorem maxChunkCnt_eq (a : FmArgs) (h2 : 2 ≤ a.emudata.length)
    (hn : a.emudata.length < 2 ^ 32) (hs : stride a < 2 ^ 32) :
    fmDivisor a = stride a ∧ maxChunkCnt a = (a.emudata.length - 2) / stride a := by
  have hd : fmDivisor a = stride a := by
    unfold fmDivisor stride
    unfold stride at hs
    omega
  refine ⟨hd, ?_⟩
  unfold maxChunkCnt
  rw [hd]
  have e : (a.emudata.length + 2 ^ 64 - 2) % 2 ^ 64 = a.emudata.length - 2 := by omega
  rw [e]
  apply Nat.mod_eq_of_lt
  exact Nat.lt_of_le_of_lt (Nat.div_le_self _ _) (by omega)

/-- In a plain run every chunk counted by `max_chunkcnt` stays inside the
buffer. -/
theorem fits_plain (a : FmArgs) (hp : Plain a) (h8 : 8 ≤ a.req_chunksize)
    (h2 : 2 ≤ a.emudata.length) (hn : a.emudata.length < 2 ^ 32) (hs : stride a < 2 ^ 32) :
    Fits a a.emudata.length (maxChunkCnt a) 2 0 := by
  intro j hj
  obtain ⟨_, hmax⟩ := maxChunkCnt_eq a h2 hn hs
  rw [hmax] at hj
  simp only [Nat.zero_add] at hj ⊢
  have hdiv : (a.emudata.length - 2) / stride a * stride a ≤ a.emudata.length - 2 :=
    Nat.div_mul_le_self _ _
  have hmul : (j + 1) * stride a ≤ (a.emudata.length - 2) / stride a * stride a :=
    Nat.mul_le_mul_right _ hj
  rw [Nat.succ_mul] at hmul
  rw [blocks_length_plain a hp h8, blocks_length_plain a hp h8, sopLen_plain a hp,
    csz_of_not_random a j hp.1, dataSz_of_ge _ h8, Nat.succ_mul]
  have hst : stride a = a.req_chunksize / 4 + 2 + a.idle_chars := rfl
  constructor <;> omega

/-- A plain run returns; it writes all `max_chunkcnt = (emusize - 2) / S` chunks
and returns `true` whenever `idle_chars ≥ 1` or `S` does not divide
`emusize - 2`. -/
theorem plain_run (a : FmArgs) (hp : Plain a) (h8 : 8 ≤ a.req_chunksize)
    (h32 : a.req_chunksize < 2 ^ 32)
    (h2 : 2 ≤ a.emudata.length) (hn : a.emudata.length < 2 ^ 32) (hs : stride a < 2 ^ 32)
    (hfit : 1 ≤ a.idle_chars ∨ (a.emudata.length - 2) % stride a ≠ 0) :
    ∃ r, generateFm a = .ok r ∧ FmPost a r ∧ r.success = true
      ∧ r.chunkcntr = (a.emudata.length - 2) / stride a := by
  obtain ⟨hd, hmax⟩ := maxChunkCnt_eq a h2 hn hs
  have hst : stride a = a.req_chunksize / 4 + 2 + a.idle_chars := rfl
  obtain ⟨r, hr⟩ := generateFm_ok a (csz_lt a h32) h2 hn (by rw [hd]; omega)
    (fits_plain a hp h8 h2 hn hs)
  have hpost := generateFm_spec a r hr (csz_lt a h32)
  obtain ⟨_, _, p3, _, _, p6, p7, p8⟩ := hpost
  have hcnt : r.chunkcntr = maxChunkCnt a := by
    by_contra hne
    have hlt : r.chunkcntr < maxChunkCnt a := by omega
    have hdisj := p8 hlt
    rw [blocks_length_plain a hp h8, csz_of_not_random a _ hp.1] at hdisj
    rw [hmax] at hlt
    have hdiv : (a.emudata.length - 2) / stride a * stride a ≤ a.emudata.length - 2 :=
      Nat.div_mul_le_self _ _
    have hmul : (r.chunkcntr + 1) * stride a
        ≤ (a.emudata.length - 2) / stride a * stride a := Nat.mul_le_mul_right _ hlt
    rw [Nat.succ_mul] at hmul
    have hmod := Nat.div_add_mod (a.emudata.length - 2) (stride a)
    rw [Nat.mul_comm] at hmod
    rcases hdisj with hd1 | ⟨hd1, hd2⟩
    · omega
    · have hw : (2 + r.chunkcntr * stride a + (1 + a.req_chunksize / 4 + 1)) % 2 ^ 32
          = 2 + r.chunkcntr * stride a + (1 + a.req_chunksize / 4 + 1) :=
        Nat.mod_eq_of_lt (by omega)
      rw [hw] at hd2
      rcases hfit with hf | hf
      · omega
      · omega
  exact ⟨r, hr, generateFm_spec a r hr (csz_lt a h32), p7.2 hcnt, by rw [hcnt, hmax]⟩

/-- In a plain run the block of chunk `k` starts at slot `2 + k * S`. -/
theorem plain_chunk_at (a : FmArgs) (r : FmResult) (hp : Plain a) (h8 : 8 ≤ a.req_chunksize)
    (hpost : FmPost a r) (k : Nat) (hk : k < r.chunkcntr) :
    ∃ pre post, r.emudata = pre ++ iterWords a k a.req_chunksize ++ post
      ∧ pre.length = 2 + k * stride a := by
  obtain ⟨_, _, _, hem, _⟩ := hpost
  obtain ⟨post1, hb⟩ := blocks_split a 0 _ k hk
  simp only [Nat.zero_add] at hb
  rw [csz_of_not_random a k hp.1] at hb
  refine ⟨FM_KCHAR_IDLE :: FM_KCHAR_IDLE :: blocks a 0 k,
    post1 ++ List.replicate
      (a.emudata.length - (2 + (blocks a 0 r.chunkcntr).length)) FM_KCHAR_IDLE, ?_, ?_⟩
  · rw [hem, hb]
    simp only [List.append_assoc, List.cons_append]
  · simp only [List.length_cons, blocks_length_plain a hp h8]
    omega

/-- Indexing into the block of one chunk of a plain run. -/
theorem plain_words_get (sop hdr width eop idle : Nat) (pw : List Nat) (n : Nat) :
    (sop :: hdr :: width :: (pw ++ eop :: List.replicate n idle))[0]? = some sop
      ∧ (sop :: hdr :: width :: (pw ++ eop :: List.replicate n idle))[1]? = some hdr
      ∧ (sop :: hdr :: width :: (pw ++ eop :: List.replicate n idle))[2]? = some width
      ∧ (∀ i, i < pw.length →
          (sop :: hdr :: width :: (pw ++ eop :: List.replicate n idle))[3 + i]? = pw[i]?)
      ∧ (sop :: hdr :: width :: (pw ++ eop :: List.replicate n idle))[3 + pw.length]?
          = some eop
      ∧ (∀ j, j < n →
          (sop :: hdr :: width :: (pw ++ eop :: List.replicate n idle))[3 + pw.length + 1 + j]?
            = some idle)
      ∧ (sop :: hdr :: width :: (pw ++ eop :: List.replicate n idle)).length
          = 3 + pw.length + 1 + n := by
  refine ⟨by simp, by simp, by simp, ?_, ?_, ?_, ?_⟩
  · intro i hi
    rw [show 3 + i = i + 1 + 1 + 1 by omega, List.getElem?_cons_succ, List.getElem?_cons_succ,
      List.getElem?_cons_succ, List.getElem?_append_left hi]
  · rw [show 3 + pw.length = pw.length + 1 + 1 + 1 by omega, List.getElem?_cons_succ,
      List.getElem?_cons_succ, List.getElem?_cons_succ,
      List.getElem?_append_right (Nat.le_refl _), Nat.sub_self]
    simp
  · intro j hj
    rw [show 3 + pw.length + 1 + j = (pw.length + (j + 1)) + 1 + 1 + 1 by omega,
      List.getElem?_cons_succ, List.getElem?_cons_succ, List.getElem?_cons_succ,
      List.getElem?_append_right (by omega), Nat.add_sub_cancel_left, List.getElem?_cons_succ,
      List.getElem?_replicate]
    simp [hj]
  · simp only [List.length_cons, List.length_append, List.length_replicate]
    omega

/-! ## The layout of a plain stream -/

/-- In a plain run the `S` slots from `2 + k * S` on hold the block of chunk `k`:
SOP, header word, width word, payload words, EOP word with the checksum of the
chunk, and `idle_chars` IDLE words. -/
theorem plain_block (a : FmArgs) (r : FmResult) (hp : Plain a) (h8 : 8 ≤ a.req_chunksize)
    (hpost : FmPost a r) (k : Nat) (hk : k < r.chunkcntr) (i : Nat) (hi : i < stride a) :
    r.emudata[2 + k * stride a + i]?
      = (FM_KCHAR_SOP :: chunkHeader a.use_streamid k (a.req_chunksize - 8) :: 0x10AABB00
          :: (payloadWords a.pattern_id (a.req_chunksize / 4 - 2)
              ++ (FM_KCHAR_EOP |||
                    (crc20 (chunkHeader a.use_streamid k (a.req_chunksize - 8) :: 0x10AABB00
                      :: payloadWords a.pattern_id (a.req_chunksize / 4 - 2)) a.crc_new <<< 8))
                  :: List.replicate a.idle_chars FM_KCHAR_IDLE))[i]? := by
  have hn : (a.req_chunksize - 8) / 4 = a.req_chunksize / 4 - 2 := by omega
  obtain ⟨pre, post, hsplit, hpre⟩ := plain_chunk_at a r hp h8 hpost k hk
  have hcrc : eopWord a k a.req_chunksize
      = FM_KCHAR_EOP ||| (crc20 (chunkHeader a.use_streamid k (a.req_chunksize - 8)
          :: 0x10AABB00 :: payloadWords a.pattern_id (a.req_chunksize / 4 - 2))
            a.crc_new <<< 8) := by
    unfold eopWord
    rw [storedCrc_of_no_err a _ _ (by simp [hp.2.2.2.2]), crcInput_eq a _ _ h8]
    simp only [chunkWords, dataSz_of_ge _ h8, hn]
  have hwords : iterWords a k a.req_chunksize
      = FM_KCHAR_SOP :: chunkHeader a.use_streamid k (a.req_chunksize - 8) :: 0x10AABB00
          :: (payloadWords a.pattern_id (a.req_chunksize / 4 - 2)
              ++ (FM_KCHAR_EOP |||
                    (crc20 (chunkHeader a.use_streamid k (a.req_chunksize - 8) :: 0x10AABB00
                      :: payloadWords a.pattern_id (a.req_chunksize / 4 - 2)) a.crc_new <<< 8))
                  :: List.replicate a.idle_chars FM_KCHAR_IDLE) := by
    rw [iterWords_plain a hp, hcrc]
    simp only [chunkWords, dataSz_of_ge _ h8, hn, List.cons_append]
  have hlen : (iterWords a k a.req_chunksize).length = stride a := by
    have := iterWords_length_plain a hp k h8
    rw [csz_of_not_random a k hp.1] at this
    exact this
  rw [← hwords, hsplit, ← hpre]
  exact getElem?_mid pre _ post i (by rw [hlen]; exact hi)

/-- C4: in a run with `random_sz`, `add_busy` and all fault flags off and
`req_chunksize ≥ 8`, with `W = req_chunksize / 4` and `S = W + 2 + idle_chars`:
slots 0 and 1 hold IDLE; for every chunk index `k` written, slot `p = 2 + k * S`
holds SOP, slot `p + 1` the header word, slot `p + 2` the width word
`0x10AABB00`, slots `p + 3 .. p + W` the `W - 2` payload words, slot `p + W + 1`
the EOP word with the checksum of these `W` words, and the next `idle_chars`
slots IDLE; every slot after the last chunk holds IDLE. Such a run returns
whenever the buffer has between 2 and `2 ^ 32` slots and `S < 2 ^ 32`. -/
theorem plain_stream_layout (a : FmArgs) (hp : Plain a) (h8 : 8 ≤ a.req_chunksize)
    (h32 : a.req_chunksize < 2 ^ 32) :
    (2 ≤ a.emudata.length → a.emudata.length < 2 ^ 32 → stride a < 2 ^ 32 →
        ∃ r, generateFm a = .ok r)
    ∧ ∀ r, generateFm a = .ok r →
      r.emudata.length = a.emudata.length
      ∧ r.emudata[0]? = some FM_KCHAR_IDLE ∧ r.emudata[1]? = some FM_KCHAR_IDLE
      ∧ (∀ k, k < r.chunkcntr →
          r.emudata[2 + k * stride a]? = some FM_KCHAR_SOP
          ∧ r.emudata[2 + k * stride a + 1]?
              = some (chunkHeader a.use_streamid k (a.req_chunksize - 8))
          ∧ r.emudata[2 + k * stride a + 2]? = some 0x10AABB00
          ∧ (∀ i, i < a.req_chunksize / 4 - 2 →
              r.emudata[2 + k * stride a + 3 + i]? = some (payloadWord a.pattern_id i))
          ∧ r.emudata[2 + k * stride a + a.req_chunksize / 4 + 1]?
              = some (FM_KCHAR_EOP |||
                  (crc20 (chunkHeader a.use_streamid k (a.req_chunksize - 8) :: 0x10AABB00
                      :: payloadWords a.pattern_id (a.req_chunksize / 4 - 2)) a.crc_new <<< 8))
          ∧ (∀ j, j < a.idle_chars →
              r.emudata[2 + k * stride a + a.req_chunksize / 4 + 2 + j]? = some FM_KCHAR_IDLE))
      ∧ (∀ j, 2 + r.chunkcntr * stride a ≤ j → j < a.emudata.length →
          r.emudata[j]? = some FM_KCHAR_IDLE) := by
  have hS : stride a = a.req_chunksize / 4 + 2 + a.idle_chars := rfl
  refine ⟨fun h2 hn hs => generateFm_ok a (csz_lt a h32) h2 hn
    (by rw [(maxChunkCnt_eq a h2 hn hs).1]; omega) (fits_plain a hp h8 h2 hn hs), ?_⟩
  intro r h
  have hpost := generateFm_spec a r h (csz_lt a h32)
  have hpost' := hpost
  obtain ⟨_, _, hfit, hem, _⟩ := hpost'
  have hblen := blocks_length_plain a hp h8 0 r.chunkcntr
  refine ⟨?_, by rw [hem, List.getElem?_cons_zero],
    by rw [hem, List.getElem?_cons_succ, List.getElem?_cons_zero], ?_, ?_⟩
  · rw [hem]
    simp only [List.length_cons, List.length_append, List.length_replicate]
    omega
  · intro k hk
    have hat := plain_block a r hp h8 hpost k hk
    obtain ⟨g0, g1, g2, g3, g4, g5, glen⟩ := plain_words_get FM_KCHAR_SOP
      (chunkHeader a.use_streamid k (a.req_chunksize - 8)) 0x10AABB00
      (FM_KCHAR_EOP ||| (crc20 (chunkHeader a.use_streamid k (a.req_chunksize - 8)
            :: 0x10AABB00 :: payloadWords a.pattern_id (a.req_chunksize / 4 - 2))
              a.crc_new <<< 8))
      FM_KCHAR_IDLE (payloadWords a.pattern_id (a.req_chunksize / 4 - 2)) a.idle_chars
    rw [payloadWords_length] at g3 g4 g5 glen
    refine ⟨?_, ?_, ?_, ?_, ?_, ?_⟩
    · rw [← g0, ← hat 0 (by omega)]; rfl
    · rw [← g1, ← hat 1 (by omega)]
    · rw [← g2, ← hat 2 (by omega)]
    · intro i hi
      rw [Nat.add_assoc, hat (3 + i) (by omega), g3 i hi]
      simp only [payloadWords]
      rw [List.getElem?_map, List.getElem?_range hi]
      rfl
    · rw [← g4, ← hat (3 + (a.req_chunksize / 4 - 2)) (by omega)]
      congr 1
      omega
    · intro j hj
      rw [← g5 j hj, ← hat (3 + (a.req_chunksize / 4 - 2) + 1 + j) (by omega)]
      congr 1
      omega
  · intro j hj1 hj2
    rw [hem, hblen] at *
    obtain ⟨t, rfl⟩ : ∃ t, j = (r.chunkcntr * stride a + t) + 1 + 1 :=
      ⟨j - (2 + r.chunkcntr * stride a), by omega⟩
    rw [List.getElem?_cons_succ, List.getElem?_cons_succ,
      List.getElem?_append_right (by rw [blocks_length_plain a hp h8]; omega),
      blocks_length_plain a hp h8, Nat.add_sub_cancel_left, List.getElem?_replicate]
    rw [if_pos (by omega)]

theorem plain_stream_layout_witness :
    Plain plainArgs ∧ 8 ≤ plainArgs.req_chunksize ∧ plainArgs.req_chunksize < 2 ^ 32
      ∧ ((2 ≤ plainArgs.emudata.length → plainArgs.emudata.length < 2 ^ 32 →
            stride plainArgs < 2 ^ 32 → ∃ r, generateFm plainArgs = .ok r)
        ∧ ∀ r, generateFm plainArgs = .ok r →
          r.emudata.length = plainArgs.emudata.length
          ∧ r.emudata[0]? = some FM_KCHAR_IDLE ∧ r.emudata[1]? = some FM_KCHAR_IDLE
          ∧ (∀ k, k < r.chunkcntr →
              r.emudata[2 + k * stride plainArgs]? = some FM_KCHAR_SOP
              ∧ r.emudata[2 + k * stride plainArgs + 1]?
                  = some (chunkHeader plainArgs.use_streamid k (plainArgs.req_chunksize - 8))
              ∧ r.emudata[2 + k * stride plainArgs + 2]? = some 0x10AABB00
              ∧ (∀ i, i < plainArgs.req_chunksize / 4 - 2 →
                  r.emudata[2 + k * stride plainArgs + 3 + i]?
                    = some (payloadWord plainArgs.pattern_id i))
              ∧ r.emudata[2 + k * stride plainArgs + plainArgs.req_chunksize / 4 + 1]?
                  = some (FM_KCHAR_EOP |||
                      (crc20 (chunkHeader plainArgs.use_streamid k
                            (plainArgs.req_chunksize - 8)
                          :: 0x10AABB00
                          :: payloadWords plainArgs.pattern_id
                              (plainArgs.req_chunksize / 4 - 2))
                        plainArgs.crc_new <<< 8))
              ∧ (∀ j, j < plainArgs.idle_chars →
                  r.emudata[2 + k * stride plainArgs + plainArgs.req_chunksize / 4 + 2 + j]?
                    = some FM_KCHAR_IDLE))
          ∧ (∀ j, 2 + r.chunkcntr * stride plainArgs ≤ j →
              j < plainArgs.emudata.length → r.emudata[j]? = some FM_KCHAR_IDLE)) :=
  ⟨⟨rfl, rfl, rfl, rfl, rfl⟩, by decide, by decide,
    plain_stream_layout plainArgs ⟨rfl, rfl, rfl, rfl, rfl⟩ (by decide) (by decide)⟩

/-! ## Counting the control words of a plain stream -/

theorem chunkHeader_lt (use_streamid : Bool) (k d : Nat) :
    chunkHeader use_streamid k d < 2 ^ 32 := by
  have ht : (if use_streamid then k % 256 else 0xAA) < 256 := by
    split
    · exact Nat.mod_lt _ (by norm_num)
    · norm_num
  rw [chunkHeader_sum]
  generalize (if use_streamid then k % 256 else 0xAA) = t at ht ⊢
  have := (header_fields t (d / 256 % 16) (d % 256) (k % 256) ht
    (Nat.mod_lt _ (by norm_num)) (Nat.mod_lt _ (by norm_num)) (Nat.mod_lt _ (by norm_num))).1
  simp only [Nat.reducePow]
  exact this

theorem payloadWord_lt (pattern_id i : Nat) : payloadWord pattern_id i < 2 ^ 32 := by
  unfold payloadWord
  split
  · norm_num
  · split
    · norm_num
    · split
      · norm_num
      · rw [counterWord_sum]
        have h0 : 4 * i % 256 < 256 := Nat.mod_lt _ (by norm_num)
        have h1 : (4 * i + 1) % 256 < 256 := Nat.mod_lt _ (by norm_num)
        have h2 : (4 * i + 2) % 256 < 256 := Nat.mod_lt _ (by norm_num)
        have h3 : (4 * i + 3) % 256 < 256 := Nat.mod_lt _ (by norm_num)
        omega

theorem chunkWords_lt (a : FmArgs) (k chunksz w : Nat) (hw : w ∈ chunkWords a k chunksz) :
    w < 2 ^ 32 := by
  simp only [chunkWords, payloadWords, List.mem_cons, List.mem_map, List.mem_range] at hw
  rcases hw with h | h | ⟨i, _, h⟩
  · rw [h]; exact chunkHeader_lt _ _ _
  · rw [h]; norm_num
  · rw [← h]; exact payloadWord_lt _ _

theorem eopWord_eq_sum (a : FmArgs) (k chunksz : Nat) :
    eopWord a k chunksz = 2 ^ 32 + 256 * storedCrc a k chunksz + 0xDC := by
  have hle := storedCrc_le a k chunksz
  unfold eopWord
  rw [eop_or _ (by omega)]

theorem isEop_of_lt (w : Nat) (h : w < 2 ^ 32) : isEop w = false := by
  have e : w >>> 32 = 0 := by
    rw [Nat.shiftRight_eq_div_pow]
    exact Nat.div_eq_of_lt h
  simp [isEop, e]

theorem isEop_eopWord (a : FmArgs) (k chunksz : Nat) : isEop (eopWord a k chunksz) = true := by
  have hle := storedCrc_le a k chunksz
  have hs := eopWord_eq_sum a k chunksz
  have e1 : eopWord a k chunksz >>> 32 = 1 := by
    rw [Nat.shiftRight_eq_div_pow, hs]
    omega
  have e2 : eopWord a k chunksz &&& 0xFF = 0xDC := (eopWord_fields a k chunksz).1
  simp [isEop, e1, e2]

/-- One block of a plain run holds one SOP word and one EOP word. -/
theorem iterWords_counts (a : FmArgs) (hp : Plain a) (k chunksz : Nat) :
    (iterWords a k chunksz).count FM_KCHAR_SOP = 1
      ∧ (iterWords a k chunksz).countP isEop = 1 := by
  have hs := eopWord_eq_sum a k chunksz
  have hc1 : (chunkWords a k chunksz).count FM_KCHAR_SOP = 0 := by
    rw [List.count_eq_zero]
    intro hm
    have := chunkWords_lt a k chunksz _ hm
    exact absurd this (by decide)
  have hc2 : (chunkWords a k chunksz).countP isEop = 0 := by
    rw [List.countP_eq_zero]
    intro w hw
    rw [isEop_of_lt w (chunkWords_lt a k chunksz w hw)]
    simp
  have hi1 : (List.replicate a.idle_chars FM_KCHAR_IDLE).count FM_KCHAR_SOP = 0 := by
    rw [List.count_eq_zero]
    intro hm
    have := List.eq_of_mem_replicate hm
    exact absurd this (by decide)
  have hi2 : (List.replicate a.idle_chars FM_KCHAR_IDLE).countP isEop = 0 := by
    rw [List.countP_eq_zero]
    intro w hw
    rw [List.eq_of_mem_replicate hw]
    decide
  have he1 : eopWord a k chunksz ≠ FM_KCHAR_SOP := by
    rw [hs]
    have : FM_KCHAR_SOP = 2 ^ 32 + 0x3C := by decide
    rw [this]
    omega
  have hsop : isEop FM_KCHAR_SOP = false := by decide
  rw [iterWords_plain a hp]
  constructor
  · rw [List.count_cons_self, List.count_append, List.count_cons_of_ne he1.symm, hc1, hi1]
  · rw [List.countP_cons_of_neg _ _ (by rw [hsop]; simp), List.countP_append,
      List.countP_cons_of_pos _ _ (isEop_eopWord a k chunksz), hc2, hi2]

theorem blocks_counts (a : FmArgs) (hp : Plain a) (k m : Nat) :
    (blocks a k m).count FM_KCHAR_SOP = m ∧ (blocks a k m).countP isEop = m := by
  induction m generalizing k with
  | zero => simp [blocks]
  | succ m ih =>
    obtain ⟨c1, c2⟩ := iterWords_counts a hp k (csz a k)
    obtain ⟨i1, i2⟩ := ih (k + 1)
    rw [blocks, List.count_append, List.countP_append, c1, c2, i1, i2]
    constructor <;> omega

/-- A plain stream holds as many SOP words, and as many EOP words, as chunks
were written. -/
theorem plain_counts (a : FmArgs) (r : FmResult) (hp : Plain a) (hpost : FmPost a r) :
    r.emudata.count FM_KCHAR_SOP = r.chunkcntr ∧ r.emudata.countP isEop = r.chunkcntr := by
  obtain ⟨_, _, _, hem, _⟩ := hpost
  obtain ⟨b1, b2⟩ := blocks_counts a hp 0 r.chunkcntr
  have hne : FM_KCHAR_IDLE ≠ FM_KCHAR_SOP := by decide
  have hidle : isEop FM_KCHAR_IDLE = false := by decide
  have hi1 : ∀ n, (List.replicate n FM_KCHAR_IDLE).count FM_KCHAR_SOP = 0 := by
    intro n
    rw [List.count_eq_zero]
    intro hm
    exact absurd (List.eq_of_mem_replicate hm) (by decide)
  have hi2 : ∀ n, (List.replicate n FM_KCHAR_IDLE).countP isEop = 0 := by
    intro n
    rw [List.countP_eq_zero]
    intro w hw
    rw [List.eq_of_mem_replicate hw]
    decide
  rw [hem]
  constructor
  · rw [List.count_cons_of_ne hne.symm, List.count_cons_of_ne hne.symm, List.count_append, b1, hi1]
    rfl
  · rw [List.countP_cons_of_neg _ _ (by rw [hidle]; simp),
      List.countP_cons_of_neg _ _ (by rw [hidle]; simp), List.countP_append, b2, hi2]
    rfl

/-! ## The default scenario -/

theorem default_plain (emudata : List Nat) : Plain (defaultArgs emudata) :=
  ⟨rfl, rfl, rfl, rfl, rfl⟩

/-- The default scenario on a buffer of 8192 slots returns `true` after writing
68 chunks. -/
theorem default_run (emudata : List Nat) (hlen : emudata.length = 8192) :
    ∃ r, generateFm (defaultArgs emudata) = .ok r ∧ FmPost (defaultArgs emudata) r
      ∧ r.success = true ∧ r.chunkcntr = 68 := by
  have hst : stride (defaultArgs emudata) = 119 := by
    show 464 / 4 + 2 + 1 = 119
    norm_num
  have hl : (defaultArgs emudata).emudata.length = 8192 := hlen
  have h8 : 8 ≤ (defaultArgs emudata).req_chunksize := by
    show 8 ≤ 464
    norm_num
  have h32 : (defaultArgs emudata).req_chunksize < 2 ^ 32 := by
    show 464 < 2 ^ 32
    norm_num
  obtain ⟨r, hr, hpost, hs, hc⟩ := plain_run (defaultArgs emudata) (default_plain emudata)
    h8 h32 (by rw [hl]; norm_num) (by rw [hl]; norm_num) (by rw [hst]; norm_num)
    (Or.inl (Nat.le_refl 1))
  refine ⟨r, hr, hpost, hs, ?_⟩
  rw [hc, hl, hst]

/-- C7: for the default scenario (`emusize = 8192`, `req_chunksize = 464`,
`idle_chars = 1`, `pattern_id = 0`, `crc_new = true`, all other flags off)
`generateFm` returns `true` and the output holds exactly
`(8192 - 2) / (1 + 464 / 4 + 1 + 1) = 68` chunks: 68 SOP words, 68 EOP words, and
the header of the `k`-th chunk carries the sequence byte `k`. -/
theorem default_scenario_68_chunks (emudata : List Nat) (hlen : emudata.length = 8192) :
    ∃ r, generateFm (defaultArgs emudata) = .ok r ∧ r.success = true
      ∧ r.chunkcntr = (8192 - 2) / (1 + 464 / 4 + 1 + 1) ∧ r.chunkcntr = 68
      ∧ r.chunks.length = 68
      ∧ r.emudata.count FM_KCHAR_SOP = 68 ∧ r.emudata.countP isEop = 68
      ∧ ∀ k, k < 68 → ∃ hd, r.emudata[2 + k * 119 + 1]? = some hd
          ∧ (hd >>> 24) &&& 0xFF = k := by
  obtain ⟨r, hr, hpost, hs, hc⟩ := default_run emudata hlen
  obtain ⟨c1, c2⟩ := plain_counts (defaultArgs emudata) r (default_plain emudata) hpost
  have hch : r.chunks.length = 68 := by
    rw [hpost.2.2.2.2.1, recs_length, hc]
  refine ⟨r, hr, hs, by rw [hc], hc, hch, by rw [c1, hc], by rw [c2, hc], ?_⟩
  intro k hk
  have hst : stride (defaultArgs emudata) = 119 := by
    show 464 / 4 + 2 + 1 = 119
    norm_num
  have hblk := plain_block (defaultArgs emudata) r (default_plain emudata)
    (by show 8 ≤ 464; norm_num) hpost k (by rw [hc]; exact hk) 1 (by rw [hst]; norm_num)
  rw [hst] at hblk
  refine ⟨_, hblk.trans (List.getElem?_cons_succ.trans List.getElem?_cons_zero), ?_⟩
  rw [(chunkHeader_fields _ k _).2.2.1]
  exact Nat.mod_eq_of_lt (by omega)

theorem default_scenario_68_chunks_witness :
    (List.replicate 8192 0).length = 8192
      ∧ ∃ r, generateFm (defaultArgs (List.replicate 8192 0)) = .ok r ∧ r.success = true
        ∧ r.chunkcntr = (8192 - 2) / (1 + 464 / 4 + 1 + 1) ∧ r.chunkcntr = 68
        ∧ r.chunks.length = 68
        ∧ r.emudata.count FM_KCHAR_SOP = 68 ∧ r.emudata.countP isEop = 68
        ∧ ∀ k, k < 68 → ∃ hd, r.emudata[2 + k * 119 + 1]? = some hd
            ∧ (hd >>> 24) &&& 0xFF = k :=
  ⟨List.length_replicate _ _,
    default_scenario_68_chunks (List.replicate 8192 0) (List.length_replicate _ _)⟩

/-- With the incrementing pattern, payload byte `t` of a recorded chunk is
`t mod 256`. -/
theorem payloadByte_counter (a : FmArgs) (r : FmResult) (hp : FmPost a r)
    (h0 : a.pattern_id = 0) (c : ChunkRec) (hc : c ∈ r.chunks) (t : Nat)
    (ht : t / 4 < (c.chunksz - 8) / 4) :
    payloadByte r.emudata c t = t % 256 := by
  have hget := payload_at a r hp c hc (t / 4) ht
  have hw : payloadWord a.pattern_id (t / 4) = counterWord (4 * (t / 4)) := by
    simp [payloadWord, h0]
  unfold payloadByte
  rw [List.getD_eq_getElem?_getD, hget, Option.getD_some, hw,
    counterWord_byte _ _ (Nat.mod_lt _ (by norm_num))]
  congr 1
  omega

theorem default_csz (emudata : List Nat) (k : Nat) : csz (defaultArgs emudata) k = 464 :=
  csz_of_not_random _ k rfl

/-- C8 fails as stated: in the stream of the default scenario the payload of
the first chunk has 456 bytes, its byte 255 is 255 and its byte 256 is 0, so
byte 256 is not greater than the byte before it. -/
theorem default_payload_wraps_at_256 :
    ∃ r, generateFm (defaultArgs (List.replicate 8192 0)) = .ok r
      ∧ ∃ c ∈ r.chunks, c.chunksz - 8 = 456
        ∧ payloadByte r.emudata c 255 = 255 ∧ payloadByte r.emudata c 256 = 0
        ∧ ¬ (payloadByte r.emudata c 255 < payloadByte r.emudata c 256) := by
  obtain ⟨r, hr, hpost, _, hc⟩ :=
    default_run (List.replicate 8192 0) (List.length_replicate _ _)
  have hch := hpost.2.2.2.2.1
  rw [hc] at hch
  have hmem : ChunkRec.mk 0 (2 + sopLen (defaultArgs (List.replicate 8192 0)) 0)
      (2 + sopLen (defaultArgs (List.replicate 8192 0)) 0 + 2
        + dataSz (csz (defaultArgs (List.replicate 8192 0)) 0) / 4)
      (csz (defaultArgs (List.replicate 8192 0)) 0) ∈ r.chunks := by
    rw [hch]
    exact List.mem_cons_self _ _
  rw [default_csz] at hmem
  have h255 := payloadByte_counter _ r hpost rfl _ hmem 255 (by norm_num)
  have h256 := payloadByte_counter _ r hpost rfl _ hmem 256 (by norm_num)
  refine ⟨r, hr, _, hmem, rfl, h255, h256, ?_⟩
  rw [h255, h256]
  norm_num

/-- C8, as the code has it: in the stream of the default scenario every chunk
carries 456 payload bytes and payload byte `t` is `t mod 256`; so every payload
byte is strictly greater than the byte before it, except where the counter
wraps from 255 to 0. -/
theorem default_payload_counts_mod_256 (emudata : List Nat) (hlen : emudata.length = 8192) :
    ∃ r, generateFm (defaultArgs emudata) = .ok r ∧ r.chunks.length = 68
      ∧ ∀ c ∈ r.chunks, c.chunksz - 8 = 456
        ∧ ∀ t, t < 456 →
            payloadByte r.emudata c t = t % 256
            ∧ (t + 1 < 456 → (t + 1) % 256 ≠ 0 →
                payloadByte r.emudata c t < payloadByte r.emudata c (t + 1)) := by
  obtain ⟨r, hr, hpost, _, hc⟩ := default_run emudata hlen
  refine ⟨r, hr, by rw [hpost.2.2.2.2.1, recs_length, hc], ?_⟩
  intro c hcm
  obtain ⟨_, _, _, _, _, hsz, _, _⟩ := chunk_layout _ r hpost c hcm
  rw [default_csz] at hsz
  refine ⟨by rw [hsz], ?_⟩
  intro t ht
  have e1 := payloadByte_counter _ r hpost rfl c hcm t (by rw [hsz]; omega)
  refine ⟨e1, ?_⟩
  intro ht1 hne
  have e2 := payloadByte_counter _ r hpost rfl c hcm (t + 1) (by rw [hsz]; omega)
  rw [e1, e2]
  omega

theorem default_payload_counts_mod_256_witness :
    (List.replicate 8192 0).length = 8192
      ∧ ∃ r, generateFm (defaultArgs (List.replicate 8192 0)) = .ok r ∧ r.chunks.length = 68
        ∧ ∀ c ∈ r.chunks, c.chunksz - 8 = 456
          ∧ ∀ t, t < 456 →
              payloadByte r.emudata c t = t % 256
              ∧ (t + 1 < 456 → (t + 1) % 256 ≠ 0 →
                  payloadByte r.emudata c t < payloadByte r.emudata c (t + 1)) :=
  ⟨List.length_replicate _ _,
    default_payload_counts_mod_256 (List.replicate 8192 0) (List.length_replicate _ _)⟩

/-! ## The card wrapper: `bytes_available` -/

theorem mul_lt_of_lt_div (r b s : Nat) (h : r < s / b) : r * b + b ≤ s ∧ 0 < b := by
  have hb : 0 < b := by
    rcases Nat.eq_zero_or_pos b with h0 | h0
    · subst h0; simp at h
    · exact h0
  have h1 : (r + 1) * b ≤ s / b * b := Nat.mul_le_mul_right b h
  have h2 : s / b * b ≤ s := Nat.div_mul_le_self s b
  have h3 : (r + 1) * b = r * b + b := by ring
  omega

theorem avail_nonneg (cur phys x size : Nat) (hs63 : size ≤ 2 ^ 63)
    (hcur : cur < 2 ^ 64) (hhi : cur ≤ phys + size) (hx : x < size) (hd : phys + x ≤ cur) :
    add64 (sub64 cur (add64 x phys)) size % size = (cur - phys - x) % size := by
  unfold add64 sub64
  have h1 : (x + phys) % 2 ^ 64 = x + phys := Nat.mod_eq_of_lt (by omega)
  rw [h1]
  have h2 : (cur + 2 ^ 64 - (x + phys)) % 2 ^ 64 = cur - phys - x := by omega
  rw [h2]
  by_cases h3 : cur - phys - x + size < 2 ^ 64
  · rw [Nat.mod_eq_of_lt h3, Nat.add_mod_right]
  · have h4 : cur - phys - x = size := by omega
    have h5 : size = 2 ^ 63 := by omega
    have h6 : (cur - phys - x + size) % 2 ^ 64 = 0 := by omega
    rw [h6, h4]; simp

theorem avail_neg (cur phys x size : Nat) (hsize : size < 2 ^ 64)
    (hcur : cur < 2 ^ 64) (hlo : phys ≤ cur) (hx : x < size) (hd : cur < phys + x) :
    add64 (sub64 cur (add64 x phys)) size % size = cur + size - phys - x := by
  unfold add64 sub64
  have h2 : ((cur + 2 ^ 64 - (x + phys) % 2 ^ 64) % 2 ^ 64 + size) % 2 ^ 64
      = cur + size - phys - x := by omega
  rw [h2]
  exact Nat.mod_eq_of_lt (by omega)

/-- The value of `bytes_available` for a write pointer in `[base, base + total]`
and a read index below the block count, when `total ≤ 2 ^ 63`. -/
theorem bytes_available_eq (c : Card) (hpos : 0 < c.dma_memory_size)
    (hs63 : c.dma_memory_size ≤ 2 ^ 63)
    (hcur : c.current_addr < 2 ^ 64) (hlo : c.phys_addr ≤ c.current_addr)
    (hhi : c.current_addr ≤ c.phys_addr + c.dma_memory_size)
    (hri : c.read_index < c.dma_memory_size / c.block_size) :
    ∃ v, bytes_available c = .ok v ∧ v < c.dma_memory_size ∧
      (v : Int) = ((c.current_addr : Int) - c.phys_addr - c.read_index * c.block_size)
        % (c.dma_memory_size : Int) := by
  obtain ⟨hx, _⟩ := mul_lt_of_lt_div _ _ _ hri
  have hxs : c.read_index * c.block_size < c.dma_memory_size := by omega
  have hm : mul64 c.read_index c.block_size = c.read_index * c.block_size :=
    Nat.mod_eq_of_lt (by omega)
  refine ⟨_, by unfold bytes_available; rw [if_neg (by omega)], Nat.mod_lt _ hpos, ?_⟩
  have hcast : ((c.read_index : Int) * c.block_size)
      = ((c.read_index * c.block_size : Nat) : Int) := by push_cast; rfl
  rw [hm, hcast]
  generalize c.read_index * c.block_size = x at hxs
  by_cases hd : c.phys_addr + x ≤ c.current_addr
  · rw [avail_nonneg _ _ _ _ hs63 hcur hhi hxs hd]
    have : ((c.current_addr : Int) - c.phys_addr - x) = ((c.current_addr - c.phys_addr - x : Nat) : Int) := by
      omega
    rw [this]
    exact Int.natCast_mod _ _
  · rw [avail_neg _ _ _ _ (by omega) hcur hlo hxs (by omega)]
    have h1 : ((c.current_addr : Int) - c.phys_addr - x) % (c.dma_memory_size : Int)
        = ((c.current_addr : Int) - c.phys_addr - x + c.dma_memory_size) % (c.dma_memory_size : Int) := by
      rw [Int.add_emod_self]
    rw [h1, Int.emod_eq_of_lt (by omega) (by omega)]
    omega

/-- C11 (as stated, refuted): with a region of `2 ^ 63 + 2 ^ 30` bytes at
address 0, the write pointer at `2 ^ 63` and `read_index = 0`, all within the
ranges of the claim, the 64-bit sum `… + total_bytes` wraps and
`bytes_available` is `2 ^ 30`, while `(write_ptr - base - read_index *
block_bytes) mod total_bytes` over the integers is `2 ^ 63`. -/
theorem bytes_available_wraps_above_2_63 :
    0 < hugeCard.dma_memory_size ∧ hugeCard.phys_addr ≤ hugeCard.current_addr
      ∧ hugeCard.current_addr ≤ hugeCard.phys_addr + hugeCard.dma_memory_size
      ∧ hugeCard.read_index < hugeCard.dma_memory_size / hugeCard.block_size
      ∧ bytes_available hugeCard = .ok (2 ^ 30)
      ∧ ((hugeCard.current_addr : Int) - hugeCard.phys_addr
            - hugeCard.read_index * hugeCard.block_size) % (hugeCard.dma_memory_size : Int)
          = 2 ^ 63
      ∧ ¬ ((2 ^ 30 : Nat) : Int) = 2 ^ 63 := by
  refine ⟨by decide, by decide, by decide, by decide, by rfl, by decide, by decide⟩

/-- C11 (amended): for every `total_bytes` with `0 < total_bytes ≤ 2 ^ 63`, every
64-bit write pointer with `base ≤ write_ptr ≤ base + total_bytes` and every
`read_index` below `total_bytes / block_bytes`, `bytes_available` returns
`(write_ptr - base - read_index * block_bytes) mod total_bytes` taken over the
integers, a value in `[0, total_bytes)`. -/
theorem bytes_available_is_int_mod (c : Card) (hpos : 0 < c.dma_memory_size)
    (hs63 : c.dma_memory_size ≤ 2 ^ 63) (hcur : c.current_addr < 2 ^ 64)
    (hlo : c.phys_addr ≤ c.current_addr)
    (hhi : c.current_addr ≤ c.phys_addr + c.dma_memory_size)
    (hri : c.read_index < c.dma_memory_size / c.block_size) :
    ∃ v, bytes_available c = .ok v ∧ 0 ≤ v ∧ v < c.dma_memory_size ∧
      (v : Int) = ((c.current_addr : Int) - c.phys_addr - c.read_index * c.block_size)
        % (c.dma_memory_size : Int) := by
  obtain ⟨v, h1, h2, h3⟩ := bytes_available_eq c hpos hs63 hcur hlo hhi hri
  exact ⟨v, h1, Nat.zero_le v, h2, h3⟩

theorem bytes_available_is_int_mod_witness :
    ∃ v, bytes_available { smallCard with current_addr := 0x10000 + 4096, read_index := 3 } = .ok v
      ∧ 0 ≤ v ∧ v < 16384 ∧ (v : Int) = ((0x10000 + 4096 : Nat) - (0x10000 : Nat) - (3 : Nat) * (4096 : Nat) : Int) % ((16384 : Nat) : Int) :=
  bytes_available_is_int_mod { smallCard with current_addr := 0x10000 + 4096, read_index := 3 }
    (by decide) (by decide) (by decide) (by decide) (by decide) (by decide)

/-! ## The card wrapper: the validity guard, the destination, `start` and `stop` -/

theorem pollGuard_eq_false (c : Card) (hfit : c.phys_addr + c.dma_memory_size < 2 ^ 64) :
    pollGuard c = false
      ↔ c.phys_addr ≤ c.current_addr ∧ c.current_addr ≤ c.phys_addr + c.dma_memory_size := by
  unfold pollGuard add64
  rw [Nat.mod_eq_of_lt hfit]
  simp only [Bool.or_eq_false_iff, decide_eq_false_iff_not, Nat.not_lt]

theorem pollLoop_of_guard_false (w : World) (fuel : Nat) (s : Worker)
    (h : pollGuard s.card = false) : pollLoop w fuel s = (.next, s) := by
  unfold pollLoop
  simp [h]

/-- C12 (the code at the failing input): the guard of the polling loop is false
for every stored write pointer in the closed range `[base, base + total_bytes]`.
With `write_ptr = base + total_bytes` the loop is left at once, without a read
of the register, and `bytes_available` is evaluated: it returns a value. -/
theorem poll_loop_accepts_end_pointer (w : World) (fuel : Nat) (s : Worker)
    (hpos : 0 < s.card.dma_memory_size)
    (hfit : s.card.phys_addr + s.card.dma_memory_size < 2 ^ 64)
    (hend : s.card.current_addr = s.card.phys_addr + s.card.dma_memory_size) :
    pollGuard s.card = false ∧ pollLoop w fuel s = (.next, s)
      ∧ ∃ v, bytes_available s.card = .ok v := by
  have hg : pollGuard s.card = false := (pollGuard_eq_false _ hfit).2 ⟨by omega, by omega⟩
  refine ⟨hg, pollLoop_of_guard_false w fuel s hg, ?_⟩
  unfold bytes_available
  rw [if_neg (by omega)]
  exact ⟨_, rfl⟩

theorem poll_loop_accepts_end_pointer_witness :
    pollGuard endCard = false
      ∧ pollLoop (constWorld 0) 5 ⟨endCard, 0, 0⟩ = (.next, ⟨endCard, 0, 0⟩)
      ∧ ∃ v, bytes_available endCard = .ok v :=
  poll_loop_accepts_end_pointer (constWorld 0) 5 ⟨endCard, 0, 0⟩ (by decide) (by decide)
    (by decide)

/-! ### The reclaim destination -/

theorem newDestination_eq (phys size x y : Nat) (hsz : size < 2 ^ 64)
    (hfit : phys + size ≤ 2 ^ 64) (hx : x < size) (hy : y ≤ size) (hno : y ≤ phys + x) :
    (let d := sub64 (add64 phys (x % 2 ^ 64)) (y % 2 ^ 64)
     if d < phys then add64 d size else d)
      = if y ≤ x then phys + (x - y) else phys + size - (y - x) := by
  unfold add64 sub64
  have h1 : x % 2 ^ 64 = x := Nat.mod_eq_of_lt (by omega)
  have h2 : y % 2 ^ 64 = y := Nat.mod_eq_of_lt (by omega)
  rw [h1, h2]
  have h3 : (phys + x) % 2 ^ 64 = phys + x := Nat.mod_eq_of_lt (by omega)
  rw [h3]
  have h4 : (phys + x + 2 ^ 64 - y) % 2 ^ 64 = phys + x - y := by omega
  rw [h4]
  by_cases hc : y ≤ x
  · rw [if_pos hc]
    have : ¬ (phys + x - y < phys) := by omega
    simp only [this, if_false]
    omega
  · rw [if_neg hc]
    have : phys + x - y < phys := by omega
    simp only [this, if_true]
    have h5 : (phys + x - y + size) % 2 ^ 64 = phys + size - (y - x) := by omega
    exact h5

/-- The reclaim destination when the subtraction does not pass below zero. -/
theorem newDestination_spec (c : Card) (wi : Nat) (hsz : c.dma_memory_size < 2 ^ 64)
    (hfit : c.phys_addr + c.dma_memory_size ≤ 2 ^ 64)
    (hwi : wi < c.dma_memory_size / c.block_size)
    (hm : c.margin_blocks ≤ c.dma_memory_size / c.block_size)
    (hno : c.margin_blocks * c.block_size ≤ c.phys_addr + wi * c.block_size) :
    newDestination c wi
      = if c.margin_blocks * c.block_size ≤ wi * c.block_size
        then c.phys_addr + (wi * c.block_size - c.margin_blocks * c.block_size)
        else c.phys_addr + c.dma_memory_size
              - (c.margin_blocks * c.block_size - wi * c.block_size) := by
  obtain ⟨hx, _⟩ := mul_lt_of_lt_div _ _ _ hwi
  have hy : c.margin_blocks * c.block_size ≤ c.dma_memory_size :=
    le_trans (Nat.mul_le_mul_right _ hm) (Nat.div_mul_le_self _ _)
  unfold newDestination mul64
  exact newDestination_eq _ _ _ _ hsz hfit (by omega) hy hno

/-! ### The drain loop -/

theorem ringDist (n r wi : Nat) (hr : r < n) (hwi : wi < n) :
    (wi + n - r) % n = if r ≤ wi then wi - r else wi + n - r := by
  split
  · have : wi + n - r = (wi - r) + n := by omega
    rw [this, Nat.add_mod_right, Nat.mod_eq_of_lt (by omega)]
  · exact Nat.mod_eq_of_lt (by omega)

theorem ringNext (n r : Nat) (hr : r < n) (hn : n < 2 ^ 64) :
    add64 r 1 % n = if r + 1 < n then r + 1 else 0 := by
  unfold add64
  rw [Nat.mod_eq_of_lt (by omega : r + 1 < 2 ^ 64)]
  split
  · exact Nat.mod_eq_of_lt (by omega)
  · have : r + 1 = n := by omega
    rw [this, Nat.mod_self]

theorem drainAddrs_succ (c : Card) (n r k : Nat) (hr : r < n) (hn : n < 2 ^ 64)
    (hsz : n * c.block_size < 2 ^ 64) :
    drainAddrs c n r (k + 1)
      = add64 c.virt_addr (mul64 r c.block_size) :: drainAddrs c n (add64 r 1 % n) k := by
  unfold drainAddrs
  rw [List.range_succ_eq_map, List.map_cons, List.map_map]
  have h1 : add64 r 1 = r + 1 := Nat.mod_eq_of_lt (by omega)
  have h2 : r * c.block_size < 2 ^ 64 :=
    lt_of_le_of_lt (Nat.mul_le_mul_right _ (le_of_lt hr)) hsz
  congr 1
  · simp only [Nat.add_zero, Nat.mod_eq_of_lt hr, add64, mul64, Nat.mod_eq_of_lt h2]
  · apply List.map_congr_left
    intro i _
    simp only [Function.comp, h1, Nat.mod_add_mod]
    have : r + (i + 1) = r + 1 + i := by omega
    rw [this]

/-- The state behind a drain loop that started in `c` and made `k` steps towards
`wi`. -/
theorem drainLoop_run (wi n : Nat) (fuel : Nat) (c : Card) (bytes : Nat)
    (hbs : 0 < c.block_size) (hn : c.dma_memory_size / c.block_size = n)
    (hsz : c.dma_memory_size < 2 ^ 64) (hr : c.read_index < n) (hwi : wi < n)
    (hbytes : bytes < 2 ^ 64) (hfuel : (wi + n - c.read_index) % n ≤ fuel) :
    drainLoop wi fuel c bytes
      = (.next,
         { c with
           read_index := wi
           trace := c.trace ++ drainActs c n c.read_index ((wi + n - c.read_index) % n) },
         (bytes + (wi + n - c.read_index) % n * c.block_size) % 2 ^ 64) := by
  have hnb : n * c.block_size < 2 ^ 64 := by
    rw [← hn]; exact lt_of_le_of_lt (Nat.div_mul_le_self _ _) hsz
  have hn64 : n < 2 ^ 64 := by
    rw [← hn]; exact lt_of_le_of_lt (Nat.div_le_self _ _) hsz
  induction fuel generalizing c bytes with
  | zero =>
    have hk := ringDist n c.read_index wi hr hwi
    have heq : c.read_index = wi := by
      split at hk <;> omega
    unfold drainLoop
    rw [if_neg (by simpa using heq)]
    have hk0 : (wi + n - c.read_index) % n = 0 := by omega
    rw [hk0, Nat.zero_mul, Nat.add_zero, Nat.mod_eq_of_lt hbytes]
    rcases c with ⟨rm, ha, im, pt, id, mb, bt, bs, sz, ph, vi, cu, de, ri, tr⟩
    simp only at heq
    subst heq
    simp [drainActs, drainAddrs]
  | succ fuel ih =>
    have hk := ringDist n c.read_index wi hr hwi
    by_cases heq : c.read_index = wi
    · unfold drainLoop
      rw [if_neg (by simpa using heq)]
      have hk0 : (wi + n - c.read_index) % n = 0 := by
        split at hk <;> omega
      rw [hk0, Nat.zero_mul, Nat.add_zero, Nat.mod_eq_of_lt hbytes]
      rcases c with ⟨rm, ha, im, pt, id, mb, bt, bs, sz, ph, vi, cu, de, ri, tr⟩
      simp only at heq
      subst heq
      simp [drainActs, drainAddrs]
    · have hnx := ringNext n c.read_index hr hn64
      have hr1 : add64 c.read_index 1 % n < n := by
        split at hnx <;> omega
      have hk1 := ringDist n (add64 c.read_index 1 % n) wi hr1 hwi
      obtain ⟨k, hkk⟩ : ∃ k, (wi + n - c.read_index) % n = k + 1 :=
        ⟨(wi + n - c.read_index) % n - 1, by split at hk <;> omega⟩
      have hk' : (wi + n - add64 c.read_index 1 % n) % n = k := by
        split at hk <;> split at hnx <;> split at hk1 <;> omega
      have hfk : k ≤ fuel := by omega
      have hby : (add64 bytes c.block_size + k * c.block_size) % 2 ^ 64
          = (bytes + (k + 1) * c.block_size) % 2 ^ 64 := by
        unfold add64
        rw [Nat.mod_add_mod]
        congr 1; ring
      unfold drainLoop
      rw [if_pos heq]
      simp only
      rw [if_neg (by rw [hn]; omega), hn]
      rw [hkk, drainActs, drainAddrs_succ c n c.read_index k hr hn64 hnb, ← hby]
      rcases c with ⟨rm, ha, im, pt, id, mb, bt, bs, sz, ph, vi, cu, de, ri, tr⟩
      simp only at hbs hn hsz hr heq hnx hr1 hk1 hkk hk' hnb ⊢
      cases ha
      · have := ih { run_marker := rm, block_addr_handler_available := false,
                     interrupt_mode := im, poll_time := pt, dma_id := id, margin_blocks := mb,
                     block_threshold := bt, block_size := bs, dma_memory_size := sz,
                     phys_addr := ph, virt_addr := vi, current_addr := cu, destination := de,
                     read_index := add64 ri 1 % n, trace := tr }
                   (add64 bytes bs) hbs hn hsz hr1 (Nat.mod_lt _ (by decide))
                   (by rw [hk']; exact hfk) hnb
        simp only [hk'] at this
        simp only [Bool.false_eq_true, if_false]
        rw [this]
        simp [drainActs]
      · have := ih { run_marker := rm, block_addr_handler_available := true,
                     interrupt_mode := im, poll_time := pt, dma_id := id, margin_blocks := mb,
                     block_threshold := bt, block_size := bs, dma_memory_size := sz,
                     phys_addr := ph, virt_addr := vi, current_addr := cu, destination := de,
                     read_index := add64 ri 1 % n,
                     trace := tr ++ [.handle_block_addr (add64 vi (mul64 ri bs))] }
                   (add64 bytes bs) hbs hn hsz hr1 (Nat.mod_lt _ (by decide))
                   (by rw [hk']; exact hfk) hnb
        simp only [hk'] at this
        simp only [if_true, Card.act]
        rw [this]
        simp [drainActs]
        rfl

theorem writeIndex_lt (c : Card) (hdvd : c.block_size ∣ c.dma_memory_size)
    (hcur : c.current_addr < 2 ^ 64) (hlo : c.phys_addr ≤ c.current_addr)
    (hhi : c.current_addr < c.phys_addr + c.dma_memory_size) :
    writeIndex c = (c.current_addr - c.phys_addr) / c.block_size
      ∧ writeIndex c < c.dma_memory_size / c.block_size := by
  have h1 : sub64 c.current_addr c.phys_addr = c.current_addr - c.phys_addr := by
    unfold sub64; omega
  unfold writeIndex
  rw [h1]
  exact ⟨rfl, Nat.div_lt_div_of_lt_of_dvd hdvd (by omega)⟩

/-- One drain pass for a write pointer in `[base, base + total_bytes)`. -/
theorem drainPass_run (c : Card) (fuel : Nat) (hbs : 0 < c.block_size)
    (hdvd : c.block_size ∣ c.dma_memory_size) (hsz : c.dma_memory_size < 2 ^ 64)
    (hcur : c.current_addr < 2 ^ 64) (hlo : c.phys_addr ≤ c.current_addr)
    (hhi : c.current_addr < c.phys_addr + c.dma_memory_size)
    (hr : c.read_index < c.dma_memory_size / c.block_size)
    (hfuel : (writeIndex c + c.dma_memory_size / c.block_size - c.read_index)
              % (c.dma_memory_size / c.block_size) ≤ fuel) :
    drainPass fuel c
      = (.next,
         { c with
           read_index := writeIndex c
           trace := c.trace ++ drainActs c (c.dma_memory_size / c.block_size) c.read_index
              ((writeIndex c + c.dma_memory_size / c.block_size - c.read_index)
                % (c.dma_memory_size / c.block_size)) },
         writeIndex c,
         ((writeIndex c + c.dma_memory_size / c.block_size - c.read_index)
            % (c.dma_memory_size / c.block_size) * c.block_size) % 2 ^ 64) := by
  have hw := (writeIndex_lt c hdvd hcur hlo hhi).2
  unfold drainPass
  rw [if_neg (by omega)]
  rw [drainLoop_run (writeIndex c) _ fuel c 0 hbs rfl hsz hr hw (by decide) hfuel]
  simp

theorem ring_step_ne (n r wi i : Nat) (hr : r < n) (hwi : wi < n)
    (hi : i < (wi + n - r) % n) : (r + i) % n ≠ wi := by
  rw [ringDist n r wi hr hwi] at hi
  by_cases h : r + i < n
  · rw [Nat.mod_eq_of_lt h]
    split at hi <;> omega
  · have h2 : (r + i) % n = r + i - n := by
      rw [Nat.mod_eq_sub_mod (by omega), Nat.mod_eq_of_lt]
      split at hi <;> omega
    rw [h2]
    split at hi <;> omega

theorem drainLoop_stuck (wi : Nat) (fuel : Nat) (c : Card) (bytes : Nat)
    (hbs : 0 < c.block_size) (hn : 0 < c.dma_memory_size / c.block_size)
    (hr : c.read_index < c.dma_memory_size / c.block_size)
    (hwi : c.dma_memory_size / c.block_size ≤ wi) :
    (drainLoop wi fuel c bytes).1 = .fuel := by
  induction fuel generalizing c bytes with
  | zero =>
    unfold drainLoop
    rw [if_pos (by omega)]
  | succ fuel ih =>
    unfold drainLoop
    rw [if_pos (by omega)]
    simp only
    rw [if_neg (by omega)]
    apply ih
    · split <;> exact hbs
    · split <;> exact hn
    · split <;> exact Nat.mod_lt _ hn
    · split <;> exact hwi

/-- C13: for `block_bytes > 0` dividing `total_bytes`, `n = total_bytes /
block_bytes`, a write pointer in `[base, base + total_bytes)` and a starting read
index `r0 < n`, one drain pass (with fuel for its `k` steps) leaves the loop with
`read_index = write_index`, where `write_index = (write_ptr - base) / block_bytes`
and `k = (write_index - r0) mod n`; the handler calls it adds to the trace are
exactly those for the 64-bit addresses `virtual_base + ((r0 + i) mod n) *
block_bytes`, `i = 0 .. k-1`, in that order (none when no handler is set); no
emitted block index is `write_index`; and the address sums do not wrap when the
region lies within the 64-bit address space. -/
theorem drain_pass_emits_in_order (c : Card) (fuel n wi k : Nat)
    (hn : n = c.dma_memory_size / c.block_size)
    (hwi : wi = (c.current_addr - c.phys_addr) / c.block_size)
    (hk : k = (wi + n - c.read_index) % n)
    (hbs : 0 < c.block_size) (hdvd : c.block_size ∣ c.dma_memory_size)
    (hsz : c.dma_memory_size < 2 ^ 64) (hcur : c.current_addr < 2 ^ 64)
    (hlo : c.phys_addr ≤ c.current_addr)
    (hhi : c.current_addr < c.phys_addr + c.dma_memory_size)
    (hr : c.read_index < n) (hfuel : k ≤ fuel) :
    (k : Int) = ((wi : Int) - c.read_index) % (n : Int)
      ∧ (∃ c1 bytes,
          drainPass fuel c = (.next, c1, wi, bytes)
            ∧ c1.read_index = wi
            ∧ c1.trace = c.trace ++
                (if c.block_addr_handler_available = true then
                  (List.range k).map (fun i =>
                    Act.handle_block_addr
                      ((c.virt_addr + ((c.read_index + i) % n) * c.block_size) % 2 ^ 64))
                 else []))
      ∧ (∀ i, i < k → (c.read_index + i) % n ≠ wi)
      ∧ (c.virt_addr + c.dma_memory_size ≤ 2 ^ 64 → ∀ i,
          (c.virt_addr + ((c.read_index + i) % n) * c.block_size) % 2 ^ 64
            = c.virt_addr + ((c.read_index + i) % n) * c.block_size) := by
  obtain ⟨hw1, hw2⟩ := writeIndex_lt c hdvd hcur hlo hhi
  rw [← hwi] at hw1
  rw [hw1, ← hn] at hw2
  have hnpos : 0 < n := by omega
  refine ⟨?_, ?_, ?_, ?_⟩
  · have h1 : ((wi : Int) - c.read_index) % (n : Int)
        = ((wi + n - c.read_index : Nat) : Int) % (n : Int) := by
      have : ((wi + n - c.read_index : Nat) : Int) = (wi : Int) - c.read_index + n := by omega
      rw [this, Int.add_emod_self]
    rw [h1, hk]
    exact Int.natCast_mod _ _
  · have hrun := drainPass_run c fuel hbs hdvd hsz hcur hlo hhi (by rw [← hn]; exact hr)
      (by rw [hw1, ← hn, ← hk]; exact hfuel)
    rw [hw1, ← hn, ← hk] at hrun
    refine ⟨_, _, hrun, rfl, ?_⟩
    simp only [drainActs, drainAddrs, List.map_map]
    split <;> rfl
  · intro i hi
    exact ring_step_ne n c.read_index wi i hr hw2 (by rw [← hk]; exact hi)
  · intro hfit i
    apply Nat.mod_eq_of_lt
    have h1 : (c.read_index + i) % n < n := Nat.mod_lt _ hnpos
    have h2 : ((c.read_index + i) % n + 1) * c.block_size ≤ n * c.block_size :=
      Nat.mul_le_mul_right _ h1
    have h3 : n * c.block_size ≤ c.dma_memory_size := by
      rw [hn]; exact Nat.div_mul_le_self _ _
    have h4 : ((c.read_index + i) % n + 1) * c.block_size
        = (c.read_index + i) % n * c.block_size + c.block_size := by ring
    omega

theorem drain_pass_emits_in_order_witness :
    ((2 : Nat) : Int) = (((0 : Nat) : Int) - (2 : Nat)) % ((4 : Nat) : Int)
      ∧ (∃ c1 bytes,
          drainPass 3 { smallCard with read_index := 2 } = (.next, c1, 0, bytes)
            ∧ c1.read_index = 0
            ∧ c1.trace = [] ++
                (if true = true then
                  (List.range 2).map (fun i =>
                    Act.handle_block_addr ((0x7f0000 + ((2 + i) % 4) * 4096) % 2 ^ 64))
                 else []))
      ∧ (∀ i, i < 2 → (2 + i) % 4 ≠ 0)
      ∧ (0x7f0000 + 16384 ≤ 2 ^ 64 → ∀ i,
          (0x7f0000 + ((2 + i) % 4) * 4096) % 2 ^ 64 = 0x7f0000 + ((2 + i) % 4) * 4096) :=
  drain_pass_emits_in_order { smallCard with read_index := 2 } 3 4 0 2 (by decide) (by decide)
    (by decide) (by decide) (by decide) (by decide) (by decide) (by decide) (by decide)
    (by decide) (by decide)

theorem waitLoop_of_enough (w : World) (fuel : Nat) (s : Worker) (v : Nat)
    (h : bytes_available s.card = .ok v)
    (hv : ¬ v < mul64 s.card.block_threshold s.card.block_size) :
    waitLoop w fuel s = (.next, s) := by
  unfold waitLoop
  rw [h]
  cases fuel <;> simp only [if_neg hv]

theorem process_DMA_stuck (w : World) (inner outer : Nat) (s : Worker)
    (hbs : 0 < s.card.block_size) (hpos : 0 < s.card.dma_memory_size)
    (hfit : s.card.phys_addr + s.card.dma_memory_size < 2 ^ 64)
    (hend : s.card.current_addr = s.card.phys_addr + s.card.dma_memory_size)
    (hr : s.card.read_index < s.card.dma_memory_size / s.card.block_size)
    (hrun : w.marker s.loads = true)
    (hav : ∃ v, bytes_available s.card = .ok v
      ∧ mul64 s.card.block_threshold s.card.block_size ≤ v) :
    (process_DMA w inner (outer + 1) s).1 = .fuel := by
  have hg : pollGuard s.card = false := (pollGuard_eq_false _ hfit).2 ⟨by omega, by omega⟩
  have hw : writeIndex s.card = s.card.dma_memory_size / s.card.block_size := by
    unfold writeIndex sub64
    rw [hend]
    congr 1
    omega
  have hd : (drainPass inner s.card).1 = .fuel := by
    unfold drainPass
    rw [if_neg (by omega)]
    exact drainLoop_stuck _ inner s.card 0 hbs (by omega) hr (by omega)
  unfold process_DMA
  rw [if_pos hrun]
  simp only
  rw [pollLoop_of_guard_false w inner { s with loads := s.loads + 1 } hg]
  simp only
  obtain ⟨v, hv, hle⟩ := hav
  have hwait := waitLoop_of_enough w inner
    { card := s.card, loads := s.loads + 1, reads := s.reads } v hv
    (by simp only; omega)
  rw [hwait]
  simp only
  revert hd
  generalize drainPass inner s.card = r
  rcases r with ⟨f, c3, wi, b⟩
  intro hd
  simp only at hd
  subst hd
  rfl

/-- C20 (the code at the failing input): the write pointer `base + total_bytes`
is accepted by the validity guard, `write_index` is then the block count `n`, and
since `read_index` stays below `n` the drain loop is not left, whatever fuel it is
given; a round of `process_DMA` that starts in such a state with enough bytes
available for the threshold gets into that loop and does not come out of it. -/
theorem drain_loop_never_ends_at_end_pointer (c : Card) (hbs : 0 < c.block_size)
    (hpos : 0 < c.dma_memory_size)
    (hfit : c.phys_addr + c.dma_memory_size < 2 ^ 64)
    (hend : c.current_addr = c.phys_addr + c.dma_memory_size)
    (hr : c.read_index < c.dma_memory_size / c.block_size)
    (hav : ∃ v, bytes_available c = .ok v ∧ mul64 c.block_threshold c.block_size ≤ v) :
    pollGuard c = false ∧ writeIndex c = c.dma_memory_size / c.block_size
      ∧ (∀ fuel, (drainPass fuel c).1 = .fuel)
      ∧ ∀ (w : World) (inner outer loads reads : Nat), w.marker loads = true →
          (process_DMA w inner (outer + 1) ⟨c, loads, reads⟩).1 = .fuel := by
  have hw : writeIndex c = c.dma_memory_size / c.block_size := by
    unfold writeIndex sub64
    rw [hend]
    congr 1
    omega
  refine ⟨(pollGuard_eq_false _ hfit).2 ⟨by omega, by omega⟩, hw, fun fuel => ?_,
    fun w inner outer loads reads hm =>
      process_DMA_stuck w inner outer ⟨c, loads, reads⟩ hbs hpos hfit hend hr hm hav⟩
  unfold drainPass
  rw [if_neg (by omega)]
  exact drainLoop_stuck _ fuel c 0 hbs (by omega) hr (by omega)

theorem drain_loop_never_ends_at_end_pointer_witness :
    pollGuard endCard = false ∧ writeIndex endCard = endCard.dma_memory_size / endCard.block_size
      ∧ (∀ fuel, (drainPass fuel endCard).1 = .fuel)
      ∧ ∀ (w : World) (inner outer loads reads : Nat), w.marker loads = true →
          (process_DMA w inner (outer + 1) ⟨endCard, loads, reads⟩).1 = .fuel :=
  drain_loop_never_ends_at_end_pointer endCard (by decide) (by decide) (by decide) (by decide)
    (by decide) ⟨12288, by rfl, by decide⟩

/-- C14 (as stated, refuted): with base `0x1000`, four blocks of 4096 bytes,
`write_index = 0` and `margin_blocks = 2 ≤ 4`, the 64-bit subtraction passes
below zero: the destination handed to `dma_set_ptr` is `2 ^ 64 - 4096`, which is
not below `base + total_bytes`. -/
theorem destination_underflows_at_low_base :
    0 < lowCard.dma_memory_size / lowCard.block_size
      ∧ lowCard.margin_blocks ≤ lowCard.dma_memory_size / lowCard.block_size
      ∧ newDestination lowCard 0 = 2 ^ 64 - 4096
      ∧ (advancePointer lowCard 0).trace = [.lock, .dma_set_ptr 0 (2 ^ 64 - 4096), .unlock]
      ∧ ¬ (newDestination lowCard 0 < lowCard.phys_addr + lowCard.dma_memory_size) := by
  refine ⟨by decide, by decide, by decide, by decide, by decide⟩

/-- C14 (amended): for every base address with `base + total_bytes ≤ 2 ^ 64`,
every `write_index` below the block count `n`, and every `margin_blocks ≤ n` with
`margin_blocks * block_bytes ≤ base + write_index * block_bytes` (the 64-bit
subtraction does not pass below zero), the destination that is stored and passed
to `dma_set_ptr` lies in `[base, base + total_bytes)` and its offset from the base
is congruent to `(write_index - margin_blocks) * block_bytes` modulo
`total_bytes`. -/
theorem destination_wrapped_into_range (c : Card) (wi : Nat)
    (hsz : c.dma_memory_size < 2 ^ 64)
    (hfit : c.phys_addr + c.dma_memory_size ≤ 2 ^ 64)
    (hwi : wi < c.dma_memory_size / c.block_size)
    (hm : c.margin_blocks ≤ c.dma_memory_size / c.block_size)
    (hno : c.margin_blocks * c.block_size ≤ c.phys_addr + wi * c.block_size) :
    (advancePointer c wi).destination = newDestination c wi
      ∧ (advancePointer c wi).trace
          = c.trace ++ [.lock, .dma_set_ptr c.dma_id (newDestination c wi), .unlock]
      ∧ c.phys_addr ≤ newDestination c wi
      ∧ newDestination c wi < c.phys_addr + c.dma_memory_size
      ∧ ((newDestination c wi : Int) - c.phys_addr) % (c.dma_memory_size : Int)
          = (((wi : Int) - c.margin_blocks) * c.block_size) % (c.dma_memory_size : Int) := by
  have hd := newDestination_spec c wi hsz hfit hwi hm hno
  obtain ⟨hx, _⟩ := mul_lt_of_lt_div _ _ _ hwi
  have hy : c.margin_blocks * c.block_size ≤ c.dma_memory_size :=
    le_trans (Nat.mul_le_mul_right _ hm) (Nat.div_mul_le_self _ _)
  have hcast : (((wi : Int) - c.margin_blocks) * c.block_size)
      = ((wi * c.block_size : Nat) : Int) - ((c.margin_blocks * c.block_size : Nat) : Int) := by
    push_cast; ring
  refine ⟨rfl, rfl, ?_⟩
  rw [hcast]
  generalize newDestination c wi = d at hd
  generalize wi * c.block_size = x at hd hx hno
  generalize c.margin_blocks * c.block_size = y at hd hy hno
  refine ⟨?_, ?_, ?_⟩
  · split at hd <;> omega
  · split at hd <;> omega
  · split at hd
    · have : (d : Int) - c.phys_addr = (x : Int) - y := by omega
      rw [this]
    · have : (d : Int) - c.phys_addr = (x : Int) - y + c.dma_memory_size := by omega
      rw [this, Int.add_emod_self]

theorem destination_wrapped_into_range_witness :
    (advancePointer smallCard 0).destination = newDestination smallCard 0
      ∧ (advancePointer smallCard 0).trace
          = smallCard.trace ++ [.lock, .dma_set_ptr smallCard.dma_id (newDestination smallCard 0), .unlock]
      ∧ smallCard.phys_addr ≤ newDestination smallCard 0
      ∧ newDestination smallCard 0 < smallCard.phys_addr + smallCard.dma_memory_size
      ∧ ((newDestination smallCard 0 : Int) - smallCard.phys_addr) % (smallCard.dma_memory_size : Int)
          = (((0 : Nat) : Int) - smallCard.margin_blocks) * smallCard.block_size
              % (smallCard.dma_memory_size : Int) :=
  destination_wrapped_into_range smallCard 0 (by decide) (by decide) (by decide) (by decide)
    (by decide)

/-! ### `start` and `stop` -/

theorem waitReady_run_marker (ready : Nat → Bool) (fuel k : Nat) (c : Card) :
    (waitReady ready fuel k c).2.run_marker = c.run_marker := by
  induction fuel generalizing k c with
  | zero => unfold waitReady; split <;> rfl
  | succ fuel ih =>
    unfold waitReady
    split
    · exact ih _ _
    · rfl

theorem waitReady_flow (ready : Nat → Bool) (fuel k : Nat) (c : Card) :
    (waitReady ready fuel k c).1 ≠ .returned := by
  induction fuel generalizing k c with
  | zero => unfold waitReady; split <;> simp
  | succ fuel ih =>
    unfold waitReady
    split
    · exact ih _ _
    · simp

theorem graceful_stop_of_stopped (ready : Nat → Bool) (fuel : Nat) (c : Card)
    (h : c.run_marker = false) : graceful_stop ready fuel c = (.returned, c) := by
  unfold graceful_stop
  simp [h]

theorem graceful_stop_returned (ready : Nat → Bool) (fuel : Nat) (c c1 : Card)
    (h : graceful_stop ready fuel c = (.returned, c1)) :
    c1.run_marker = false
      ∧ (c.run_marker = true → c1.AtBase) := by
  unfold graceful_stop at h
  by_cases hr : c.run_marker = true
  · rw [if_pos hr] at h
    have hm := waitReady_run_marker ready fuel 0 (set_running false c)
    have hf := waitReady_flow ready fuel 0 (set_running false c)
    revert h hm hf
    generalize waitReady ready fuel 0 (set_running false c) = r
    rcases r with ⟨f, c2⟩
    intro h hm hf
    cases f <;> simp only [Prod.mk.injEq, reduceCtorEq, false_and] at h
    · obtain ⟨_, rfl⟩ := h
      simp only [set_running] at hm
      refine ⟨?_, fun _ => ?_⟩
      · simp only [init_DMA, stop_DMA, Card.act]
        split <;> exact hm
      · simp [Card.AtBase, init_DMA, stop_DMA, Card.act]
    · exact absurd rfl hf
  · rw [if_neg hr] at h
    simp only [Prod.mk.injEq, true_and] at h
    subst h
    exact ⟨by simpa using hr, fun h => absurd h hr⟩

/-- C15: `stop` on an engine whose run marker is false returns the state it was
given, trace of device calls included; and after any `stop` that has returned the
run marker is false, so a second `stop` (whatever the worker answers) returns the
same state with the same trace. -/
theorem stop_is_idempotent (ready ready2 : Nat → Bool) (fuel fuel2 : Nat) (c : Card) :
    (c.run_marker = false → stop ready fuel c = (.returned, c))
      ∧ ∀ c1, stop ready fuel c = (.returned, c1) →
          c1.run_marker = false ∧ stop ready2 fuel2 c1 = (.returned, c1) := by
  refine ⟨graceful_stop_of_stopped ready fuel c, fun c1 h => ?_⟩
  have h1 := (graceful_stop_returned ready fuel c c1 h).1
  exact ⟨h1, graceful_stop_of_stopped ready2 fuel2 c1 h1⟩

theorem stop_is_idempotent_witness :
    (stop (fun k => decide (2 ≤ k)) 5 { smallCard with run_marker := true }).2.run_marker = false
      ∧ stop (fun _ => false) 0
            (stop (fun k => decide (2 ≤ k)) 5 { smallCard with run_marker := true }).2
          = (.returned,
             (stop (fun k => decide (2 ≤ k)) 5 { smallCard with run_marker := true }).2) :=
  (stop_is_idempotent (fun k => decide (2 ≤ k)) (fun _ => false) 5 0
    { smallCard with run_marker := true }).2 _ (by decide)

theorem start_fields (c : Card) :
    (start c).read_index = c.read_index ∧ (start c).current_addr = c.current_addr
      ∧ (start c).destination = c.destination ∧ (start c).phys_addr = c.phys_addr := by
  unfold start
  split <;> exact ⟨rfl, rfl, rfl, rfl⟩

theorem init_DMA_atBase (c : Card) : (init_DMA c).AtBase ∧ (init_DMA c).run_marker = c.run_marker := by
  unfold init_DMA Card.AtBase
  simp only [Card.act]
  split <;> simp

theorem start_atBase (c : Card) (h : c.AtBase) : (start c).AtBase := by
  obtain ⟨h1, h2, h3, h4⟩ := start_fields c
  unfold Card.AtBase at h ⊢
  rw [h1, h2, h3, h4]
  exact h

/-- C16 (as stated, refuted): `staleCard` is not running, its read index is 5, its
stored write pointer `0x12000`, its destination `0x11000` and its base `0x10000`.
`start` sets the run marker and leaves the three cursor members as they were. -/
theorem start_keeps_stale_cursor :
    staleCard.run_marker = false ∧ (start staleCard).run_marker = true
      ∧ (start staleCard).phys_addr = 0x10000
      ∧ (start staleCard).read_index = 5 ∧ (start staleCard).current_addr = 0x12000
      ∧ (start staleCard).destination = 0x11000 ∧ ¬ (start staleCard).AtBase := by
  refine ⟨by decide, by decide, by decide, by decide, by decide, by decide, by decide⟩

/-- C16 (amended): `start` does not write the cursor: `read_index`, the stored
write pointer and the destination have after the call the values they had before
it. The cursor is put to the base by `init_DMA`, which `configure` runs and which
every `stop` of a running engine runs last; so `start` on a non-running state left
by `init_DMA`, or on the state a `stop` of a running engine has returned, comes
back running with `read_index = 0` and both pointers at the physical base
address. -/
theorem start_leaves_cursor (c : Card) :
    ((start c).read_index = c.read_index ∧ (start c).current_addr = c.current_addr
        ∧ (start c).destination = c.destination)
      ∧ (c.run_marker = false →
          (start (init_DMA c)).run_marker = true ∧ (start (init_DMA c)).AtBase)
      ∧ (c.run_marker = true → ∀ ready fuel c1, stop ready fuel c = (.returned, c1) →
          (start c1).run_marker = true ∧ (start c1).AtBase) := by
  obtain ⟨h1, h2, h3, _⟩ := start_fields c
  refine ⟨⟨h1, h2, h3⟩, fun hr => ?_, fun hr ready fuel c1 h => ?_⟩
  · obtain ⟨ha, hm⟩ := init_DMA_atBase c
    refine ⟨?_, start_atBase _ ha⟩
    unfold start
    rw [if_pos (by rw [hm]; exact hr)]
    rfl
  · obtain ⟨hm, ha⟩ := graceful_stop_returned ready fuel c c1 h
    refine ⟨?_, start_atBase _ (ha hr)⟩
    unfold start
    rw [if_pos hm]
    rfl

theorem start_leaves_cursor_witness :
    (start (init_DMA staleCard)).run_marker = true ∧ (start (init_DMA staleCard)).AtBase :=
  (start_leaves_cursor staleCard).2.1 (by decide)

/-! ### The card mutex in `process_DMA` -/

theorem lockScan_append (bad : Act → Bool) (l1 l2 : List Act)
    (h1 : NoneUnderLock bad l1) (h2 : NoneUnderLock bad l2) : NoneUnderLock bad (l1 ++ l2) := by
  unfold NoneUnderLock lockScan at *
  rw [List.foldl_append, h1, h2]

theorem extends_refl (bad : Act → Bool) (c : Card) : c.Extends bad c :=
  ⟨rfl, [], (List.append_nil _).symm, rfl⟩

theorem extends_trans (bad : Act → Bool) (c c1 c2 : Card) (h1 : c.Extends bad c1)
    (h2 : c1.Extends bad c2) : c.Extends bad c2 := by
  obtain ⟨hm1, a1, ht1, hs1⟩ := h1
  obtain ⟨hm2, a2, ht2, hs2⟩ := h2
  exact ⟨hm2.trans hm1, a1 ++ a2, by rw [ht2, ht1, List.append_assoc],
    lockScan_append bad a1 a2 hs1 hs2⟩

theorem extends_of_trace (bad : Act → Bool) (c c1 : Card) (acts : List Act)
    (hm : c1.interrupt_mode = c.interrupt_mode) (ht : c1.trace = c.trace ++ acts)
    (hs : NoneUnderLock bad acts) : c.Extends bad c1 :=
  ⟨hm, acts, ht, hs⟩

theorem scan_locked (bad : Act → Bool) (a : Act) (h : bad a = false) (h1 : a ≠ .lock)
    (h2 : a ≠ .unlock) : NoneUnderLock bad [.lock, a, .unlock] := by
  unfold NoneUnderLock lockScan
  cases a <;> simp_all [lockStep]

theorem scan_free (bad : Act → Bool) (a : Act) (h1 : a ≠ .lock) (h2 : a ≠ .unlock) :
    NoneUnderLock bad [a] := by
  unfold NoneUnderLock lockScan
  cases a <;> simp_all [lockStep]

theorem read_current_address_extends (bad : Act → Bool) (hread : bad .read_address = false)
    (w : World) (s : Worker) : s.card.Extends bad (read_current_address w s).card :=
  extends_of_trace bad _ _ [.lock, .read_address, .unlock] rfl rfl
    (scan_locked bad _ hread (by simp) (by simp))

theorem pollLoop_extends (bad : Act → Bool) (hread : bad .read_address = false) (w : World)
    (fuel : Nat) (s : Worker) : s.card.Extends bad (pollLoop w fuel s).2.card := by
  induction fuel generalizing s with
  | zero =>
    unfold pollLoop
    split <;> exact extends_refl bad _
  | succ fuel ih =>
    unfold pollLoop
    split
    · simp only
      split
      · refine extends_trans bad _ _ _ ?_ (ih _)
        refine extends_trans bad _ _ _
          (read_current_address_extends bad hread w { s with loads := s.loads + 1 }) ?_
        exact extends_of_trace bad _ _ [.sleep 5000] rfl rfl (scan_free bad _ (by simp) (by simp))
      · exact extends_refl bad _
    · exact extends_refl bad _

theorem waitLoop_error (w : World) (fuel : Nat) (s : Worker) (f : Fault)
    (h : bytes_available s.card = .error f) : waitLoop w fuel s = (.fault f, s) := by
  unfold waitLoop
  rw [h]
  cases fuel <;> rfl

theorem waitLoop_zero (w : World) (s : Worker) (v : Nat) (h : bytes_available s.card = .ok v) :
    waitLoop w 0 s
      = if v < mul64 s.card.block_threshold s.card.block_size then (.fuel, s) else (.next, s) := by
  unfold waitLoop
  rw [h]

theorem waitLoop_succ (w : World) (fuel : Nat) (s : Worker) (v : Nat)
    (h : bytes_available s.card = .ok v) :
    waitLoop w (fuel + 1) s
      = if v < mul64 s.card.block_threshold s.card.block_size then
          if w.marker s.loads = true then
            waitLoop w fuel (read_current_address w
              { s with
                card := if s.card.interrupt_mode = true then
                          s.card.act [.lock, .irq_wait, .unlock]
                        else s.card.act [.sleep s.card.poll_time]
                loads := s.loads + 1 })
          else (.returned, { s with loads := s.loads + 1 })
        else (.next, s) := by
  conv => lhs; unfold waitLoop
  rw [h]

theorem waitLoop_extends (bad : Act → Bool) (hread : bad .read_address = false) (w : World)
    (fuel : Nat) (s : Worker) (hirq : s.card.interrupt_mode = true → bad .irq_wait = false) :
    s.card.Extends bad (waitLoop w fuel s).2.card := by
  induction fuel generalizing s with
  | zero =>
    cases hb : bytes_available s.card with
    | error f => rw [waitLoop_error w 0 s f hb]; exact extends_refl bad _
    | ok v =>
      rw [waitLoop_zero w s v hb]
      split <;> exact extends_refl bad _
  | succ fuel ih =>
    cases hb : bytes_available s.card with
    | error f => rw [waitLoop_error w _ s f hb]; exact extends_refl bad _
    | ok v =>
      rw [waitLoop_succ w fuel s v hb]
      split
      · split
        · by_cases him : s.card.interrupt_mode = true
          · have h1 : s.card.Extends bad (s.card.act [.lock, .irq_wait, .unlock]) :=
              extends_of_trace bad _ _ [.lock, .irq_wait, .unlock] rfl rfl
                (scan_locked bad _ (hirq him) (by simp) (by simp))
            simp only [him, if_true]
            have h2 := read_current_address_extends bad hread w
              { s with card := s.card.act [.lock, .irq_wait, .unlock], loads := s.loads + 1 }
            have h12 := extends_trans bad _ _ _ h1 h2
            refine extends_trans bad _ _ _ h12 (ih _ ?_)
            intro h
            exact hirq (by rw [← h12.1]; exact h)
          · have h1 : s.card.Extends bad (s.card.act [.sleep s.card.poll_time]) :=
              extends_of_trace bad _ _ [.sleep s.card.poll_time] rfl rfl
                (scan_free bad _ (by simp) (by simp))
            simp only [him, if_false]
            have h2 := read_current_address_extends bad hread w
              { s with card := s.card.act [.sleep s.card.poll_time], loads := s.loads + 1 }
            have h12 := extends_trans bad _ _ _ h1 h2
            refine extends_trans bad _ _ _ h12 (ih _ ?_)
            intro h
            exact hirq (by rw [← h12.1]; exact h)
        · exact extends_refl bad _
      · exact extends_refl bad _

theorem drainLoop_extends (bad : Act → Bool) (wi fuel : Nat) (c : Card) (bytes : Nat) :
    c.Extends bad (drainLoop wi fuel c bytes).2.1 := by
  induction fuel generalizing c bytes with
  | zero =>
    unfold drainLoop
    split <;> exact extends_refl bad _
  | succ fuel ih =>
    unfold drainLoop
    split
    · simp only
      have h1 : c.Extends bad
          (if c.block_addr_handler_available = true then
            c.act [.handle_block_addr (add64 c.virt_addr (mul64 c.read_index c.block_size))]
           else c) := by
        split
        · exact extends_of_trace bad _ _ [_] rfl rfl (scan_free bad _ (by simp) (by simp))
        · exact extends_refl bad _
      split
      · exact h1
      · refine extends_trans bad _ _ _ h1 (extends_trans bad _ _ _ ?_ (ih _ _))
        exact extends_of_trace bad _ _ [] rfl (List.append_nil _).symm rfl
    · exact extends_refl bad _

theorem drainPass_extends (bad : Act → Bool) (fuel : Nat) (c : Card) :
    c.Extends bad (drainPass fuel c).2.1 := by
  unfold drainPass
  split
  · exact extends_refl bad _
  · exact drainLoop_extends bad _ fuel c 0

theorem advancePointer_extends (bad : Act → Bool) (hset : ∀ i d, bad (.dma_set_ptr i d) = false)
    (c : Card) (wi : Nat) : c.Extends bad (advancePointer c wi) :=
  extends_of_trace bad _ _ [.lock, .dma_set_ptr c.dma_id (newDestination c wi), .unlock] rfl rfl
    (scan_locked bad _ (hset _ _) (by simp) (by simp))

theorem process_DMA_extends (bad : Act → Bool) (hread : bad .read_address = false)
    (hset : ∀ i d, bad (.dma_set_ptr i d) = false) (w : World) (inner fuel : Nat) (s : Worker)
    (hirq : s.card.interrupt_mode = true → bad .irq_wait = false) :
    s.card.Extends bad (process_DMA w inner fuel s).2.card := by
  induction fuel generalizing s with
  | zero =>
    unfold process_DMA
    split <;> exact extends_refl bad _
  | succ fuel ih =>
    unfold process_DMA
    split
    · simp only
      have hp := pollLoop_extends bad hread w inner { s with loads := s.loads + 1 }
      revert hp
      generalize pollLoop w inner { s with loads := s.loads + 1 } = rp
      rcases rp with ⟨f1, s1⟩
      intro hp
      simp only at hp
      have hirq1 : s1.card.interrupt_mode = true → bad .irq_wait = false :=
        fun h => hirq (by rw [← hp.1]; exact h)
      cases f1 <;> try exact hp
      simp only
      have hw := waitLoop_extends bad hread w inner s1 hirq1
      revert hw
      generalize waitLoop w inner s1 = rw
      rcases rw with ⟨f2, s2⟩
      intro hw
      simp only at hw
      have h02 := extends_trans bad _ _ _ hp hw
      cases f2 <;> try exact h02
      simp only
      have hd := drainPass_extends bad inner s2.card
      revert hd
      generalize drainPass inner s2.card = rd
      rcases rd with ⟨f3, c3, wi, b⟩
      intro hd
      simp only at hd
      have h03 := extends_trans bad _ _ _ h02 hd
      cases f3 <;> try exact h03
      simp only
      have h04 := extends_trans bad _ _ _ h03 (advancePointer_extends bad hset c3 wi)
      refine extends_trans bad _ _ _ h04 (ih _ ?_)
      intro h
      exact hirq (by rw [← h04.1]; exact h)
    · exact extends_refl bad _

/-- C17 (as stated, refuted): in interrupt mode with not enough data, one round
of `process_DMA` takes the lock, waits for the interrupt and only then releases
the lock: a notification wait lies between the acquisition and the release. -/
theorem irq_wait_is_under_lock :
    irqCard.interrupt_mode = true
      ∧ (process_DMA irqWorld 1 2 ⟨irqCard, 0, 0⟩).1 = .returned
      ∧ (process_DMA irqWorld 1 2 ⟨irqCard, 0, 0⟩).2.card.trace
          = [.lock, .irq_wait, .unlock, .lock, .read_address, .unlock,
             .handle_block_addr 0x7f0000, .lock, .dma_set_ptr 0 0x10000, .unlock]
      ∧ ¬ NoneUnderLock isWait (process_DMA irqWorld 1 2 ⟨irqCard, 0, 0⟩).2.card.trace := by
  refine ⟨by decide, by decide, by decide, by decide⟩

/-- C17 (amended): the actions any run of `process_DMA` adds to the trace, whether
it returns or is still running when the fuel ends, keep the lock discipline for
sleeps in both modes: no sleep lies between a lock acquisition and the matching
release. In poll mode the same holds for every wait, the notification wait
included. In interrupt mode the lock is taken around the device call `irq_wait`
and so is held across that wait. -/
theorem lock_not_held_across_sleep (w : World) (inner fuel : Nat) (s : Worker) :
    ∃ acts, (process_DMA w inner fuel s).2.card.trace = s.card.trace ++ acts
      ∧ NoneUnderLock isSleep acts
      ∧ (s.card.interrupt_mode = false → NoneUnderLock isWait acts) := by
  obtain ⟨_, a1, ht1, hs1⟩ :=
    process_DMA_extends isSleep rfl (fun _ _ => rfl) w inner fuel s (fun _ => rfl)
  refine ⟨a1, ht1, hs1, fun hm => ?_⟩
  obtain ⟨_, a2, ht2, hs2⟩ :=
    process_DMA_extends isWait rfl (fun _ _ => rfl) w inner fuel s
      (fun h => by rw [hm] at h; exact absurd h (by decide))
  rw [ht1] at ht2
  rw [List.append_cancel_left ht2]
  exact hs2

theorem lock_not_held_across_sleep_witness :
    ∃ acts, (process_DMA irqWorld 1 2 ⟨{ irqCard with interrupt_mode := false }, 0, 0⟩).2.card.trace
        = ({ irqCard with interrupt_mode := false } : Card).trace ++ acts
      ∧ NoneUnderLock isSleep acts
      ∧ (({ irqCard with interrupt_mode := false } : Card).interrupt_mode = false →
          NoneUnderLock isWait acts) :=
  lock_not_held_across_sleep irqWorld 1 2 ⟨{ irqCard with interrupt_mode := false }, 0, 0⟩

/-! ## The fit check of `generateFm` -/

/-- C18 (the code at the failing input): with 6 slots, `req_chunksize = 8` and
`idle_chars = 0` the count `max_chunkcnt` is `(6 - 2) / 4 = 1`, and the one chunk
(SOP, header, width word, EOP) would take the slots 2 to 5; but `next_index = 6`
satisfies `next_index >= emusize`, so the run takes the does-not-fit branch, writes
no chunk, fills the buffer with IDLE words and returns `false`. -/
theorem exact_fit_is_rejected :
    2 ≤ tightArgs.emudata.length ∧ 8 ≤ tightArgs.req_chunksize
      ∧ maxChunkCnt tightArgs
          = (tightArgs.emudata.length - 2)
              / (1 + tightArgs.req_chunksize / 4 + 1 + tightArgs.idle_chars)
      ∧ maxChunkCnt tightArgs = 1
      ∧ 2 + (1 + tightArgs.req_chunksize / 4 + 1) ≤ tightArgs.emudata.length
      ∧ generateFm tightArgs
          = .ok { emudata := List.replicate 6 FM_KCHAR_IDLE, success := false, chunkcntr := 0,
                  chunks := [] } := by
  refine ⟨by decide, by decide, by decide, by decide, by decide, by decide!⟩

/-! ## A run with `omit_one_soc` -/

theorem iterWords_soc (a : FmArgs) (hs : SocOnly a) (k chunksz : Nat) :
    iterWords a k chunksz
      = (if k = 2 then [] else [FM_KCHAR_SOP]) ++ chunkWords a k chunksz
          ++ [eopWord a k chunksz] ++ List.replicate a.idle_chars FM_KCHAR_IDLE := by
  obtain ⟨_, h2, h3, h4, _⟩ := hs
  simp [iterWords, h2, h3, h4]

theorem eopWord_ne_sop (a : FmArgs) (k chunksz : Nat) : eopWord a k chunksz ≠ FM_KCHAR_SOP := by
  rw [eopWord_eq_sum]
  have : FM_KCHAR_SOP = 2 ^ 32 + 0x3C := by decide
  rw [this]
  omega

theorem chunkWords_count_sop (a : FmArgs) (k chunksz : Nat) :
    (chunkWords a k chunksz).count FM_KCHAR_SOP = 0 := by
  rw [List.count_eq_zero]
  intro hm
  exact absurd (chunkWords_lt a k chunksz _ hm) (by decide)

theorem idle_count_sop (n : Nat) : (List.replicate n FM_KCHAR_IDLE).count FM_KCHAR_SOP = 0 := by
  rw [List.count_eq_zero]
  intro hm
  exact absurd (List.eq_of_mem_replicate hm) (by decide)

theorem iterWords_soc_count (a : FmArgs) (hs : SocOnly a) (k chunksz : Nat) :
    (iterWords a k chunksz).count FM_KCHAR_SOP = if k = 2 then 0 else 1 := by
  rw [iterWords_soc a hs]
  simp only [List.count_append, chunkWords_count_sop, idle_count_sop,
    List.count_cons_of_ne (eopWord_ne_sop a k chunksz).symm, List.count_nil]
  split <;> simp

theorem blocks_soc_count (a : FmArgs) (hs : SocOnly a) (k m : Nat) :
    (blocks a k m).count FM_KCHAR_SOP = m - (if k ≤ 2 ∧ 2 < k + m then 1 else 0) := by
  induction m generalizing k with
  | zero => simp [blocks]
  | succ m ih =>
    rw [blocks, List.count_append, iterWords_soc_count a hs, ih (k + 1)]
    split <;> split <;> split <;> omega

/-- The last word of a block of a run with `omit_one_soc` is an IDLE or an EOP
word, not an SOP. -/
theorem iterWords_soc_last (a : FmArgs) (hs : SocOnly a) (k chunksz : Nat) :
    ∃ init w, iterWords a k chunksz = init ++ [w] ∧ w ≠ FM_KCHAR_SOP := by
  rw [iterWords_soc a hs]
  rcases Nat.eq_zero_or_pos a.idle_chars with h0 | h0
  · rw [h0]
    exact ⟨(if k = 2 then [] else [FM_KCHAR_SOP]) ++ chunkWords a k chunksz,
      eopWord a k chunksz, by simp, eopWord_ne_sop a k chunksz⟩
  · obtain ⟨n, hn⟩ : ∃ n, a.idle_chars = n + 1 := ⟨a.idle_chars - 1, by omega⟩
    rw [hn, List.replicate_succ']
    exact ⟨(if k = 2 then [] else [FM_KCHAR_SOP]) ++ chunkWords a k chunksz
        ++ [eopWord a k chunksz] ++ List.replicate n FM_KCHAR_IDLE,
      FM_KCHAR_IDLE, by simp, by decide⟩

theorem blocks_soc_last (a : FmArgs) (hs : SocOnly a) (k m : Nat) :
    ∃ init w, blocks a k (m + 1) = init ++ [w] ∧ w ≠ FM_KCHAR_SOP := by
  obtain ⟨init, w, h1, h2⟩ := iterWords_soc_last a hs (k + m) (csz a (k + m))
  exact ⟨blocks a k m ++ init, w, by rw [blocks_succ_last, h1, List.append_assoc], h2⟩

/-- The slot in front of a header word holds an SOP, except for the chunk with
counter 2. -/
theorem header_pred_soc (a : FmArgs) (r : FmResult) (hp : FmPost a r) (hs : SocOnly a)
    (c : ChunkRec) (hc : c ∈ r.chunks) :
    1 ≤ c.hdr ∧ ∃ w, r.emudata[c.hdr - 1]? = some w ∧ (w = FM_KCHAR_SOP ↔ c.cntr ≠ 2) := by
  by_cases h2 : c.cntr = 2
  · obtain ⟨_, _, _, hem, hch, _⟩ := hp
    rw [hch] at hc
    obtain ⟨j, hj, h1, _, h3, _⟩ := recs_mem a 2 0 _ c hc
    simp only [Nat.zero_add] at h1 h3
    have hj2 : j = 2 := by omega
    subst hj2
    obtain ⟨post1, hb⟩ := blocks_split a 0 _ 2 hj
    obtain ⟨init, w, hl, hw⟩ := blocks_soc_last a hs 0 1
    have hsl : sopLen a 2 = 0 := by simp [sopLen, hs.2.2.1]
    rw [hsl, hl] at h3
    simp only [List.length_append, List.length_singleton] at h3
    refine ⟨by omega, w, ?_, by simp [h2, hw]⟩
    generalize List.replicate (a.emudata.length - (2 + (blocks a 0 r.chunkcntr).length))
      FM_KCHAR_IDLE = fill at hem
    rw [hem, hb, hl]
    have hidx : c.hdr - 1 = (FM_KCHAR_IDLE :: FM_KCHAR_IDLE :: init).length + 0 := by
      simp only [List.length_cons]; omega
    rw [hidx]
    have := getElem?_mid (FM_KCHAR_IDLE :: FM_KCHAR_IDLE :: init) [w]
      (iterWords a (0 + 2) (csz a (0 + 2)) ++ post1 ++ fill) 0 (by simp)
    simpa using this
  · obtain ⟨pre, post, hem, hpre, _, _, _, hsop⟩ := chunk_layout a r hp c hc
    obtain ⟨pre1, hp1⟩ := hsop (by simp [sopLen, h2])
    have hlen : c.hdr = pre1.length + 1 := by rw [← hpre, hp1]; simp
    refine ⟨by omega, FM_KCHAR_SOP, ?_, by simp [h2]⟩
    rw [hem, hp1]
    have hidx : c.hdr - 1 = pre1.length + 0 := by omega
    rw [hidx]
    have := getElem?_mid pre1 [FM_KCHAR_SOP]
      (chunkWords a c.cntr c.chunksz
        ++ (if a.omit_one_eoc = true ∧ c.cntr = 2 then [] else [eopWord a c.cntr c.chunksz])
        ++ post) 0 (by simp)
    simpa using this

theorem recs_cntrs (a : FmArgs) (off k m : Nat) :
    (recs a off k m).map ChunkRec.cntr = (List.range m).map (fun j => k + j) := by
  induction m generalizing off k with
  | zero => simp [recs]
  | succ m ih =>
    rw [recs, List.map_cons, ih, List.range_succ_eq_map, List.map_cons, List.map_map]
    simp only [Nat.add_zero, List.cons.injEq, true_and]
    apply List.map_congr_left
    intro j _
    simp only [Function.comp]
    omega

/-- Without `add_crc_err` and `omit_one_eoc`, the slots of a chunk hold its header
word, width word and payload words, and the slot behind them the EOP word with
their `crc20` in bits 8-27. -/
theorem chunk_slice_and_eop (a : FmArgs) (r : FmResult) (hp : FmPost a r)
    (h8 : 8 ≤ a.req_chunksize)
    (hrnd : a.random_sz = true → a.req_chunksize + 3 < 2 ^ 32)
    (herr : a.add_crc_err = false) (heoc : a.omit_one_eoc = false)
    (c : ChunkRec) (hc : c ∈ r.chunks) :
    (r.emudata.drop c.hdr).take (c.chunksz / 4)
        = chunkHeader a.use_streamid c.cntr (c.chunksz - 8) :: 0x10AABB00
            :: payloadWords a.pattern_id ((c.chunksz - 8) / 4)
      ∧ c.eop = c.hdr + c.chunksz / 4
      ∧ ∃ w, r.emudata[c.eop]? = some w
          ∧ w &&& 0xFF = 0xDC
          ∧ (w >>> 8) &&& 0xFFFFF
              = crc20 ((r.emudata.drop c.hdr).take (c.chunksz / 4)) a.crc_new := by
  obtain ⟨pre, post, hem, hpre, heop, hsz, _, _⟩ := chunk_layout a r hp c hc
  have hc8 : 8 ≤ c.chunksz := by rw [hsz]; exact csz_ge a h8 hrnd _
  have hlen : (chunkWords a c.cntr c.chunksz).length = c.chunksz / 4 := by
    rw [chunkWords_length, dataSz_of_ge _ hc8]; omega
  rw [if_neg (by simp [heoc])] at hem
  have hslice : (r.emudata.drop c.hdr).take (c.chunksz / 4) = chunkWords a c.cntr c.chunksz := by
    rw [hem, ← hpre, ← hlen, List.append_assoc (pre ++ _)]
    exact drop_take_mid pre _ _
  have hcrc : storedCrc a c.cntr c.chunksz
      = crc20 (chunkWords a c.cntr c.chunksz) a.crc_new := by
    rw [storedCrc_of_no_err a _ _ (by simp [herr]), crcInput_eq a _ _ hc8]
  have hfields := eopWord_fields a c.cntr c.chunksz
  rw [hcrc, Nat.mod_eq_of_lt (crc20_lt _ _)] at hfields
  rw [hslice]
  refine ⟨?_, by rw [heop, hlen], eopWord a c.cntr c.chunksz, ?_, hfields.1, hfields.2⟩
  · simp only [chunkWords, dataSz_of_ge _ hc8]
  · rw [heop, hem, ← hpre, ← List.length_append]
    have := getElem?_mid (pre ++ chunkWords a c.cntr c.chunksz) [eopWord a c.cntr c.chunksz]
      post 0 (by simp)
    simpa using this

/-- C19: in every run with `omit_one_soc` set, the other fault flags, `add_busy`
and `random_sz` off, `req_chunksize ≥ 8` and at least three chunks written, the
`N` chunks carry the counters `0 .. N-1`, the buffer holds exactly `N - 1` SOP
words, the slot in front of a chunk's header word holds an SOP for every chunk
except the one with counter 2, and every chunk, the one with counter 2 included,
is its header word, the width word, its payload words and an EOP word whose low
byte is `0xDC` and whose bits 8-27 are the `crc20` of the header, width and
payload words. -/
theorem omit_one_soc_drops_one_sop (a : FmArgs) (r : FmResult) (h : generateFm a = .ok r)
    (hs : SocOnly a) (h8 : 8 ≤ a.req_chunksize) (h32 : a.req_chunksize < 2 ^ 32)
    (h3 : 3 ≤ r.chunkcntr) :
    r.chunks.map ChunkRec.cntr = List.range r.chunkcntr
      ∧ r.emudata.count FM_KCHAR_SOP = r.chunkcntr - 1
      ∧ ∀ c ∈ r.chunks,
          1 ≤ c.hdr
          ∧ (∃ w, r.emudata[c.hdr - 1]? = some w ∧ (w = FM_KCHAR_SOP ↔ c.cntr ≠ 2))
          ∧ (r.emudata.drop c.hdr).take (c.chunksz / 4)
              = chunkHeader a.use_streamid c.cntr (c.chunksz - 8) :: 0x10AABB00
                  :: payloadWords a.pattern_id ((c.chunksz - 8) / 4)
          ∧ c.eop = c.hdr + c.chunksz / 4
          ∧ ∃ w, r.emudata[c.eop]? = some w
              ∧ w &&& 0xFF = 0xDC
              ∧ (w >>> 8) &&& 0xFFFFF
                  = crc20 ((r.emudata.drop c.hdr).take (c.chunksz / 4)) a.crc_new := by
  have hp := generateFm_spec a r h (csz_lt a h32)
  refine ⟨?_, ?_, fun c hc => ?_⟩
  · obtain ⟨_, _, _, _, hch, _⟩ := hp
    rw [hch, recs_cntrs]
    simp
  · obtain ⟨_, _, _, hem, _⟩ := hp
    have hne : FM_KCHAR_IDLE ≠ FM_KCHAR_SOP := by decide
    rw [hem, List.count_cons_of_ne hne.symm, List.count_cons_of_ne hne.symm, List.count_append,
      blocks_soc_count a hs, idle_count_sop]
    rw [if_pos ⟨by omega, by omega⟩]
    omega
  · obtain ⟨hh1, hh2⟩ := header_pred_soc a r hp hs c hc
    obtain ⟨e1, e2, e3⟩ := chunk_slice_and_eop a r hp h8 (by simp [hs.1]) hs.2.2.2.2 hs.2.2.2.1
      c hc
    exact ⟨hh1, hh2, e1, e2, e3⟩

theorem omit_one_soc_drops_one_sop_witness :
    generateFm socArgs = .ok socResult
      ∧ socResult.chunks.map ChunkRec.cntr = List.range socResult.chunkcntr
      ∧ socResult.emudata.count FM_KCHAR_SOP = socResult.chunkcntr - 1
      ∧ ∀ c ∈ socResult.chunks,
          1 ≤ c.hdr
          ∧ (∃ w, socResult.emudata[c.hdr - 1]? = some w ∧ (w = FM_KCHAR_SOP ↔ c.cntr ≠ 2))
          ∧ (socResult.emudata.drop c.hdr).take (c.chunksz / 4)
              = chunkHeader socArgs.use_streamid c.cntr (c.chunksz - 8) :: 0x10AABB00
                  :: payloadWords socArgs.pattern_id ((c.chunksz - 8) / 4)
          ∧ c.eop = c.hdr + c.chunksz / 4
          ∧ ∃ w, socResult.emudata[c.eop]? = some w
              ∧ w &&& 0xFF = 0xDC
              ∧ (w >>> 8) &&& 0xFFFFF
                  = crc20 ((socResult.emudata.drop c.hdr).take (c.chunksz / 4))
                      socArgs.crc_new :=
  ⟨by decide!,
    omit_one_soc_drops_one_sop socArgs socResult (by decide!)
      ⟨by decide, by decide, by decide, by decide, by decide⟩ (by decide) (by decide)
      (by decide)⟩

/-! ## The stores of `generateFm` -/

theorem iterWords_length_le (a : FmArgs) (hb : a.add_busy = false) (hr : a.random_sz = false)
    (h8 : 8 ≤ a.req_chunksize) (k : Nat) :
    (iterWords a k (csz a k)).length ≤ stride a
      ∧ sopLen a k + 2 + dataSz (csz a k) / 4 + 1 ≤ stride a := by
  have hs : sopLen a k ≤ 1 := by unfold sopLen; split <;> omega
  rw [iterWords_length, csz_of_not_random a k hr, dataSz_of_ge _ h8, stride]
  simp only [hb, Bool.false_eq_true, false_and, if_false]
  constructor
  · split <;> omega
  · omega

theorem blocks_length_le (a : FmArgs) (hb : a.add_busy = false) (hr : a.random_sz = false)
    (h8 : 8 ≤ a.req_chunksize) (k m : Nat) : (blocks a k m).length ≤ m * stride a := by
  induction m generalizing k with
  | zero => simp [blocks]
  | succ m ih =>
    have h1 := (iterWords_length_le a hb hr h8 k).1
    have h2 := ih (k + 1)
    rw [blocks, List.length_append, Nat.succ_mul]
    omega

/-- Without `add_busy` (and with `random_sz` off) every store of the chunks
counted by `max_chunkcnt` stays inside the buffer, whatever the other flags. -/
theorem fits_no_busy (a : FmArgs) (hb : a.add_busy = false) (hr : a.random_sz = false)
    (h8 : 8 ≤ a.req_chunksize) (h2 : 2 ≤ a.emudata.length) (hn : a.emudata.length < 2 ^ 32)
    (hs : stride a < 2 ^ 32) : Fits a a.emudata.length (maxChunkCnt a) 2 0 := by
  intro j hj
  obtain ⟨_, hmax⟩ := maxChunkCnt_eq a h2 hn hs
  rw [hmax] at hj
  simp only [Nat.zero_add] at hj ⊢
  have hdiv : (a.emudata.length - 2) / stride a * stride a ≤ a.emudata.length - 2 :=
    Nat.div_mul_le_self _ _
  have hmul : (j + 1) * stride a ≤ (a.emudata.length - 2) / stride a * stride a :=
    Nat.mul_le_mul_right _ hj
  rw [Nat.succ_mul] at hmul
  have hb1 := blocks_length_le a hb hr h8 0 j
  have hb2 := blocks_length_le a hb hr h8 0 (j + 1)
  rw [Nat.succ_mul] at hb2
  have hi := (iterWords_length_le a hb hr h8 j).2
  constructor <;> omega

/-- Without `add_busy` and `random_sz` the run returns: no store and no read of
`generateFm` leaves the buffer, for every value of the other flags. -/
theorem no_busy_run_returns (a : FmArgs) (hb : a.add_busy = false) (hr : a.random_sz = false)
    (h8 : 8 ≤ a.req_chunksize) (h32 : a.req_chunksize < 2 ^ 32)
    (h2 : 2 ≤ a.emudata.length) (hn : a.emudata.length < 2 ^ 32) (hs : stride a < 2 ^ 32) :
    ∃ r, generateFm a = .ok r := by
  obtain ⟨hd, _⟩ := maxChunkCnt_eq a h2 hn hs
  have hst : stride a = a.req_chunksize / 4 + 2 + a.idle_chars := rfl
  exact generateFm_ok a (csz_lt a h32) h2 hn (by rw [hd]; omega)
    (fits_no_busy a hb hr h8 h2 hn hs)

/-- C21 (the code at the failing input): with 7 slots, `req_chunksize = 8`,
`idle_chars = 1` and `add_busy`, `max_chunkcnt` is `(7 - 2) / 5 = 1` and the fit
check passes (`next_index = 6 < 7`); chunk 0 takes the slots 2 to 5, SOB goes to
slot 6, and the store of the IDLE word at index 7 is outside the buffer. With 9
slots the same run stores IDLE at index 7 and EOB at index 8; without `add_busy`
the 7 slots are enough. -/
theorem busy_words_overrun_buffer :
    2 ≤ busyArgs.emudata.length ∧ 8 ≤ busyArgs.req_chunksize ∧ busyArgs.random_sz = false
      ∧ maxChunkCnt busyArgs = 1
      ∧ generateFm busyArgs = .error .outOfBounds
      ∧ generateFm { busyArgs with emudata := List.replicate 9 0 } = .ok busyResult
      ∧ busyResult.emudata[6]? = some FM_KCHAR_SOB
      ∧ busyResult.emudata[7]? = some FM_KCHAR_IDLE
      ∧ busyResult.emudata[8]? = some FM_KCHAR_EOB
      ∧ ∃ r, generateFm { busyArgs with add_busy := false } = .ok r := by
  refine ⟨by decide, by decide, by decide, by decide, by decide!, by decide!, by decide,
    by decide, by decide, ?_⟩
  exact ⟨{ emudata := [0x1000000BC, 0x1000000BC, 0x10000003C, 0xAA, 0x10AABB00, 0x100225BDC,
             0x1000000BC]
           success := true
           chunkcntr := 1
           chunks := [{ cntr := 0, hdr := 3, eop := 5, chunksz := 8 }] }, by decide!⟩

/-! ## The blocks of one drain pass and `bytes_available` -/

theorem drainActs_length (c : Card) (n r0 k : Nat) :
    (drainActs c n r0 k).length = if c.block_addr_handler_available = true then k else 0 := by
  unfold drainActs drainAddrs
  split <;> simp

theorem drainActs_mem (c : Card) (n r0 k : Nat) (a : Act) (h : a ∈ drainActs c n r0 k) :
    ∃ addr, a = .handle_block_addr addr := by
  unfold drainActs at h
  split at h
  · obtain ⟨addr, _, rfl⟩ := List.mem_map.1 h
    exact ⟨addr, rfl⟩
  · simp at h

/-- The number of steps of a drain pass is the number of whole blocks in
`bytes_available`, when the region is at most `2 ^ 63` bytes. -/
theorem avail_div_block (c : Card) (hbs : 0 < c.block_size)
    (hdvd : c.block_size ∣ c.dma_memory_size) (hs63 : c.dma_memory_size ≤ 2 ^ 63)
    (hcur : c.current_addr < 2 ^ 64) (hlo : c.phys_addr ≤ c.current_addr)
    (hhi : c.current_addr < c.phys_addr + c.dma_memory_size)
    (hr : c.read_index < c.dma_memory_size / c.block_size) :
    ∃ v, bytes_available c = .ok v
      ∧ v / c.block_size
          = (writeIndex c + c.dma_memory_size / c.block_size - c.read_index)
              % (c.dma_memory_size / c.block_size) := by
  obtain ⟨hw1, hw2⟩ := writeIndex_lt c hdvd hcur hlo hhi
  obtain ⟨hx, _⟩ := mul_lt_of_lt_div _ _ _ hr
  have hxs : c.read_index * c.block_size < c.dma_memory_size := by omega
  have hm : mul64 c.read_index c.block_size = c.read_index * c.block_size :=
    Nat.mod_eq_of_lt (by omega)
  have hnb : c.dma_memory_size / c.block_size * c.block_size = c.dma_memory_size :=
    Nat.div_mul_cancel hdvd
  refine ⟨_, by unfold bytes_available; rw [if_neg (by omega)], ?_⟩
  rw [hm, ringDist _ _ _ hr hw2, hw1]
  by_cases hd : c.phys_addr + c.read_index * c.block_size ≤ c.current_addr
  · rw [avail_nonneg _ _ _ _ hs63 hcur (by omega) hxs hd,
      Nat.mod_eq_of_lt (by omega)]
    have hle : c.read_index ≤ (c.current_addr - c.phys_addr) / c.block_size :=
      (Nat.le_div_iff_mul_le hbs).2 (by omega)
    have h1 : c.block_size * c.read_index ≤ c.current_addr - c.phys_addr := by
      rw [Nat.mul_comm]; omega
    rw [if_pos hle, Nat.mul_comm c.read_index c.block_size, Nat.sub_mul_div _ _ _ h1]
  · rw [avail_neg _ _ _ _ (by omega) hcur hlo hxs (by omega)]
    have hlt : (c.current_addr - c.phys_addr) / c.block_size < c.read_index :=
      (Nat.div_lt_iff_lt_mul hbs).2 (by omega)
    rw [if_neg (by omega)]
    have hsplit : c.current_addr + c.dma_memory_size - c.phys_addr
          - c.read_index * c.block_size
        = (c.current_addr - c.phys_addr)
          + (c.dma_memory_size / c.block_size - c.read_index) * c.block_size := by
      rw [Nat.sub_mul, hnb]
      omega
    rw [hsplit, Nat.add_mul_div_right _ _ hbs]
    omega

/-- When the waiting loop is left for the drain pass, the bytes available are not
below the 64-bit product `m_block_threshold * m_block_size`. -/
theorem waitLoop_next (w : World) (fuel : Nat) (s s1 : Worker)
    (h : waitLoop w fuel s = (.next, s1)) :
    ∃ v, bytes_available s1.card = .ok v
      ∧ mul64 s1.card.block_threshold s1.card.block_size ≤ v := by
  induction fuel generalizing s with
  | zero =>
    cases hb : bytes_available s.card with
    | error f => rw [waitLoop_error w 0 s f hb] at h; simp at h
    | ok v =>
      rw [waitLoop_zero w s v hb] at h
      split at h
      · simp at h
      · simp only [Prod.mk.injEq, true_and] at h
        subst h
        exact ⟨v, hb, by omega⟩
  | succ fuel ih =>
    cases hb : bytes_available s.card with
    | error f => rw [waitLoop_error w _ s f hb] at h; simp at h
    | ok v =>
      rw [waitLoop_succ w fuel s v hb] at h
      split at h
      · split at h
        · exact ih _ h
        · simp at h
      · simp only [Prod.mk.injEq, true_and] at h
        subst h
        exact ⟨v, hb, by omega⟩

/-- C22 (as stated, refuted): two passes within the ranges of the claim. With the
region of `2 ^ 63 + 2 ^ 30` bytes of `hugeCard` the sum in `bytes_available`
wraps: it returns `2 ^ 30`, that is `2 ^ 18` blocks, while the drain pass makes
`2 ^ 51` steps, hands over `2 ^ 51` addresses and accumulates `2 ^ 63` bytes. With
the threshold `2 ^ 52` of `greedyCard` the product `block_threshold *
block_bytes` wraps to 0: the waiting loop is left at once and the pass emits one
block, fewer than the threshold. -/
theorem emitted_blocks_differ_from_available :
    (0 < hugeCard.block_size ∧ hugeCard.block_size ∣ hugeCard.dma_memory_size
      ∧ hugeCard.phys_addr ≤ hugeCard.current_addr
      ∧ hugeCard.current_addr < hugeCard.phys_addr + hugeCard.dma_memory_size
      ∧ hugeCard.read_index < hugeCard.dma_memory_size / hugeCard.block_size
      ∧ bytes_available hugeCard = .ok (2 ^ 30)
      ∧ 2 ^ 30 / hugeCard.block_size = 2 ^ 18
      ∧ ∃ c1 acts, drainPass (2 ^ 51) hugeCard = (.next, c1, 2 ^ 51, 2 ^ 63)
          ∧ c1.trace = hugeCard.trace ++ acts ∧ acts.length = 2 ^ 51)
      ∧ (0 < greedyCard.block_size ∧ greedyCard.block_size ∣ greedyCard.dma_memory_size
          ∧ greedyCard.phys_addr ≤ greedyCard.current_addr
          ∧ greedyCard.current_addr < greedyCard.phys_addr + greedyCard.dma_memory_size
          ∧ greedyCard.read_index < greedyCard.dma_memory_size / greedyCard.block_size
          ∧ bytes_available greedyCard = .ok 4096
          ∧ waitLoop (constWorld 0) 0 ⟨greedyCard, 0, 0⟩ = (.next, ⟨greedyCard, 0, 0⟩)
          ∧ drainPass 3 greedyCard
              = (.next,
                 { greedyCard with read_index := 1, trace := [.handle_block_addr 0x7f0000] },
                 1, 4096)
          ∧ ¬ greedyCard.block_threshold ≤ 1) := by
  refine ⟨⟨by decide, by decide, by decide, by decide, by decide, by rfl, by decide, ?_⟩,
    by decide, by decide, by decide, by decide, by decide, by rfl, by decide, by decide,
    by decide⟩
  have hrun := drainPass_run hugeCard (2 ^ 51) (by decide) (by decide) (by decide) (by decide)
    (by decide) (by decide) (by decide) (by decide)
  have hB : ((writeIndex hugeCard + hugeCard.dma_memory_size / hugeCard.block_size
        - hugeCard.read_index) % (hugeCard.dma_memory_size / hugeCard.block_size)
        * hugeCard.block_size) % 2 ^ 64 = 2 ^ 63 := by decide
  have hW : writeIndex hugeCard = 2 ^ 51 := by decide
  rw [hB, hW] at hrun
  refine ⟨_, _, hrun, rfl, ?_⟩
  rw [drainActs_length]
  decide

/-- C22 (amended): for `block_bytes > 0` dividing `total_bytes ≤ 2 ^ 63`, a write
pointer in `[base, base + total_bytes)` and a read index below the block count
`n`, one drain pass (with fuel for `n - 1` steps) makes `bytes_available() /
block_bytes` steps, `bytes_available` taken just before the pass: it accumulates
that number times `block_bytes` bytes, and the actions it adds are that many
handler calls when a handler is set (none otherwise). Hence a pass entered from
the waiting loop, whose condition compares with the 64-bit product
`block_threshold * block_bytes`, makes at least `block_threshold` steps when that
product is below `2 ^ 64`. -/
theorem drain_pass_emits_available_blocks (c : Card) (fuel : Nat) (hbs : 0 < c.block_size)
    (hdvd : c.block_size ∣ c.dma_memory_size) (hs63 : c.dma_memory_size ≤ 2 ^ 63)
    (hcur : c.current_addr < 2 ^ 64) (hlo : c.phys_addr ≤ c.current_addr)
    (hhi : c.current_addr < c.phys_addr + c.dma_memory_size)
    (hr : c.read_index < c.dma_memory_size / c.block_size)
    (hfuel : c.dma_memory_size / c.block_size ≤ fuel + 1) :
    ∃ v c1 bytes acts,
      bytes_available c = .ok v
        ∧ drainPass fuel c = (.next, c1, writeIndex c, bytes)
        ∧ c1.trace = c.trace ++ acts
        ∧ (∀ a ∈ acts, ∃ addr, a = Act.handle_block_addr addr)
        ∧ acts.length = (if c.block_addr_handler_available = true then v / c.block_size else 0)
        ∧ bytes = v / c.block_size * c.block_size
        ∧ (c.block_threshold * c.block_size < 2 ^ 64 →
            (mul64 c.block_threshold c.block_size ≤ v → c.block_threshold ≤ v / c.block_size)
            ∧ ∀ (w : World) (f : Nat) (s : Worker) (loads reads : Nat),
                waitLoop w f s = (.next, ⟨c, loads, reads⟩) →
                  c.block_threshold ≤ v / c.block_size) := by
  obtain ⟨v, hv, hk⟩ := avail_div_block c hbs hdvd hs63 hcur hlo hhi hr
  have hw2 := (writeIndex_lt c hdvd hcur hlo hhi).2
  have hklt : v / c.block_size < c.dma_memory_size / c.block_size := by
    rw [hk]; exact Nat.mod_lt _ (by omega)
  have hrun := drainPass_run c fuel hbs hdvd (by omega) hcur hlo hhi hr (by rw [← hk]; omega)
  rw [← hk] at hrun
  have hnb : c.dma_memory_size / c.block_size * c.block_size ≤ c.dma_memory_size :=
    Nat.div_mul_le_self _ _
  have hkb : v / c.block_size * c.block_size < 2 ^ 64 := by
    have := Nat.mul_le_mul_right c.block_size (le_of_lt hklt)
    omega
  have hthr : c.block_threshold * c.block_size < 2 ^ 64 →
      mul64 c.block_threshold c.block_size ≤ v → c.block_threshold ≤ v / c.block_size := by
    intro h64 hle
    have : mul64 c.block_threshold c.block_size = c.block_threshold * c.block_size :=
      Nat.mod_eq_of_lt h64
    rw [this] at hle
    exact (Nat.le_div_iff_mul_le hbs).2 hle
  refine ⟨v, _, _, _, hv, hrun, rfl, drainActs_mem c _ _ _, drainActs_length c _ _ _,
    Nat.mod_eq_of_lt hkb, fun h64 => ⟨hthr h64, fun w f s loads reads hwait => ?_⟩⟩
  obtain ⟨v1, hv1, hle⟩ := waitLoop_next w f s _ hwait
  simp only at hv1 hle
  rw [hv] at hv1
  cases hv1
  exact hthr h64 hle

theorem drain_pass_emits_available_blocks_witness :
    ∃ v c1 bytes acts,
      bytes_available { smallCard with current_addr := 0x10000 + 8192 } = .ok v
        ∧ drainPass 3 { smallCard with current_addr := 0x10000 + 8192 }
            = (.next, c1, writeIndex { smallCard with current_addr := 0x10000 + 8192 }, bytes)
        ∧ c1.trace = ({ smallCard with current_addr := 0x10000 + 8192 } : Card).trace ++ acts
        ∧ (∀ a ∈ acts, ∃ addr, a = Act.handle_block_addr addr)
        ∧ acts.length = (if smallCard.block_addr_handler_available = true then
                          v / smallCard.block_size else 0)
        ∧ bytes = v / smallCard.block_size * smallCard.block_size
        ∧ (smallCard.block_threshold * smallCard.block_size < 2 ^ 64 →
            (mul64 smallCard.block_threshold smallCard.block_size ≤ v →
              smallCard.block_threshold ≤ v / smallCard.block_size)
            ∧ ∀ (w : World) (f : Nat) (s : Worker) (loads reads : Nat),
                waitLoop w f s
                    = (.next, ⟨{ smallCard with current_addr := 0x10000 + 8192 }, loads, reads⟩) →
                  smallCard.block_threshold ≤ v / smallCard.block_size) :=
  drain_pass_emits_available_blocks { smallCard with current_addr := 0x10000 + 8192 } 3
    (by decide) (by decide) (by decide) (by decide) (by decide) (by decide) (by decide)
    (by decide)

/-! ## The random chunk size at the top of the 32-bit range -/

theorem csz_wrapped (a : FmArgs) (hw : Wrapped a) (k : Nat) : csz a k = 0 := by
  obtain ⟨_, hreq, hrnd, _⟩ := hw
  simp only [csz, chunkSize, hreq, hrnd]
  norm_num
  omega

theorem dataSz_zero : dataSz 0 / 4 = 2 ^ 30 - 2 := by
  unfold dataSz
  norm_num

theorem maxChunkCnt_wrapped (a : FmArgs) (hw : Wrapped a) :
    fmDivisor a = 2 ^ 30 + 1 ∧ maxChunkCnt a = 1 := by
  obtain ⟨hlen, hreq, _, hidle, _⟩ := hw
  have hd : fmDivisor a = 2 ^ 30 + 1 := by
    unfold fmDivisor
    rw [hreq, hidle]
    norm_num
  refine ⟨hd, ?_⟩
  unfold maxChunkCnt
  rw [hd, hlen]
  norm_num

theorem iterWords_length_wrapped (a : FmArgs) (hw : Wrapped a) (k : Nat) :
    sopLen a k = 1 ∧ (iterWords a k (csz a k)).length = 2 ^ 30 + 2 := by
  have hc := csz_wrapped a hw k
  obtain ⟨_, _, _, hidle, hbusy, hsoc, heoc⟩ := hw
  have hs : sopLen a k = 1 := by simp [sopLen, hsoc]
  refine ⟨hs, ?_⟩
  rw [iterWords_length, hs, hc, dataSz_zero, hidle]
  simp only [hbusy, heoc, Bool.false_eq_true, false_and, if_false]
  norm_num

theorem fits_wrapped (a : FmArgs) (hw : Wrapped a) :
    Fits a a.emudata.length (maxChunkCnt a) 2 0 := by
  intro j hj
  rw [(maxChunkCnt_wrapped a hw).2] at hj
  have hj0 : j = 0 := by omega
  subst hj0
  obtain ⟨hs, hi⟩ := iterWords_length_wrapped a hw 0
  have hc := csz_wrapped a hw 0
  rw [hc] at hi
  simp only [Nat.zero_add, Nat.add_zero, blocks, List.length_nil, List.append_nil, hs, hi, hc,
    dataSz_zero, hw.1]
  constructor <;> norm_num

theorem crcInput_zero (a : FmArgs) (k : Nat) : crcInput a k 0 = [] := by
  apply List.eq_nil_of_length_eq_zero
  rw [crcInput_length]

theorem eopWord_zero (a : FmArgs) :
    eopWord a 0 0 = FM_KCHAR_EOP ||| (crc20 [] a.crc_new <<< 8) := by
  unfold eopWord
  rw [storedCrc_of_no_err a 0 0 (by simp), crcInput_zero]

/-- The run at the top of the 32-bit range returns. Its one chunk has
`chunksz = 0`: header at slot 3, width word, `2 ^ 30 - 2` payload words, and at
slot `2 ^ 30 + 3` an EOP word with the `crc20` of no words. -/
theorem wrapped_run (a : FmArgs) (hw : Wrapped a) :
    ∃ r, generateFm a = .ok r
      ∧ r.chunks = [{ cntr := 0, hdr := 3, eop := 2 ^ 30 + 3, chunksz := 0 }]
      ∧ r.emudata[3]? = some (chunkHeader a.use_streamid 0 (2 ^ 32 - 8))
      ∧ r.emudata[2 ^ 30 + 3]? = some (FM_KCHAR_EOP ||| (crc20 [] a.crc_new <<< 8)) := by
  have hcs : ∀ k, csz a k < 2 ^ 32 := fun k => by rw [csz_wrapped a hw k]; norm_num
  obtain ⟨hd, hmax⟩ := maxChunkCnt_wrapped a hw
  obtain ⟨r, hr⟩ := generateFm_ok a hcs (by rw [hw.1]; norm_num) (by rw [hw.1]; norm_num)
    (by rw [hd]; norm_num) (fits_wrapped a hw)
  have hp := generateFm_spec a r hr hcs
  obtain ⟨_, _, _, _, hch, p6, _, p8⟩ := id hp
  have hcnt : r.chunkcntr = 1 := by
    rw [hmax] at p6 p8
    by_contra hne
    have h0 : r.chunkcntr = 0 := by omega
    have h8 := p8 (by omega)
    rw [h0] at h8
    simp only [blocks, List.length_nil, csz_wrapped a hw, hw.1] at h8
    norm_num at h8
  have hds : dataSz 0 = 2 ^ 32 - 8 := by unfold dataSz; norm_num
  have hchunks : r.chunks = [{ cntr := 0, hdr := 3, eop := 2 ^ 30 + 3, chunksz := 0 }] := by
    rw [hch, hcnt]
    simp only [recs, (iterWords_length_wrapped a hw 0).1, csz_wrapped a hw, dataSz_zero]
    norm_num
  refine ⟨r, hr, hchunks, ?_, ?_⟩
  · obtain ⟨pre, post, hem, hpre, _, _, _, _⟩ :=
      chunk_layout a r hp ⟨0, 3, 2 ^ 30 + 3, 0⟩ (by rw [hchunks]; simp)
    simp only at hem hpre
    have hcw : chunkWords a 0 0
        = chunkHeader a.use_streamid 0 (dataSz 0) :: 0x10AABB00
            :: payloadWords a.pattern_id (dataSz 0 / 4) := rfl
    have hidx : 3 = pre.length + 0 := by omega
    rw [hem, List.append_assoc (pre ++ _), hidx,
      getElem?_mid pre (chunkWords a 0 0) _ 0 (by rw [chunkWords_length]; omega), hcw, hds]
    rfl
  · obtain ⟨pre, post, hem, hpre, _, _, _, _⟩ :=
      chunk_layout a r hp ⟨0, 3, 2 ^ 30 + 3, 0⟩ (by rw [hchunks]; simp)
    simp only at hem hpre
    rw [if_neg (by simp [hw.2.2.2.2.2.2])] at hem
    have hidx : 2 ^ 30 + 3 = (pre ++ chunkWords a 0 0).length + 0 := by
      rw [List.length_append, hpre, chunkWords_length, dataSz_zero]
      norm_num
    rw [hem, hidx, getElem?_mid (pre ++ chunkWords a 0 0) [eopWord a 0 0] post 0 (by simp),
      eopWord_zero]
    rfl

/-- C3 (as stated, refuted): `wrapArgs` has `req_chunksize = 2 ^ 32 - 1 ≥ 8` and
both fault flags off. With `random_sz` on, `sz = (req_chunksize + 1) / 2` wraps
to 0 and `chunksz` is 0; the 2^31 slots hold the one chunk of the run, whose
header is at slot 3 and whose EOP at slot `2 ^ 30 + 3` carries the `crc20` of no
words: the `chunksz / 4 = 0` words read are not the header, width and payload
words, and the EOP slot is not `chunksz / 4` slots behind the header. -/
theorem wrapped_chunk_crc_covers_no_words :
    8 ≤ wrapArgs.req_chunksize ∧ wrapArgs.req_chunksize < 2 ^ 32
      ∧ wrapArgs.add_crc_err = false ∧ wrapArgs.omit_one_eoc = false
      ∧ ∃ r, generateFm wrapArgs = .ok r
          ∧ r.chunks = [{ cntr := 0, hdr := 3, eop := 2 ^ 30 + 3, chunksz := 0 }]
          ∧ r.emudata[3]? = some (chunkHeader wrapArgs.use_streamid 0 (2 ^ 32 - 8))
          ∧ r.emudata[2 ^ 30 + 3]? = some (FM_KCHAR_EOP ||| (crc20 [] wrapArgs.crc_new <<< 8))
          ∧ ¬ ∀ c ∈ r.chunks,
              (r.emudata.drop c.hdr).take (c.chunksz / 4)
                  = chunkHeader wrapArgs.use_streamid c.cntr (c.chunksz - 8) :: 0x10AABB00
                      :: payloadWords wrapArgs.pattern_id ((c.chunksz - 8) / 4)
                ∧ c.eop = c.hdr + c.chunksz / 4
                ∧ ∃ w, r.emudata[c.eop]? = some w
                    ∧ w = ((1 <<< 32) ||| 0xDC)
                        ||| (crc20 ((r.emudata.drop c.hdr).take (c.chunksz / 4))
                              wrapArgs.crc_new <<< 8)
                    ∧ w &&& 0xFF = 0xDC
                    ∧ (w >>> 8) &&& 0xFFFFF
                        = crc20 ((r.emudata.drop c.hdr).take (c.chunksz / 4))
                            wrapArgs.crc_new := by
  have hw : Wrapped wrapArgs :=
    ⟨by simp only [wrapArgs, List.length_replicate], rfl, rfl, rfl, rfl, rfl, rfl⟩
  obtain ⟨r, hr, hch, hh, he⟩ := wrapped_run wrapArgs hw
  refine ⟨by decide, by decide, rfl, rfl, r, hr, hch, hh, he, fun hall => ?_⟩
  obtain ⟨_, h2, _⟩ := hall ⟨0, 3, 2 ^ 30 + 3, 0⟩ (by rw [hch]; simp)
  norm_num at h2

/-- C10 (as stated, refuted): the run `wrapErrArgs` has `add_crc_err` set, the
other fault flags off and `req_chunksize = 2 ^ 32 - 1 ≥ 8`. As in `wrapArgs` its
one chunk, with counter 0, has `chunksz = 0` and an EOP word, at slot
`2 ^ 30 + 3`, with the `crc20` of no words instead of the chunk's header, width
and payload words. -/
theorem wrapped_chunk_0_crc_covers_no_words :
    8 ≤ wrapErrArgs.req_chunksize ∧ wrapErrArgs.req_chunksize < 2 ^ 32
      ∧ wrapErrArgs.add_crc_err = true ∧ wrapErrArgs.omit_one_eoc = false
      ∧ wrapErrArgs.omit_one_soc = false
      ∧ ∃ r, generateFm wrapErrArgs = .ok r
          ∧ r.chunks = [{ cntr := 0, hdr := 3, eop := 2 ^ 30 + 3, chunksz := 0 }]
          ∧ r.emudata[3]? = some (chunkHeader wrapErrArgs.use_streamid 0 (2 ^ 32 - 8))
          ∧ r.emudata[2 ^ 30 + 3]? = some (FM_KCHAR_EOP ||| (crc20 [] wrapErrArgs.crc_new <<< 8))
          ∧ ¬ ∀ c ∈ r.chunks,
              (r.emudata.drop c.hdr).take (c.chunksz / 4)
                  = chunkHeader wrapErrArgs.use_streamid c.cntr (c.chunksz - 8) :: 0x10AABB00
                      :: payloadWords wrapErrArgs.pattern_id ((c.chunksz - 8) / 4)
                ∧ c.eop = c.hdr + c.chunksz / 4
                ∧ ∃ w, r.emudata[c.eop]? = some w
                    ∧ ((w >>> 8) &&& 0xFFFFF
                          = crc20 ((r.emudata.drop c.hdr).take (c.chunksz / 4))
                              wrapErrArgs.crc_new
                        ↔ c.cntr ≠ 3) := by
  have hw : Wrapped wrapErrArgs :=
    ⟨by simp only [wrapErrArgs, List.length_replicate], rfl, rfl, rfl, rfl, rfl, rfl⟩
  obtain ⟨r, hr, hch, hh, he⟩ := wrapped_run wrapErrArgs hw
  refine ⟨by decide, by decide, rfl, rfl, rfl, r, hr, hch, hh, he, fun hall => ?_⟩
  obtain ⟨h1, _, _⟩ := hall ⟨0, 3, 2 ^ 30 + 3, 0⟩ (by rw [hch]; simp)
  simp at h1

end Flx
